import Mathlib

/-
Verification of the gitpy mini version-control core (src/main.py).

Python byte strings and text strings are both modelled as `List Nat` of
byte values; all text handled by the program is manipulated byte-wise
(concatenation, splitting on a single byte, slicing), for which this
representation is behaviour-faithful.

External collaborators are modelled as follows.

* `zlib.compress` / `zlib.decompress` (a generic lossless byte
  compressor): modelled as a tagged identity encoding.  The two
  properties the program relies on are preserved: decompressing the
  output of compression returns the input byte-for-byte, and
  decompression of a byte string that is not a compressed stream fails
  (raises `zlib.error`).

* `hashlib.sha1(...).hexdigest()` (the 160-bit content digest): modelled
  as a deterministic 160-bit polynomial digest rendered as 40 lowercase
  hex characters, exactly the shape of a real hexdigest.  Collision
  freedom of SHA-1 is not assumed globally; theorems that need "these
  particular digests do not collide" take it as an explicit (decidable)
  hypothesis on the concrete contents involved, mirroring the fact that
  the program trusts digest equality as content equality.

* `bytes.fromhex` raises `ValueError` on non-hex input in Python; it is
  modelled as a total function (invalid characters map to 0) and every
  theorem that touches tree serialization restricts digests to valid
  40-character lowercase hex strings, which is the shape of every digest
  the program itself produces.
-/

namespace MiniGit

/-- Byte strings (Python `bytes`, and `str` as its encoded bytes). -/
abbrev Bytes := List Nat

/-- ASCII string literal as a byte list. -/
def strBytes (s : String) : Bytes := s.data.map Char.toNat

/-- First index of byte `b` in `s`, if any (Python `bytes.find`, which
returns -1 when absent; the absent case is handled at each use site). -/
def findByte (s : Bytes) (b : Nat) : Option Nat :=
  match s with
  | [] => none
  | c :: rest => if c = b then some 0 else (findByte rest b).map (· + 1)

/-- Python `split(sep)` on a one-byte separator: splits at every
occurrence, keeping empty pieces; `b"".split(sep) = [b""]`. -/
def splitAll (sep : Nat) : Bytes → List Bytes
  | [] => [[]]
  | c :: rest =>
      let r := splitAll sep rest
      if c = sep then [] :: r
      else
        match r with
        | h :: t => (c :: h) :: t
        | [] => [[c]]

/-- Python `sep.join(pieces)` for a one-byte separator. -/
def joinWith (sep : Nat) : List Bytes → Bytes
  | [] => []
  | [x] => x
  | x :: xs => x ++ sep :: joinWith sep xs

/-- Python `split(sep, 1)` (at most one split, at the first occurrence). -/
def splitFirst (sep : Nat) : Bytes → Option (Bytes × Bytes)
  | [] => none
  | c :: rest =>
      if c = sep then some ([], rest)
      else (splitFirst sep rest).map (fun p => (c :: p.1, p.2))

/-- Boolean prefix test on lists (Python `startswith`). -/
def isPreOf [DecidableEq α] : List α → List α → Bool
  | [], _ => true
  | _ :: _, [] => false
  | a :: as, b :: bs => decide (a = b) && isPreOf as bs

/-- Python default whitespace set for `str.strip`. -/
def isWs (c : Nat) : Bool :=
  c = 9 || c = 10 || c = 11 || c = 12 || c = 13 || c = 32

/-- Python `str.strip()`. -/
def strip (s : Bytes) : Bytes :=
  ((s.dropWhile isWs).reverse.dropWhile isWs).reverse

/-- Prefix of `s` before its last space, if `s` contains a space
(one step of Python `rsplit(' ', _)`). -/
def cutLastSpace (s : Bytes) : Option Bytes :=
  match findByte s.reverse 32 with
  | none => none
  | some i => some (s.take (s.length - 1 - i))

/-- Python `s.rsplit(' ', 2)[0]`: `s` minus its last two space-separated
tokens (fewer if `s` has fewer spaces). -/
def rsplitDrop2 (s : Bytes) : Bytes :=
  match cutLastSpace s with
  | none => s
  | some p =>
      match cutLastSpace p with
      | none => p
      | some q => q

/-- Fueled digit extraction; `fuel ≥ n` always suffices. -/
def natToDecAux : Nat → Nat → Bytes
  | 0, _ => []
  | fuel + 1, n => if n = 0 then [] else natToDecAux fuel (n / 10) ++ [n % 10 + 48]

/-- Decimal rendering of a natural number (Python `str(n)` / `len`). -/
def natToDec (n : Nat) : Bytes :=
  if n = 0 then [48] else natToDecAux n n

/-- Lowercase hex character for a value below 16. -/
def hexDigitChar (n : Nat) : Nat := if n < 10 then 48 + n else 87 + n

/-- Value of a hex character; invalid characters map to 0 (Python raises
`ValueError` there; theorems restrict to valid hex). -/
def hexVal (c : Nat) : Nat :=
  if 48 ≤ c ∧ c ≤ 57 then c - 48
  else if 97 ≤ c ∧ c ≤ 102 then c - 87
  else 0

/-- Python `bytes.fromhex`: hex character pairs to raw bytes. -/
def bytesFromHex : Bytes → Bytes
  | c1 :: c2 :: rest => (hexVal c1 * 16 + hexVal c2) :: bytesFromHex rest
  | _ => []

/-- One raw byte to two lowercase hex characters. -/
def byteToHex (b : Nat) : Bytes := [hexDigitChar (b / 16), hexDigitChar (b % 16)]

/-- Python `bytes.hex()`: raw bytes to lowercase hex characters. -/
def bytesToHex (bs : Bytes) : Bytes := bs.foldr (fun b acc => byteToHex b ++ acc) []

/-- Lowercase hex digit test. -/
def isHexLower (c : Nat) : Bool := (48 ≤ c && c ≤ 57) || (97 ≤ c && c ≤ 102 && c / 16 = 6)

/-- A valid 40-character lowercase hex digest with byte values below 256,
the shape of every digest the program produces. -/
def isHex40 (s : Bytes) : Bool := s.length = 40 && s.all isHexLower

/-- Modelled collaborator `zlib.compress`: tagged identity encoding of a
lossless compressor (see the header comment). -/
def zlibCompress (d : Bytes) : Bytes := 120 :: 156 :: d

/-- Modelled collaborator `zlib.decompress`: inverts `zlibCompress`; any
other byte string is an invalid stream and fails (`zlib.error`). -/
def zlibDecompress : Bytes → Option Bytes
  | 120 :: 156 :: rest => some rest
  | _ => none

/-- Modelled collaborator: 160-bit digest value of a byte string. -/
def sha1Nat (bs : Bytes) : Nat :=
  (bs.foldl (fun a b => a * 263 + b + 1) 1) % 2 ^ 160

/-- 160-bit value as 40 lowercase hex characters (big-endian). -/
def natToHex40 (n : Nat) : Bytes :=
  (List.range 40).map (fun i => hexDigitChar (n / 16 ^ (39 - i) % 16))

/-- Modelled collaborator `hashlib.sha1(...).hexdigest()`. -/
def sha1Hex (bs : Bytes) : Bytes := natToHex40 (sha1Nat bs)

/-- Errors raised by the Python code paths we model: a failed
decompression (`zlib.error`), a failed tuple unpacking or split
(`ValueError`/`TypeError`), or a missing object file. -/
inductive PyError where
  | zlibError
  | valueError
  | typeError
  | missing
deriving DecidableEq

/-- Header `"{type} {len(content)}\0"` from `GitObject.hash`/`serialize`
(src/main.py lines 19-25). -/
def objHeader (t c : Bytes) : Bytes := t ++ 32 :: natToDec c.length ++ [0]

/-- `GitObject.serialize` (src/main.py lines 23-25): compressed header
plus payload. -/
def gitSerialize (t c : Bytes) : Bytes := zlibCompress (objHeader t c ++ c)

/-- `GitObject.hash` (src/main.py lines 19-21): hex digest of the
uncompressed header plus payload. -/
def gitHashHex (t c : Bytes) : Bytes := sha1Hex (objHeader t c ++ c)

/-- The post-decompression part of `GitObject.deserialize` (src/main.py
lines 30-34).  Faithful to the quirk that a missing null terminator is
NOT checked: `find` returns -1, so `decompressed[:null_idx]` is
everything but the last byte and `decompressed[null_idx+1:]` is the
whole input; the only failure here is `obj_type, _ = header.split(b' ')`
not unpacking into exactly two parts (`ValueError`).  The `obj_type
.decode()` call (UTF-8) is modelled as the identity on the byte string;
every type tag handled by the program is ASCII. -/
def parseLoose (d : Bytes) : Except PyError (Bytes × Bytes) :=
  match findByte d 0 with
  | some i =>
      (match splitAll 32 (d.take i) with
       | [t, _n] => .ok (t, d.drop (i + 1))
       | _ => .error .valueError)
  | none =>
      (match splitAll 32 (d.take (d.length - 1)) with
       | [t, _n] => .ok (t, d)
       | _ => .error .valueError)

/-- `GitObject.deserialize` (src/main.py lines 27-34): decompress (a
failure propagates as `zlib.error`) and parse. -/
def gitDeserialize (data : Bytes) : Except PyError (Bytes × Bytes) :=
  match zlibDecompress data with
  | none => .error .zlibError
  | some d => parseLoose d

/-- One tree entry `(mode, name, hash)` where `hash` is a hex digest
string, exactly as held in `Tree.entries` (src/main.py line 52). -/
structure TreeEntry where
  mode : Bytes
  name : Bytes
  hashHex : Bytes
deriving DecidableEq

/-- `Tree._serialize_entries` (src/main.py lines 57-61):
`"{mode} {name}\0"` followed by the digest's raw 20 bytes. -/
def serializeEntries (es : List TreeEntry) : Bytes :=
  es.foldr (fun e acc => e.mode ++ 32 :: e.name ++ 0 :: bytesFromHex e.hashHex ++ acc) []

/-- `Tree.from_content` (src/main.py lines 67-80).  Walks the payload:
a missing null terminator ends the loop (entries so far are kept);
`mode_name.split(' ', 1)` failing to yield two parts raises `ValueError`
which discards the whole parse. -/
def treeFromContentAux : Nat → Bytes → Except PyError (List TreeEntry)
  | 0, _ => .ok []
  | fuel + 1, data =>
      match findByte data 0 with
      | none => .ok []
      | some i =>
          match splitFirst 32 (data.take i) with
          | none => .error .valueError
          | some (mode, name) =>
              match treeFromContentAux fuel (data.drop (i + 21)) with
              | .error e => .error e
              | .ok rest =>
                  .ok (⟨mode, name, bytesToHex ((data.drop (i + 1)).take 20)⟩ :: rest)

/-- Entry to the parse loop: each iteration consumes at least one byte,
so `length + 1` steps always complete the walk. -/
def treeFromContent (data : Bytes) : Except PyError (List TreeEntry) :=
  treeFromContentAux (data.length + 1) data

/-- A commit's fields, as held on a `Commit` object (src/main.py lines
86-104).  `treeHash`, `author`, `committer` are `Option` because
`Commit.from_content` can leave them `None`; normal construction always
passes strings (`some`). -/
structure CommitData where
  treeHash : Option Bytes
  parents : List Bytes
  author : Option Bytes
  committer : Option Bytes
  message : Bytes
  timestamp : Nat
deriving DecidableEq

/-- Python f-string rendering of a possibly-`None` string. -/
def optShow : Option Bytes → Bytes
  | none => strBytes "None"
  | some s => s

/-- `Commit._serialize_commit` (src/main.py lines 106-114). -/
def serializeCommit (c : CommitData) : Bytes :=
  joinWith 10
    ([strBytes "tree " ++ optShow c.treeHash]
      ++ c.parents.map (fun p => strBytes "parent " ++ p)
      ++ [strBytes "author " ++ optShow c.author ++ 32 :: natToDec c.timestamp
            ++ strBytes " +0000",
          strBytes "committer " ++ optShow c.committer ++ 32 :: natToDec c.timestamp
            ++ strBytes " +0000",
          [], c.message])

/-- Accumulator for the `Commit.from_content` parse loop. -/
structure PCAcc where
  tree : Option Bytes
  parents : List Bytes
  author : Option Bytes
  committer : Option Bytes
deriving DecidableEq

/-- The header-scanning loop of `Commit.from_content` (src/main.py lines
124-135); returns the accumulated fields and, if a blank line was hit,
the lines after it (the message lines). -/
def pcGo : List Bytes → PCAcc → PCAcc × Option (List Bytes)
  | [], acc => (acc, none)
  | l :: rest, acc =>
      if isPreOf (strBytes "tree ") l then
        pcGo rest { acc with tree := some (l.drop 5) }
      else if isPreOf (strBytes "parent ") l then
        pcGo rest { acc with parents := acc.parents ++ [l.drop 7] }
      else if isPreOf (strBytes "author ") l then
        pcGo rest { acc with author := some (rsplitDrop2 (l.drop 7)) }
      else if isPreOf (strBytes "committer ") l then
        pcGo rest { acc with committer := some (rsplitDrop2 (l.drop 10)) }
      else if l = [] then (acc, some rest)
      else pcGo rest acc

/-- `Commit.from_content` (src/main.py lines 116-137).  `now` is the
wall clock at parse time: the constructor is called without a timestamp,
so `self.timestamp = timestamp or int(time.time())` assigns the current
time, never the serialized one.  With no blank line the message is the
join of all lines (`message_start` stays 0). -/
def commitFromContent (data : Bytes) (now : Nat) : CommitData :=
  let lines := splitAll 10 data
  let (acc, msgLines?) := pcGo lines ⟨none, [], none, none⟩
  { treeHash := acc.tree
    parents := acc.parents
    author := acc.author
    committer := acc.committer
    message := joinWith 10 (match msgLines? with | some ls => ls | none => lines)
    timestamp := now }

/-- Python-dict association list: first occurrence wins on lookup, and
assignment to an existing key updates it in place (keeping its
position) while a new key is appended. -/
def dictGet? {α : Type} : List (Bytes × α) → Bytes → Option α
  | [], _ => none
  | (k, v) :: rest, q => if k = q then some v else dictGet? rest q

/-- Python dict assignment `d[k] = v`. -/
def dictSet {α : Type} : List (Bytes × α) → Bytes → α → List (Bytes × α)
  | [], k, v => [(k, v)]
  | (k1, v1) :: rest, k, v =>
      if k1 = k then (k1, v) :: rest else (k1, v1) :: dictSet rest k v

/-- Keys of a dict, in order. -/
def dictKeys {α : Type} (d : List (Bytes × α)) : List Bytes := d.map (·.1)

/-- Deletion of a key (file unlink in the working-directory model). -/
def dictRemove {α : Type} : List (Bytes × α) → Bytes → List (Bytes × α)
  | [], _ => []
  | (k1, v1) :: rest, k =>
      if k1 = k then rest else (k1, v1) :: dictRemove rest k

/-- The object store: the `objects/` directory as a map from a digest to
the stored (compressed) bytes.  The on-disk split into
`objects/<first-2-hex>/<rest>` is injective on 40-character digests, so
a flat map keyed by the full digest is equivalent. -/
abbrev Store := List (Bytes × Bytes)

/-- One `store_object` filesystem write: the object's type tag, its
payload, its digest (= the path written).  For tree objects `entries`
records the stored `Tree.entries` list (`content = serializeEntries
entries`); for other objects it is `[]`. -/
structure Event where
  etype : Bytes
  entries : List TreeEntry
  content : Bytes
  digest : Bytes
deriving DecidableEq

/-- `Repository.store_object` (src/main.py lines 183-190): computes the
digest and unconditionally writes the serialized bytes at the digest's
path (there is no existence check on the file, only on the bucket
directory).  Returns the updated store, the digest, and the write
performed. -/
def storeObject (σ : Store) (t c : Bytes) (es : List TreeEntry) :
    Store × Bytes × Event :=
  let h := gitHashHex t c
  (dictSet σ h (gitSerialize t c), h, ⟨t, es, c, h⟩)

/-- Replay of one store write. -/
def applyEvent (σ : Store) (e : Event) : Store :=
  dictSet σ e.digest (gitSerialize e.etype e.content)

/-- Replay of a sequence of store writes. -/
def applyTrace (σ : Store) (tr : List Event) : Store := tr.foldl applyEvent σ

/-- `Repository.load_object` (src/main.py lines 176-181): read the file
at the digest's path (error if absent) and deserialize it. -/
def loadObject (σ : Store) (h : Bytes) : Except PyError (Bytes × Bytes) :=
  match dictGet? σ h with
  | none => .error .missing
  | some bs => gitDeserialize bs

/-- The builder's nested Python dictionaries (`create_tree_from_index`,
src/main.py lines 242-258): an insertion-ordered dict whose values are
either blob digest strings (`strE`) or nested dicts (`dictE`). -/
inductive PyDict where
  | nil : PyDict
  | strE : Bytes → Bytes → PyDict → PyDict
  | dictE : Bytes → PyDict → PyDict → PyDict
deriving DecidableEq

/-- A Python value held in such a dict: a digest string or a dict. -/
inductive PyVal where
  | str : Bytes → PyVal
  | dict : PyDict → PyVal
deriving DecidableEq

/-- Entry construction from a key and a value. -/
def pdCons (k : Bytes) (v : PyVal) (rest : PyDict) : PyDict :=
  match v with
  | .str h => .strE k h rest
  | .dict m => .dictE k m rest

/-- Lookup in a `PyDict`. -/
def pdGet? : PyDict → Bytes → Option PyVal
  | .nil, _ => none
  | .strE k h rest, q => if k = q then some (.str h) else pdGet? rest q
  | .dictE k m rest, q => if k = q then some (.dict m) else pdGet? rest q

/-- Python dict assignment on a `PyDict`: update in place, or append. -/
def pdSet : PyDict → Bytes → PyVal → PyDict
  | .nil, k, v => pdCons k v .nil
  | .strE k1 h1 rest, k, v =>
      if k1 = k then pdCons k1 v rest else .strE k1 h1 (pdSet rest k v)
  | .dictE k1 m1 rest, k, v =>
      if k1 = k then pdCons k1 v rest else .dictE k1 m1 (pdSet rest k v)

/-- Keys of a `PyDict`, in order. -/
def pdKeys : PyDict → List Bytes
  | .nil => []
  | .strE k _ rest => k :: pdKeys rest
  | .dictE k _ rest => k :: pdKeys rest

/-- The nested-dict insertion of one multi-segment path
(src/main.py lines 250-258): walk `mid`, creating empty dicts for
missing segments, then assign the final segment to the digest.  When
the walk runs into a string value Python raises `TypeError` one access
later, before performing any mutation; the error case here returns the
same outcome (error, no mutation). -/
def insertPath (m : PyDict) (mid : List Bytes) (lastSeg h : Bytes) :
    Except PyError PyDict :=
  match mid with
  | [] => .ok (pdSet m lastSeg (.str h))
  | p :: ps =>
      match pdGet? m p with
      | some (.str _) => .error .typeError
      | some (.dict sub) =>
          match insertPath sub ps lastSeg h with
          | .error e => .error e
          | .ok sub' => .ok (pdSet m p (.dict sub'))
      | none =>
          match insertPath .nil ps lastSeg h with
          | .error e => .error e
          | .ok sub' => .ok (pdSet m p (.dict sub'))

/-- Splitting a relative path on `/` (Python `filepath.split('/')`). -/
def segsOf (p : Bytes) : List Bytes := splitAll 47 p

/-- The partition loop of `create_tree_from_index` (src/main.py lines
245-258): single-segment paths go to `files`, multi-segment paths are
threaded into the nested `dirs` structure. -/
def buildDictsStep (fd : PyDict × PyDict) (kv : Bytes × Bytes) :
    Except PyError (PyDict × PyDict) :=
  match segsOf kv.1 with
  | [] => .ok fd
  | [n] => .ok (pdSet fd.1 n (.str kv.2), fd.2)
  | p :: q :: qs =>
      match insertPath fd.2 (p :: (q :: qs).dropLast)
          ((q :: qs).getLast (List.cons_ne_nil q qs)) kv.2 with
      | .error e => .error e
      | .ok dirs' => .ok (fd.1, dirs')

/-- The partition loop itself (see `buildDictsStep`). -/
def buildDicts (idx : List (Bytes × Bytes)) : Except PyError (PyDict × PyDict) :=
  idx.foldlM buildDictsStep (.nil, .nil)

/-- `root_entries = {**files}` then `root_entries[dir] = content` for
each dir (src/main.py lines 270-272). -/
def pdMerge (files : PyDict) : PyDict → PyDict
  | .nil => files
  | .strE k h rest => pdMerge (pdSet files k (.str h)) rest
  | .dictE k m rest => pdMerge (pdSet files k (.dict m)) rest

/-- The entry-building loop of `create_tree_recursive` (src/main.py
lines 260-267): files become `('100644', name, hash)` entries; each
nested dict is built and stored first (post-order, via the inlined
recursive call plus `storeObject`) and becomes a
`('40000', name, subtree_hash)` entry. -/
def buildEntries (σ : Store) : PyDict → Store × List TreeEntry × List Event
  | .nil => (σ, [], [])
  | .strE name h rest =>
      let (σ1, es, tr) := buildEntries σ rest
      (σ1, ⟨strBytes "100644", name, h⟩ :: es, tr)
  | .dictE name m rest =>
      let (σ1, subEs, tr1) := buildEntries σ m
      let (σ2, subHash, ev) :=
        storeObject σ1 (strBytes "tree") (serializeEntries subEs) subEs
      let (σ3, es, tr2) := buildEntries σ2 rest
      (σ3, ⟨strBytes "40000", name, subHash⟩ :: es, (tr1 ++ [ev]) ++ tr2)

/-- `create_tree_recursive` (src/main.py lines 260-268): build the
entry list for one directory level, then store the resulting tree
object and return its digest. -/
def buildTree (σ : Store) (m : PyDict) : Store × Bytes × List Event :=
  let (σ1, es, tr) := buildEntries σ m
  let (σ2, h, ev) := storeObject σ1 (strBytes "tree") (serializeEntries es) es
  (σ2, h, tr ++ [ev])

/-- `Repository.create_tree_from_index` (src/main.py lines 236-273):
an empty index stores and returns the empty tree; otherwise paths are
partitioned into `files`/`dirs`, merged into the root entry dict, and
the tree is built recursively.  Errors are the `TypeError` of the
nested-dict walk. -/
def createTreeFromIndex (σ : Store) (idx : List (Bytes × Bytes)) :
    Except PyError (Store × Bytes × List Event) :=
  if idx = [] then
    let (σ1, h, ev) := storeObject σ (strBytes "tree") (serializeEntries []) []
    .ok (σ1, h, [ev])
  else
    match buildDicts idx with
    | .error e => .error e
    | .ok (files, dirs) =>
        let (σ1, h, tr) := buildTree σ (pdMerge files dirs)
        .ok (σ1, h, tr)

/-- The canonical empty-tree digest (spec section 4.4). -/
def emptyTreeDigest : Bytes := gitHashHex (strBytes "tree") []

/-- The on-disk repository state: object store, staging index (the
parsed path-to-digest mapping; a missing or unparseable index file
already loads as the empty mapping), HEAD file content (if the file
exists), branch ref file contents, and the working directory as a map
from relative file path to file bytes (directories are implicit). -/
structure Repo where
  store : Store
  index : List (Bytes × Bytes)
  head : Option Bytes
  refs : List (Bytes × Bytes)
  workdir : List (Bytes × Bytes)
deriving DecidableEq

/-- `Repository.get_current_branch` (src/main.py lines 275-281). -/
def getCurrentBranch (head : Option Bytes) : Bytes :=
  match head with
  | none => strBytes "main"
  | some s =>
      let sc := strip s
      if isPreOf (strBytes "ref: refs/heads/") sc then sc.drop 16
      else strBytes "HEAD"

/-- `Repository.get_branch_commit` (src/main.py lines 283-287): the
stripped ref file content, or `None` when the ref file is absent. -/
def getBranchCommit (refs : List (Bytes × Bytes)) (b : Bytes) : Option Bytes :=
  (dictGet? refs b).map strip

/-- Python truthiness of an optional string: `None` and `""` are falsy. -/
def truthy : Option Bytes → Option Bytes
  | some s => if s = [] then none else some s
  | none => none

/-- Content written to HEAD for a branch (src/main.py lines 369, 374). -/
def headRef (branch : Bytes) : Bytes :=
  strBytes "ref: refs/heads/" ++ branch ++ [10]

/-- Outcome of `Repository.commit`: success with the new digest, the
"No changes to commit (Up to date)" no-op report, or a propagated
exception (caught by `main`, which prints the error and exits). -/
inductive CommitOutcome where
  | committed : Bytes → CommitOutcome
  | noop
  | err
deriving DecidableEq

/-- `Repository.commit` (src/main.py lines 293-322).  `now` is the wall
clock.  Note the order: the tree is built (storing tree objects) before
the empty-index and unchanged-tree no-op checks.  Returns the new
state, the outcome, and the store writes performed. -/
def commitOp (r : Repo) (message author : Bytes) (now : Nat) :
    Repo × CommitOutcome × List Event :=
  match createTreeFromIndex r.store r.index with
  | .error _ => (r, .err, [])
  | .ok (σ1, treeHash, tr) =>
      let branch := getCurrentBranch r.head
      let parent? := truthy (getBranchCommit r.refs branch)
      let parentHashes := match parent? with | some p => [p] | none => []
      if r.index = [] then ({ r with store := σ1 }, .noop, tr)
      else
        let finish : Repo × CommitOutcome × List Event :=
          let cd : CommitData :=
            ⟨some treeHash, parentHashes, some author, some author, message, now⟩
          let (σ2, chash, ev) := storeObject σ1 (strBytes "commit") (serializeCommit cd) []
          ({ r with store := σ2
                    refs := dictSet r.refs branch (chash ++ [10])
                    index := [] },
            .committed chash, tr ++ [ev])
        match parent? with
        | some p =>
            match loadObject σ1 p with
            | .error _ => ({ r with store := σ1 }, .err, tr)
            | .ok (_, c) =>
                if (commitFromContent c now).treeHash = some treeHash then
                  ({ r with store := σ1 }, .noop, tr)
                else finish
        | none => finish

/-- List-as-set insertion (Python `set.add`). -/
def setInsert (l : List Bytes) (x : Bytes) : List Bytes :=
  if x ∈ l then l else l ++ [x]

/-- List-as-set union (Python `set.update`). -/
def setUnion (l : List Bytes) (m : List Bytes) : List Bytes :=
  m.foldl setInsert l

/-- `Repository.get_files_from_tree_recursive` (src/main.py lines
323-340): load the object at `h`, parse it as a tree, and collect
`pre ++ name` for `100*` entries and the recursive flatten for `400*`
entries.  Any exception in the `try` block (missing object, parse
failure) is caught and yields the files collected so far, which at
those points is the empty set.  The result is a Python `set`; it is
modelled as a duplicate-free list in discovery order and consumed only
up to membership.  `fuel` bounds the recursion depth (Python's
recursion limit); fuel exhaustion yields the empty set for that
subtree, and every theorem supplies sufficient fuel. -/
def getFiles : Nat → Store → Bytes → Bytes → List Bytes
  | 0, _, _, _ => []
  | fuel + 1, σ, h, pre =>
      match loadObject σ h with
      | .error _ => []
      | .ok (_, c) =>
          match treeFromContent c with
          | .error _ => []
          | .ok es =>
              es.foldl (fun acc e =>
                if isPreOf (strBytes "100") e.mode then setInsert acc (pre ++ e.name)
                else if isPreOf (strBytes "400") e.mode then
                  setUnion acc (getFiles fuel σ e.hashHex (pre ++ e.name ++ [47]))
                else acc) []

/-- The entry-processing step of `get_files_from_tree_recursive`
(the loop body of src/main.py lines 329-335), named for reuse in
proofs; `getFiles` folds exactly this function. -/
def gfStep (fuel : Nat) (σ : Store) (pre : Bytes) (acc : List Bytes)
    (e : TreeEntry) : List Bytes :=
  if isPreOf (strBytes "100") e.mode then setInsert acc (pre ++ e.name)
  else if isPreOf (strBytes "400") e.mode then
    setUnion acc (getFiles fuel σ e.hashHex (pre ++ e.name ++ [47]))
  else acc

/-- Whether `k` lies strictly under directory `p` (segment-wise). -/
def isUnderDir (p k : Bytes) : Bool := isPreOf (p ++ [47]) k

/-- Removal of one path from the working directory (the clearing loop
of `restoring_working_directory`, src/main.py lines 383-395): a file is
unlinked; a directory has every file under it removed; anything else is
skipped. -/
def clearOne (wd : List (Bytes × Bytes)) (p : Bytes) : List (Bytes × Bytes) :=
  if p ∈ dictKeys wd then dictRemove wd p
  else if wd.any (fun kv => isUnderDir p kv.1) then
    wd.filter (fun kv => !isUnderDir p kv.1)
  else wd

/-- Clearing every collected path.  The Python iteration order over the
set is opaque; the result is order-independent for the states reachable
here, and no theorem depends on the order. -/
def clearPaths (wd : List (Bytes × Bytes)) (ps : List Bytes) : List (Bytes × Bytes) :=
  ps.foldl clearOne wd

/-- `Repository.restore_tree` (src/main.py lines 402-421): walk the
tree at `h`, writing blob contents for `100*` entries and recursing
into directories for `400*` entries.  A failure inside the `try`
(missing object; `mkdir` over an existing file) aborts the rest of this
node's entries but keeps earlier writes — modelled by the boolean abort
flag threaded through the fold; each recursive call catches its own
errors. -/
def restoreTree : Nat → Store → Bytes → Bytes → List (Bytes × Bytes) →
    List (Bytes × Bytes)
  | 0, _, _, _, wd => wd
  | fuel + 1, σ, h, pre, wd =>
      match loadObject σ h with
      | .error _ => wd
      | .ok (_, c) =>
          match treeFromContent c with
          | .error _ => wd
          | .ok es =>
              (es.foldl (fun acc e =>
                if acc.2 then acc
                else if isPreOf (strBytes "100") e.mode then
                  match loadObject σ e.hashHex with
                  | .error _ => (acc.1, true)
                  | .ok (_, bc) => (dictSet acc.1 (pre ++ e.name) bc, false)
                else if isPreOf (strBytes "400") e.mode then
                  if (pre ++ e.name) ∈ dictKeys acc.1 then (acc.1, true)
                  else (restoreTree fuel σ e.hashHex (pre ++ e.name ++ [47]) acc.1,
                    false)
                else acc) (wd, false)).1

/-- Outcome of a checkout: success, the two reported early returns, or
a propagated exception (state mutated so far is kept, as in Python). -/
inductive CheckoutOutcome where
  | switched
  | branchNotFound
  | noPrevCommit
  | noTargetCommit
  | err
deriving DecidableEq

/-- `Repository.restoring_working_directory` (src/main.py lines
378-400): resolve the target tip (early return if absent), clear the
collected paths, load the target commit (an exception here propagates
with the clearing already done), restore its tree if the tree hash is
truthy, and reset the index. -/
def restoreWD (r : Repo) (branch : Bytes) (toClear : List Bytes)
    (fuel now : Nat) : Repo × CheckoutOutcome :=
  match truthy (getBranchCommit r.refs branch) with
  | none => (r, .noTargetCommit)
  | some target =>
      let wd1 := clearPaths r.workdir toClear
      match loadObject r.store target with
      | .error _ => ({ r with workdir := wd1 }, .err)
      | .ok (_, c) =>
          match truthy (commitFromContent c now).treeHash with
          | some th =>
              ({ r with workdir := restoreTree fuel r.store th [] wd1
                        index := [] }, .switched)
          | none => ({ r with workdir := wd1, index := [] }, .switched)

/-- `Repository.checkout` (src/main.py lines 342-377).  The previous
branch's file set is collected first (read-only; failures degrade to
the empty set); a missing target branch without `-b` aborts with no
mutation; `-b` from a commitless branch aborts with no mutation;
otherwise HEAD is written and the working directory is reconciled. -/
def checkoutOp (r : Repo) (branch : Bytes) (create : Bool)
    (fuel now : Nat) : Repo × CheckoutOutcome :=
  let prevBranch := getCurrentBranch r.head
  let prev? := truthy (getBranchCommit r.refs prevBranch)
  let filesToClear : List Bytes :=
    match prev? with
    | some p =>
        match loadObject r.store p with
        | .error _ => []
        | .ok (_, c) =>
            match truthy (commitFromContent c now).treeHash with
            | some th => getFiles fuel r.store th []
            | none => []
    | none => []
  if (dictGet? r.refs branch).isSome then
    restoreWD { r with head := some (headRef branch) } branch filesToClear fuel now
  else if create then
    match prev? with
    | some p =>
        restoreWD { r with refs := dictSet r.refs branch (p ++ [10])
                           head := some (headRef branch) }
          branch filesToClear fuel now
    | none => (r, .noPrevCommit)
  else (r, .branchNotFound)

/-- Outcome of a staging call. -/
inductive AddOutcome where
  | ok
  | err
deriving DecidableEq

/-- `Repository.add_file` (src/main.py lines 192-202): read the file
(an absent path, or a directory, raises before any mutation), store its
bytes as a blob, record the digest in the index.  -/
def addFile (r : Repo) (p : Bytes) : Repo × AddOutcome :=
  match dictGet? r.workdir p with
  | none => (r, .err)
  | some content =>
      let (σ1, h, _) := storeObject r.store (strBytes "blob") content []
      ({ r with store := σ1, index := dictSet r.index p h }, .ok)

/-- `".gitpy" in filepath.parts` (src/main.py line 215). -/
def hasGitpySeg (k : Bytes) : Bool := (segsOf k).any (fun s => s = strBytes ".gitpy")

/-- `Repository.add_directory` (src/main.py lines 204-223): for every
regular file under the directory (skipping the metadata directory),
store a blob and record it; the index is saved once at the end.  The
enumeration order of `rglob` is modelled as the working-directory list
order.  An absent path or a non-directory raises before any mutation
(in this model a directory exists exactly when some file lies under
it).  `addDirStep` is the per-file body of the `rglob` loop. -/
def addDirStep (p : Bytes) (acc : Store × List (Bytes × Bytes))
    (kv : Bytes × Bytes) : Store × List (Bytes × Bytes) :=
  if isUnderDir p kv.1 && !hasGitpySeg kv.1 then
    let (σ1, h, _) := storeObject acc.1 (strBytes "blob") kv.2 []
    (σ1, dictSet acc.2 kv.1 h)
  else acc

/-- `Repository.add_directory` (src/main.py lines 204-223); see
`addDirStep` above. -/
def addDirectory (r : Repo) (p : Bytes) : Repo × AddOutcome :=
  if p ∈ dictKeys r.workdir then (r, .err)
  else if r.workdir.any (fun kv => isUnderDir p kv.1) then
    let (σ1, idx1) := r.workdir.foldl (addDirStep p) (r.store, r.index)
    ({ r with store := σ1, index := idx1 }, .ok)
  else (r, .err)

/-! ### Derived predicates and concrete example values -/

/-- The exact condition of C1's no-op clause, read off the model: the
staging index is empty, or a (truthy) parent tip exists, its commit
object loads, and its parsed tree hash equals the freshly built tree
digest. -/
def noopCond (r : Repo) (now : Nat) : Bool :=
  match createTreeFromIndex r.store r.index with
  | .error _ => false
  | .ok (σ1, th, _) =>
      decide (r.index = []) ||
      (match truthy (getBranchCommit r.refs (getCurrentBranch r.head)) with
       | some p =>
           match loadObject σ1 p with
           | .ok (_, c) => decide ((commitFromContent c now).treeHash = some th)
           | .error _ => false
       | none => false)

/-- The C10 invariant: every blob digest recorded in the staging index
refers to an object present in the object store. -/
def indexStored (r : Repo) : Prop :=
  ∀ kv ∈ r.index, kv.2 ∈ dictKeys r.store

/-- The C5 property of a write trace: at the moment each object is
stored, every child digest its entry list references is already a key
of the store. -/
def traceOk : Store → List Event → Bool
  | _, [] => true
  | σ, e :: tr =>
      e.entries.all (fun ent => decide (ent.hashHex ∈ dictKeys σ)) &&
        traceOk (applyEvent σ e) tr

/-- All staged paths represented by a nested dict, as segment lists. -/
def pdSegs : PyDict → List (List Bytes)
  | .nil => []
  | .strE k _ rest => [k] :: pdSegs rest
  | .dictE k m rest => (pdSegs m).map (k :: ·) ++ pdSegs rest

/-- All blob digest strings held in a nested dict. -/
def pdStrs : PyDict → List Bytes
  | .nil => []
  | .strE _ h rest => h :: pdStrs rest
  | .dictE _ m rest => pdStrs m ++ pdStrs rest

/-- The digest strings carried by one `PyVal`. -/
def pdValStrs : PyVal → List Bytes
  | .str h => [h]
  | .dict m => pdStrs m

/-- Nesting depth of a nested dict (0 for a flat dict). -/
def pdDepth : PyDict → Nat
  | .nil => 0
  | .strE _ _ rest => pdDepth rest
  | .dictE _ m rest => max (pdDepth m + 1) (pdDepth rest)

/-- Wellformedness of a nested dict for the flatten round trip: entry
names contain no null byte, digest strings are 40-character lowercase
hex, keys at each level are distinct, and nested dicts are nonempty. -/
def pdWf : PyDict → Prop
  | .nil => True
  | .strE k h rest =>
      (0 : Nat) ∉ k ∧ isHex40 h = true ∧ k ∉ pdKeys rest ∧ pdWf rest
  | .dictE k m rest =>
      (0 : Nat) ∉ k ∧ pdWf m ∧ m ≠ .nil ∧ k ∉ pdKeys rest ∧ pdWf rest

/-- The root tree payload built from a flat (single-segment) staging
index: one regular-file entry per staged pair, in insertion order. -/
def rootContentFlat (idx : List (Bytes × Bytes)) : Bytes :=
  serializeEntries (idx.map (fun kv => ⟨strBytes "100644", kv.1, kv.2⟩))

/-- Wellformedness of a staging index: path segments contain no null
byte, digests are 40-character lowercase hex. -/
def wfIndex (idx : List (Bytes × Bytes)) : Bool :=
  idx.all (fun kv =>
    (segsOf kv.1).all (fun sg => decide ((0 : Nat) ∉ sg)) && isHex40 kv.2)

/-- Segment-wise prefix-freedom of two paths (neither's segment list is
a prefix of, or equal to, the other's). -/
def noPrefixPair (a b : Bytes) : Bool :=
  !(isPreOf (segsOf a) (segsOf b) || isPreOf (segsOf b) (segsOf a))

/-- Fuel sufficient for flattening the tree built from `idx`: one more
than the longest staged path's segment count. -/
def fuelBound (idx : List (Bytes × Bytes)) : Nat :=
  1 + (idx.map (fun kv => (segsOf kv.1).length)).foldr max 0

/-- Wellformedness of one tree entry for the serialize/parse round
trip: no null byte in mode or name, no space in the mode, and a valid
40-character lowercase hex digest (every entry the builder creates has
this shape). -/
def wfEntry (e : TreeEntry) : Prop :=
  (0 : Nat) ∉ e.mode ∧ (32 : Nat) ∉ e.mode ∧ (0 : Nat) ∉ e.name ∧
    isHex40 e.hashHex = true

/-- The dict built by staging a flat list of single-segment paths, in
order. -/
def pdOfFlat : List (Bytes × Bytes) → PyDict
  | [] => .nil
  | (k, h) :: rest => .strE k h (pdOfFlat rest)

/-- A concrete decompressed byte string with no null terminator:
`b"blob 0"`. -/
def noNullPayload : Bytes := strBytes "blob 0"

/-- A store already holding the empty blob at its digest. -/
def exampleStoreWithBlob : Store :=
  [(gitHashHex (strBytes "blob") [], gitSerialize (strBytes "blob") [])]

/-- The empty freshly-initialized repository state. -/
def exampleRepoEmpty : Repo := ⟨[], [], none, [], []⟩

/-- A 40-character lowercase hex digest (`"abab…"`). -/
def exDigest1 : Bytes := (List.range 20).foldr (fun _ acc => 97 :: 98 :: acc) []

/-- A 40-character lowercase hex digest (`"cdcd…"`). -/
def exDigest2 : Bytes := (List.range 20).foldr (fun _ acc => 99 :: 100 :: acc) []

/-- The C4 counterexample index: path `a` is staged both as a file and
as a directory containing `a/b`. -/
def cexIdx : List (Bytes × Bytes) :=
  [(strBytes "a", exDigest1), (strBytes "a/b", exDigest2)]

/-- Two-entry flat staging index (`a` then `b`). -/
def flatIdxA : List (Bytes × Bytes) :=
  [(strBytes "a", exDigest1), (strBytes "b", exDigest2)]

/-- The same two entries staged in the opposite order. -/
def flatIdxB : List (Bytes × Bytes) :=
  [(strBytes "b", exDigest2), (strBytes "a", exDigest1)]

/-- All staged paths represented by one `PyVal` under key `k`. -/
def pdValSegs (k : Bytes) : PyVal → List (List Bytes)
  | .str _ => [[k]]
  | .dict sub => (pdSegs sub).map (k :: ·)

/-- The wellformedness a `PyVal` must satisfy to keep `pdWf` when set. -/
def pdValWf : PyVal → Prop
  | .str h => isHex40 h = true
  | .dict sub => pdWf sub ∧ sub ≠ .nil

/-- The entry list `create_tree_recursive` builds for one dict level,
expressed compositionally: files become `100644` entries and nested
dicts become `40000` entries whose digest is the subtree's tree-object
digest. -/
def pdEntries : PyDict → List TreeEntry
  | .nil => []
  | .strE k h rest => ⟨strBytes "100644", k, h⟩ :: pdEntries rest
  | .dictE k m rest =>
      ⟨strBytes "40000", k,
        gitHashHex (strBytes "tree") (serializeEntries (pdEntries m))⟩ :: pdEntries rest

/-- The digest of the tree object built for one dict level. -/
def pdRootDigest (m : PyDict) : Bytes :=
  gitHashHex (strBytes "tree") (serializeEntries (pdEntries m))

/-- The store write of the tree object built for one dict level. -/
def pdRootEvent (m : PyDict) : Event :=
  ⟨strBytes "tree", pdEntries m, serializeEntries (pdEntries m), pdRootDigest m⟩

/-- The write trace of the subtree stores performed while building one
dict level's entry list (the level's own store is not included). -/
def pdTrace : PyDict → List Event
  | .nil => []
  | .strE _ _ rest => pdTrace rest
  | .dictE _ m rest => (pdTrace m ++ [pdRootEvent m]) ++ pdTrace rest

/-- A third sample digest (`"ef"` forty times). -/
def exDigest3 : Bytes := (List.range 20).foldr (fun _ acc => 101 :: 102 :: acc) []

/-- The spec section 4.4 example staging index
`{"a": h1, "dir/b": h2, "dir/sub/c": h3}`. -/
def amIdx : List (Bytes × Bytes) :=
  [(strBytes "a", exDigest1), (strBytes "dir/b", exDigest2),
    (strBytes "dir/sub/c", exDigest3)]

/-- The tree build over `amIdx` from the empty store. -/
def amBuild : Except PyError (Store × Bytes × List Event) :=
  createTreeFromIndex [] amIdx

/-- The store produced by `amBuild`. -/
def amStore : Store :=
  match amBuild with
  | .ok (s, _, _) => s
  | .error _ => []

/-- The root digest produced by `amBuild`. -/
def amRoot : Bytes :=
  match amBuild with
  | .ok (_, r, _) => r
  | .error _ => []

/-- The write trace produced by `amBuild`. -/
def amTr : List Event :=
  match amBuild with
  | .ok (_, _, t) => t
  | .error _ => []

/-- The tree build over the prefix-conflicting index `cexIdx` from the
empty store. -/
def cexBuild : Except PyError (Store × Bytes × List Event) :=
  createTreeFromIndex [] cexIdx

/-- The flatten of the root tree built from `cexIdx`. -/
def cexFlat : List Bytes :=
  match cexBuild with
  | .ok (σ1, root, _) => getFiles (fuelBound cexIdx) σ1 root []
  | .error _ => []

/-! ### Basic lemmas about the byte-string helpers -/

theorem zlib_roundtrip (d : Bytes) : zlibDecompress (zlibCompress d) = some d := rfl

theorem natToDecAux_eq (fuel n : Nat) (h : n ≤ fuel) :
    natToDecAux fuel n = (Nat.digits 10 n).reverse.map (· + 48) := by
  induction fuel generalizing n with
  | zero =>
      have hn : n = 0 := by omega
      subst hn
      simp [natToDecAux]
  | succ f ih =>
      by_cases hn : n = 0
      · subst hn
        simp [natToDecAux]
      · have hdig : Nat.digits 10 n = n % 10 :: Nat.digits 10 (n / 10) :=
          Nat.digits_def' (by norm_num) (Nat.pos_of_ne_zero hn)
        have hle : n / 10 ≤ f := by omega
        simp [natToDecAux, hn, ih _ hle, hdig]

theorem natToDec_eq (n : Nat) :
    natToDec n = if n = 0 then [48] else (Nat.digits 10 n).reverse.map (· + 48) := by
  unfold natToDec
  split
  · rfl
  · exact natToDecAux_eq n n le_rfl

theorem natToDec_mem {n c : Nat} (h : c ∈ natToDec n) : 48 ≤ c ∧ c ≤ 57 := by
  rw [natToDec_eq] at h
  split at h
  · simp at h
    omega
  · simp only [List.mem_map, List.mem_reverse] at h
    obtain ⟨d, hd, rfl⟩ := h
    have := Nat.digits_lt_base (by norm_num) hd
    omega

theorem natToDec_ne_nil (n : Nat) : natToDec n ≠ [] := by
  rw [natToDec_eq]
  split
  · simp
  · simp only [ne_eq, List.map_eq_nil_iff, List.reverse_eq_nil_iff]
    exact Nat.digits_ne_nil_iff_ne_zero.mpr (by assumption)

theorem natToDec_aux {n : Nat} (hn : n ≠ 0)
    (h : (Nat.digits 10 n).reverse.map (· + 48) = [48]) : False := by
  have hrev : (Nat.digits 10 n).reverse = [0] := by
    match hd : (Nat.digits 10 n).reverse with
    | [] => rw [hd] at h; simp at h
    | [d] =>
        rw [hd] at h
        simp only [List.map_cons, List.map_nil, List.cons.injEq] at h
        have : d = 0 := by omega
        rw [this]
    | d1 :: d2 :: t => rw [hd] at h; simp at h
  have h4 : Nat.digits 10 n = [0] := by
    have := congrArg List.reverse hrev
    simpa using this
  have h5 := congrArg (Nat.ofDigits 10) h4
  rw [Nat.ofDigits_digits] at h5
  simp [Nat.ofDigits] at h5
  omega

theorem natToDec_inj {m n : Nat} (h : natToDec m = natToDec n) : m = n := by
  have hmap : Function.Injective (fun d : Nat => d + 48) :=
    fun a b hab => by exact Nat.add_right_cancel hab
  rw [natToDec_eq, natToDec_eq] at h
  split at h <;> split at h
  · omega
  · exact absurd h.symm (fun hc => natToDec_aux (by assumption) hc)
  · exact absurd h (fun hc => natToDec_aux (by assumption) hc)
  · have h1 : (Nat.digits 10 m).reverse = (Nat.digits 10 n).reverse :=
      List.map_injective_iff.mpr hmap h
    have h2 : Nat.digits 10 m = Nat.digits 10 n := by
      have := congrArg List.reverse h1
      simpa using this
    have h3 := congrArg (Nat.ofDigits 10) h2
    rwa [Nat.ofDigits_digits, Nat.ofDigits_digits] at h3

theorem natToDec_no_zero_byte (n : Nat) : 0 ∉ natToDec n := by
  intro h
  have := natToDec_mem h
  omega

theorem natToDec_no_space (n : Nat) : 32 ∉ natToDec n := by
  intro h
  have := natToDec_mem h
  omega

theorem natToDec_no_nl (n : Nat) : 10 ∉ natToDec n := by
  intro h
  have := natToDec_mem h
  omega

theorem findByte_append {b : Nat} (xs ys : Bytes) (h : b ∉ xs) :
    findByte (xs ++ b :: ys) b = some xs.length := by
  induction xs with
  | nil => simp [findByte]
  | cons c rest ih =>
      simp only [List.mem_cons, not_or] at h
      simp [findByte, Ne.symm h.1, ih h.2]

theorem findByte_not_mem {b : Nat} {s : Bytes} (h : b ∉ s) : findByte s b = none := by
  induction s with
  | nil => rfl
  | cons c rest ih =>
      simp only [List.mem_cons, not_or] at h
      simp [findByte, Ne.symm h.1, ih h.2]

theorem splitAll_ne_nil (sep : Nat) (s : Bytes) : splitAll sep s ≠ [] := by
  induction s with
  | nil => simp [splitAll]
  | cons c rest ih =>
      simp only [splitAll]
      split
      · simp
      · match h : splitAll sep rest with
        | [] => exact absurd h ih
        | x :: xs => simp

theorem splitAll_not_mem {sep : Nat} {s : Bytes} (h : sep ∉ s) : splitAll sep s = [s] := by
  induction s with
  | nil => rfl
  | cons c rest ih =>
      simp only [List.mem_cons, not_or] at h
      simp only [splitAll, if_neg (Ne.symm h.1), ih h.2]

theorem splitAll_append {sep : Nat} (x rest : Bytes) (h : sep ∉ x) :
    splitAll sep (x ++ sep :: rest) = x :: splitAll sep rest := by
  induction x with
  | nil => simp [splitAll]
  | cons c cs ih =>
      simp only [List.mem_cons, not_or] at h
      simp only [List.cons_append, splitAll, if_neg (Ne.symm h.1)]
      rw [show (cs.append (sep :: rest)) = cs ++ sep :: rest from rfl, ih h.2]

theorem joinWith_cons_cons (sep c : Nat) (h : Bytes) (t : List Bytes) :
    joinWith sep ((c :: h) :: t) = c :: joinWith sep (h :: t) := by
  cases t <;> simp [joinWith]

theorem joinWith_splitAll (sep : Nat) (s : Bytes) :
    joinWith sep (splitAll sep s) = s := by
  induction s with
  | nil => rfl
  | cons c rest ih =>
      simp only [splitAll]
      split
      · rename_i hc
        match h : splitAll sep rest with
        | [] => exact absurd h (splitAll_ne_nil sep rest)
        | x :: xs =>
            rw [h] at ih
            simp [joinWith, hc, ih]
      · match h : splitAll sep rest with
        | [] => exact absurd h (splitAll_ne_nil sep rest)
        | x :: xs =>
            rw [h] at ih
            rw [joinWith_cons_cons, ih]

theorem splitAll_joinWith (sep : Nat) (ls : List Bytes) (m : Bytes)
    (h : ∀ l ∈ ls, sep ∉ l) :
    splitAll sep (joinWith sep (ls ++ [m])) = ls ++ splitAll sep m := by
  induction ls with
  | nil => rfl
  | cons l rest ih =>
      have hl : sep ∉ l := h l (by simp)
      have hrest : ∀ x ∈ rest, sep ∉ x := fun x hx => h x (by simp [hx])
      cases rest with
      | nil =>
          show splitAll sep (joinWith sep [l, m]) = [l] ++ splitAll sep m
          have : joinWith sep [l, m] = l ++ sep :: m := by simp [joinWith]
          rw [this, splitAll_append _ _ hl]
          rfl
      | cons l2 rest2 =>
          have hstep : joinWith sep ((l :: l2 :: rest2) ++ [m]) =
              l ++ sep :: joinWith sep ((l2 :: rest2) ++ [m]) := by
            simp [joinWith]
          rw [hstep, splitAll_append _ _ hl, ih hrest]
          rfl

theorem isPreOf_append [DecidableEq α] (x y : List α) : isPreOf x (x ++ y) = true := by
  induction x with
  | nil => rfl
  | cons a as ih => simp [isPreOf, ih]

theorem isPreOf_iff [DecidableEq α] (x y : List α) :
    isPreOf x y = true ↔ ∃ t, y = x ++ t := by
  constructor
  · intro h
    induction x generalizing y with
    | nil => exact ⟨y, rfl⟩
    | cons a as ih =>
        match y with
        | [] => simp [isPreOf] at h
        | b :: bs =>
            simp only [isPreOf, Bool.and_eq_true, decide_eq_true_eq] at h
            obtain ⟨t, ht⟩ := ih bs h.2
            exact ⟨t, by simp [h.1, ht]⟩
  · rintro ⟨t, rfl⟩
    exact isPreOf_append x t

theorem splitFirst_append (x y : Bytes) (h : 32 ∉ x) :
    splitFirst 32 (x ++ 32 :: y) = some (x, y) := by
  induction x with
  | nil => simp [splitFirst]
  | cons c cs ih =>
      simp only [List.mem_cons, not_or] at h
      simp [splitFirst, Ne.symm h.1, ih h.2]

theorem cutLastSpace_append (x y : Bytes) (h : 32 ∉ y) :
    cutLastSpace (x ++ 32 :: y) = some x := by
  unfold cutLastSpace
  have hrev : (x ++ 32 :: y).reverse = y.reverse ++ 32 :: x.reverse := by
    simp
  have hy : (32 : Nat) ∉ y.reverse := by simpa using h
  rw [hrev, findByte_append _ _ hy]
  simp only [List.length_reverse]
  have hlen : (x ++ 32 :: y).length = x.length + 1 + y.length := by
    simp
    omega
  rw [hlen]
  have : x.length + 1 + y.length - 1 - y.length = x.length := by omega
  rw [this]
  have : (x ++ 32 :: y).take x.length = x := by
    have := List.take_left x (32 :: y)
    simpa using this
  rw [this]

/-! ### Dict lemmas -/

theorem dictSet_of_get {α : Type} {d : List (Bytes × α)} {k : Bytes} {v : α}
    (h : dictGet? d k = some v) : dictSet d k v = d := by
  induction d with
  | nil => simp [dictGet?] at h
  | cons kv rest ih =>
      obtain ⟨k1, v1⟩ := kv
      simp only [dictGet?] at h
      by_cases hk : k1 = k
      · simp only [hk, if_pos rfl] at h
        simp only [dictSet, if_pos hk]
        cases h
        rfl
      · simp only [if_neg hk] at h
        simp [dictSet, hk, ih h]

theorem dictKeys_set {α : Type} (d : List (Bytes × α)) (k : Bytes) (v : α) (q : Bytes) :
    q ∈ dictKeys (dictSet d k v) ↔ q ∈ dictKeys d ∨ q = k := by
  induction d with
  | nil => simp [dictSet, dictKeys]
  | cons kv rest ih =>
      obtain ⟨k1, v1⟩ := kv
      by_cases hk : k1 = k
      · subst hk
        have hred : dictSet ((k1, v1) :: rest) k1 v = (k1, v) :: rest := by
          simp [dictSet]
        rw [hred]
        show q ∈ k1 :: dictKeys rest ↔ q ∈ k1 :: dictKeys rest ∨ q = k1
        simp only [List.mem_cons]
        tauto
      · have hred : dictSet ((k1, v1) :: rest) k v = (k1, v1) :: dictSet rest k v := by
          simp [dictSet, hk]
        rw [hred]
        show q ∈ k1 :: dictKeys (dictSet rest k v) ↔ q ∈ k1 :: dictKeys rest ∨ q = k
        simp only [List.mem_cons, ih]
        tauto

theorem dictGet?_set {α : Type} (d : List (Bytes × α)) (k : Bytes) (v : α) (q : Bytes) :
    dictGet? (dictSet d k v) q = if k = q then some v else dictGet? d q := by
  induction d with
  | nil => simp [dictSet, dictGet?]
  | cons kv rest ih =>
      obtain ⟨k1, v1⟩ := kv
      by_cases hk : k1 = k
      · subst hk
        by_cases hq : k1 = q <;> simp [dictSet, dictGet?, hq]
      · by_cases hq : k1 = q
        · subst hq
          simp [dictSet, hk, dictGet?, Ne.symm hk]
        · simp [dictSet, hk, dictGet?, hq, ih]

theorem dictGet?_mem_keys {α : Type} {d : List (Bytes × α)} {k : Bytes}
    (h : k ∈ dictKeys d) : (dictGet? d k).isSome := by
  induction d with
  | nil => simp [dictKeys] at h
  | cons kv rest ih =>
      obtain ⟨k1, v1⟩ := kv
      simp only [dictKeys, List.map_cons, List.mem_cons] at h
      by_cases hk : k1 = k
      · simp [dictGet?, hk]
      · simp only [dictGet?, if_neg hk]
        cases h with
        | inl h => exact absurd h.symm hk
        | inr h => exact ih h

theorem dictGet?_not_mem {α : Type} {d : List (Bytes × α)} {k : Bytes}
    (h : k ∉ dictKeys d) : dictGet? d k = none := by
  induction d with
  | nil => rfl
  | cons kv rest ih =>
      obtain ⟨k1, v1⟩ := kv
      have h1 : k1 ≠ k := by
        intro hc
        subst hc
        exact h (List.mem_cons_self k1 (dictKeys rest))
      have h2 : k ∉ dictKeys rest := by
        intro hc
        exact h (List.mem_cons_of_mem k1 hc)
      simp [dictGet?, h1, ih h2]

theorem mem_keys_of_get {α : Type} {d : List (Bytes × α)} {k : Bytes} {v : α}
    (h : dictGet? d k = some v) : k ∈ dictKeys d := by
  induction d with
  | nil => simp [dictGet?] at h
  | cons kv rest ih =>
      obtain ⟨k1, v1⟩ := kv
      simp only [dictGet?] at h
      by_cases hk : k1 = k
      · show k ∈ k1 :: dictKeys rest
        simp [hk]
      · simp only [if_neg hk] at h
        show k ∈ k1 :: dictKeys rest
        exact List.mem_cons_of_mem _ (ih h)

/-! ### Object codec round-trip -/

theorem parseLoose_header (t dec c : Bytes) (hno0 : 0 ∉ t ++ 32 :: dec)
    (h32 : 32 ∉ t) (h32d : 32 ∉ dec) :
    parseLoose ((t ++ 32 :: dec) ++ 0 :: c) = .ok (t, c) := by
  have hfind : findByte ((t ++ 32 :: dec) ++ 0 :: c) 0 =
      some (t ++ 32 :: dec).length := findByte_append _ _ hno0
  have htake : ((t ++ 32 :: dec) ++ 0 :: c).take (t ++ 32 :: dec).length =
      t ++ 32 :: dec := List.take_left _ _
  have hdrop : ((t ++ 32 :: dec) ++ 0 :: c).drop ((t ++ 32 :: dec).length + 1) = c := by
    have h1 : (t ++ 32 :: dec) ++ 0 :: c = ((t ++ 32 :: dec) ++ [0]) ++ c := by simp
    have h2 : ((t ++ 32 :: dec) ++ [0]).length = (t ++ 32 :: dec).length + 1 := by
      simp
      omega
    rw [h1, ← h2]
    exact List.drop_left _ _
  have hsplit : splitAll 32 (t ++ 32 :: dec) = [t, dec] := by
    rw [splitAll_append _ _ h32, splitAll_not_mem h32d]
  simp only [parseLoose, hfind, htake, hdrop, hsplit]

theorem gitDeserialize_gitSerialize (t c : Bytes) (h0 : 0 ∉ t) (h32 : 32 ∉ t) :
    gitDeserialize (gitSerialize t c) = .ok (t, c) := by
  have hno0 : (0 : Nat) ∉ t ++ 32 :: natToDec c.length := by
    intro hmem
    rcases List.mem_append.mp hmem with h | h
    · exact h0 h
    · rcases List.mem_cons.mp h with h | h
      · omega
      · exact natToDec_no_zero_byte _ h
  have hform : objHeader t c ++ c = (t ++ 32 :: natToDec c.length) ++ 0 :: c := by
    simp [objHeader]
  have hstep : gitDeserialize (gitSerialize t c) = parseLoose (objHeader t c ++ c) := rfl
  rw [hstep, hform]
  exact parseLoose_header _ _ _ hno0 h32 (natToDec_no_space _)

/-- C3: for each type tag in blob, tree, commit and every byte payload
(empty and null-containing included), decoding the encoded form
reproduces the original type and payload byte-for-byte. -/
theorem decode_encode_roundtrip : ∀ c : Bytes,
    gitDeserialize (gitSerialize (strBytes "blob") c) = .ok (strBytes "blob", c) ∧
    gitDeserialize (gitSerialize (strBytes "tree") c) = .ok (strBytes "tree", c) ∧
    gitDeserialize (gitSerialize (strBytes "commit") c) = .ok (strBytes "commit", c) := by
  intro c
  refine ⟨?_, ?_, ?_⟩ <;>
    exact gitDeserialize_gitSerialize _ _ (by decide) (by decide)

/-- C7 counterexample: the claim says decoding fails whenever the
decompressed bytes lack a null terminator, but decoding the compressed
form of `b"blob 0"` (which contains no null byte) succeeds, returning
type `blob` and the entire decompressed input as payload: the missing
terminator is never checked (src/main.py lines 30-33). -/
theorem deserialize_missing_null_succeeds :
    (0 ∉ noNullPayload) ∧
    zlibDecompress (zlibCompress noNullPayload) = some noNullPayload ∧
    gitDeserialize (zlibCompress noNullPayload) =
      .ok (strBytes "blob", noNullPayload) := by
  refine ⟨by decide, rfl, rfl⟩

/-- C7 amended: decoding fails when decompression fails, but a missing
null terminator is not detected: `find` returns -1, the last byte is
treated as the header boundary, and decoding succeeds whenever the
resulting pseudo-header splits into exactly two space-separated fields
(as for `b"blob 0"`), returning a bogus payload. -/
theorem deserialize_corrupt_amended :
    (∀ data : Bytes, zlibDecompress data = none →
      gitDeserialize data = .error .zlibError) ∧
    gitDeserialize (zlibCompress noNullPayload) =
      .ok (strBytes "blob", noNullPayload) := by
  constructor
  · intro data h
    unfold gitDeserialize
    rw [h]
  · rfl

/-- C7 amended witness: a concrete invalid stream makes decompression
fail and decoding report the corruption. -/
theorem deserialize_corrupt_amended_witness :
    zlibDecompress [0] = none ∧ gitDeserialize [0] = .error .zlibError :=
  ⟨rfl, deserialize_corrupt_amended.1 [0] rfl⟩

/-! ### Object store writes -/

/-- C2 counterexample: the claim says an object whose digest is already
present is never rewritten, but `store_object` calls `write_bytes`
unconditionally (src/main.py line 189): storing the empty blob into a
store that already holds it still performs exactly one filesystem write,
targeted at the existing digest's path. -/
theorem store_object_rewrites_counterexample :
    dictGet? exampleStoreWithBlob (gitHashHex (strBytes "blob") []) ≠ none ∧
    (storeObject exampleStoreWithBlob (strBytes "blob") [] []).2.2.digest =
      gitHashHex (strBytes "blob") [] := by
  constructor
  · intro h
    rw [show dictGet? exampleStoreWithBlob (gitHashHex (strBytes "blob") []) =
        some (gitSerialize (strBytes "blob") []) by simp [exampleStoreWithBlob, dictGet?]] at h
    cases h
  · rfl

/-- C2 amended: storing an object whose digest is already present does
rewrite the file at that digest's path, but with the identical
serialized bytes, so the store mapping is unchanged and the digest is
returned unchanged (the duplicate write is idempotent in effect, not
skipped). -/
theorem store_object_idempotent (σ : Store) (t c : Bytes) (es : List TreeEntry)
    (h : dictGet? σ (gitHashHex t c) = some (gitSerialize t c)) :
    (storeObject σ t c es).1 = σ ∧
    (storeObject σ t c es).2.1 = gitHashHex t c ∧
    (storeObject σ t c es).2.2 =
      ⟨t, es, c, gitHashHex t c⟩ := by
  refine ⟨?_, rfl, rfl⟩
  show dictSet σ (gitHashHex t c) (gitSerialize t c) = σ
  exact dictSet_of_get h

/-- C2 amended witness: the idempotence theorem applied to the concrete
one-object store. -/
theorem store_object_idempotent_witness :
    dictGet? exampleStoreWithBlob (gitHashHex (strBytes "blob") []) =
      some (gitSerialize (strBytes "blob") []) ∧
    (storeObject exampleStoreWithBlob (strBytes "blob") [] []).1 =
      exampleStoreWithBlob :=
  ⟨by simp [exampleStoreWithBlob, dictGet?],
   (store_object_idempotent exampleStoreWithBlob (strBytes "blob") [] []
      (by simp [exampleStoreWithBlob, dictGet?])).1⟩

/-! ### Checkout of a missing branch -/

/-- C6: checking out a branch whose ref does not exist, without
requesting branch creation, aborts with the branch-not-found report and
performs no mutation at all: HEAD, the branch refs, the staging index,
the working directory, and the object store are left exactly as they
were (src/main.py lines 359, 370-373). -/
theorem checkout_missing_branch_no_mutation (r : Repo) (b : Bytes) (fuel now : Nat)
    (h : dictGet? r.refs b = none) :
    checkoutOp r b false fuel now = (r, .branchNotFound) := by
  unfold checkoutOp
  rw [h]
  simp

/-- C6 witness: a concrete repository with one ref; checking out a
different branch without `-b` returns the unchanged state. -/
theorem checkout_missing_branch_witness :
    dictGet? [(strBytes "main", strBytes "aa")] (strBytes "dev") = none ∧
    checkoutOp ⟨[], [], none, [(strBytes "main", strBytes "aa")], []⟩
      (strBytes "dev") false 3 0 =
      (⟨[], [], none, [(strBytes "main", strBytes "aa")], []⟩, .branchNotFound) :=
  ⟨by decide,
   checkout_missing_branch_no_mutation _ _ 3 0 (by decide)⟩

/-! ### Commit serialization and parsing -/

theorem pcGo_tree (th : Bytes) (rest : List Bytes) (acc : PCAcc) :
    pcGo ((strBytes "tree " ++ th) :: rest) acc =
      pcGo rest { acc with tree := some th } := by
  have hpre : isPreOf (strBytes "tree ") (strBytes "tree " ++ th) = true :=
    isPreOf_append _ _
  have hdrop : (strBytes "tree " ++ th).drop 5 = th := by
    have h := List.drop_left (strBytes "tree ") th
    rw [show (strBytes "tree ").length = 5 from rfl] at h
    exact h
  simp only [pcGo, hpre, if_true, hdrop]

theorem pcGo_parent (p : Bytes) (rest : List Bytes) (acc : PCAcc) :
    pcGo ((strBytes "parent " ++ p) :: rest) acc =
      pcGo rest { acc with parents := acc.parents ++ [p] } := by
  have hn1 : isPreOf (strBytes "tree ") (strBytes "parent " ++ p) = false := rfl
  have hpre : isPreOf (strBytes "parent ") (strBytes "parent " ++ p) = true :=
    isPreOf_append _ _
  have hdrop : (strBytes "parent " ++ p).drop 7 = p := by
    have h := List.drop_left (strBytes "parent ") p
    rw [show (strBytes "parent ").length = 7 from rfl] at h
    exact h
  simp only [pcGo, hn1, hpre, Bool.false_eq_true, if_false, if_true, hdrop]

theorem pcGo_author (x : Bytes) (rest : List Bytes) (acc : PCAcc) :
    pcGo ((strBytes "author " ++ x) :: rest) acc =
      pcGo rest { acc with author := some (rsplitDrop2 x) } := by
  have hn1 : isPreOf (strBytes "tree ") (strBytes "author " ++ x) = false := rfl
  have hn2 : isPreOf (strBytes "parent ") (strBytes "author " ++ x) = false := rfl
  have hpre : isPreOf (strBytes "author ") (strBytes "author " ++ x) = true :=
    isPreOf_append _ _
  have hdrop : (strBytes "author " ++ x).drop 7 = x := by
    have h := List.drop_left (strBytes "author ") x
    rw [show (strBytes "author ").length = 7 from rfl] at h
    exact h
  simp only [pcGo, hn1, hn2, hpre, Bool.false_eq_true, if_false, if_true, hdrop]

theorem pcGo_committer (x : Bytes) (rest : List Bytes) (acc : PCAcc) :
    pcGo ((strBytes "committer " ++ x) :: rest) acc =
      pcGo rest { acc with committer := some (rsplitDrop2 x) } := by
  have hn1 : isPreOf (strBytes "tree ") (strBytes "committer " ++ x) = false := rfl
  have hn2 : isPreOf (strBytes "parent ") (strBytes "committer " ++ x) = false := rfl
  have hn3 : isPreOf (strBytes "author ") (strBytes "committer " ++ x) = false := rfl
  have hpre : isPreOf (strBytes "committer ") (strBytes "committer " ++ x) = true :=
    isPreOf_append _ _
  have hdrop : (strBytes "committer " ++ x).drop 10 = x := by
    have h := List.drop_left (strBytes "committer ") x
    rw [show (strBytes "committer ").length = 10 from rfl] at h
    exact h
  simp only [pcGo, hn1, hn2, hn3, hpre, Bool.false_eq_true, if_false, if_true, hdrop]

theorem pcGo_blank (rest : List Bytes) (acc : PCAcc) :
    pcGo ([] :: rest) acc = (acc, some rest) := rfl

theorem pcGo_parents (ps : List Bytes) (rest : List Bytes) (acc : PCAcc) :
    pcGo (ps.map (fun p => strBytes "parent " ++ p) ++ rest) acc =
      pcGo rest { acc with parents := acc.parents ++ ps } := by
  induction ps generalizing acc with
  | nil => simp
  | cons p ps ih =>
      simp only [List.map_cons, List.cons_append, pcGo_parent, ih, List.append_assoc,
        List.singleton_append, List.nil_append]

theorem rsplitDrop2_stamp (a : Bytes) (ts : Nat) :
    rsplitDrop2 (a ++ 32 :: natToDec ts ++ strBytes " +0000") = a := by
  have e0 : strBytes " +0000" = 32 :: strBytes "+0000" := rfl
  have hcut1 : cutLastSpace ((a ++ 32 :: natToDec ts) ++ 32 :: strBytes "+0000") =
      some (a ++ 32 :: natToDec ts) :=
    cutLastSpace_append _ _ (by decide)
  have hcut2 : cutLastSpace (a ++ 32 :: natToDec ts) = some a :=
    cutLastSpace_append _ _ (natToDec_no_space ts)
  rw [e0]
  simp only [rsplitDrop2, hcut1, hcut2]

theorem no_nl_stamp_line (pre x : Bytes) (ts : Nat) (hpre : (10 : Nat) ∉ pre)
    (hx : (10 : Nat) ∉ x) :
    (10 : Nat) ∉ pre ++ x ++ 32 :: natToDec ts ++ strBytes " +0000" := by
  intro hmem
  rcases List.mem_append.mp hmem with hm | hm
  · rcases List.mem_append.mp hm with hm | hm
    · rcases List.mem_append.mp hm with hm | hm
      · exact hpre hm
      · exact hx hm
    · rcases List.mem_cons.mp hm with hm | hm
      · omega
      · exact natToDec_no_nl ts hm
  · revert hm
    decide

theorem serializeCommit_lines (ps : List Bytes) (th a cm msg : Bytes) (ts : Nat)
    (h1 : (10 : Nat) ∉ th) (h2 : ∀ p ∈ ps, (10 : Nat) ∉ p) (h3 : (10 : Nat) ∉ a)
    (h4 : (10 : Nat) ∉ cm) :
    splitAll 10 (serializeCommit ⟨some th, ps, some a, some cm, msg, ts⟩) =
      ((strBytes "tree " ++ th) ::
        (ps.map (fun p => strBytes "parent " ++ p) ++
          [strBytes "author " ++ a ++ 32 :: natToDec ts ++ strBytes " +0000",
           strBytes "committer " ++ cm ++ 32 :: natToDec ts ++ strBytes " +0000",
           []])) ++ splitAll 10 msg := by
  have hform : serializeCommit ⟨some th, ps, some a, some cm, msg, ts⟩ =
      joinWith 10
        (((strBytes "tree " ++ th) ::
          (ps.map (fun p => strBytes "parent " ++ p) ++
            [strBytes "author " ++ a ++ 32 :: natToDec ts ++ strBytes " +0000",
             strBytes "committer " ++ cm ++ 32 :: natToDec ts ++ strBytes " +0000",
             []])) ++ [msg]) := by
    simp [serializeCommit, optShow, List.append_assoc]
  rw [hform]
  apply splitAll_joinWith
  intro l hl
  rcases List.mem_cons.mp hl with rfl | hl
  · intro hmem
    rcases List.mem_append.mp hmem with hm | hm
    · revert hm
      decide
    · exact h1 hm
  rcases List.mem_append.mp hl with hl | hl
  · obtain ⟨p, hp, rfl⟩ := List.mem_map.mp hl
    intro hmem
    rcases List.mem_append.mp hmem with hm | hm
    · revert hm
      decide
    · exact h2 p hp hm
  · rcases List.mem_cons.mp hl with rfl | hl
    · exact no_nl_stamp_line _ _ ts (by decide) h3
    rcases List.mem_cons.mp hl with rfl | hl
    · exact no_nl_stamp_line _ _ ts (by decide) h4
    rcases List.mem_cons.mp hl with rfl | hl
    · simp
    · exact absurd hl (List.not_mem_nil _)

theorem commitFromContent_serializeCommit (ps : List Bytes) (th a cm msg : Bytes)
    (ts now : Nat) (h1 : (10 : Nat) ∉ th) (h2 : ∀ p ∈ ps, (10 : Nat) ∉ p)
    (h3 : (10 : Nat) ∉ a) (h4 : (10 : Nat) ∉ cm) :
    commitFromContent (serializeCommit ⟨some th, ps, some a, some cm, msg, ts⟩) now =
      ⟨some th, ps, some a, some cm, msg, now⟩ := by
  have hlines := serializeCommit_lines ps th a cm msg ts h1 h2 h3 h4
  have hshape : ([strBytes "author " ++ a ++ 32 :: natToDec ts ++ strBytes " +0000",
        strBytes "committer " ++ cm ++ 32 :: natToDec ts ++ strBytes " +0000",
        []] ++ splitAll 10 msg) =
      (strBytes "author " ++ (a ++ 32 :: natToDec ts ++ strBytes " +0000")) ::
      (strBytes "committer " ++ (cm ++ 32 :: natToDec ts ++ strBytes " +0000")) ::
      [] :: splitAll 10 msg := by
    simp [List.append_assoc]
  have hgo : pcGo (splitAll 10 (serializeCommit ⟨some th, ps, some a, some cm, msg, ts⟩))
      ⟨none, [], none, none⟩ =
      (⟨some th, ps,
        some (rsplitDrop2 (a ++ 32 :: natToDec ts ++ strBytes " +0000")),
        some (rsplitDrop2 (cm ++ 32 :: natToDec ts ++ strBytes " +0000"))⟩,
       some (splitAll 10 msg)) := by
    rw [hlines, List.cons_append, pcGo_tree, List.append_assoc, pcGo_parents, hshape,
      pcGo_author, pcGo_committer, pcGo_blank]
    simp
  simp only [commitFromContent]
  rw [hgo]
  simp only [rsplitDrop2_stamp, joinWith_splitAll]

/-- C9: parsing a serialized commit recovers the tree hash, parent list,
author, committer and message exactly, but never the serialized
timestamp: `Commit.from_content` calls the constructor without a
timestamp, so a fresh `int(time.time())` is assigned (src/main.py lines
99, 137).  Hence, whenever the stored timestamp differs from the
parse-time clock, re-serializing the parsed commit reproduces neither
the original payload nor (absent a digest collision on the two
payloads) the original digest. -/
theorem commit_timestamp_not_roundtripped (ps : List Bytes) (th a cm msg : Bytes)
    (ts now : Nat) (h1 : (10 : Nat) ∉ th) (h2 : ∀ p ∈ ps, (10 : Nat) ∉ p)
    (h3 : (10 : Nat) ∉ a) (h4 : (10 : Nat) ∉ cm) (hts : ts ≠ now)
    (hcol : gitHashHex (strBytes "commit")
        (serializeCommit ⟨some th, ps, some a, some cm, msg, now⟩) =
      gitHashHex (strBytes "commit")
        (serializeCommit ⟨some th, ps, some a, some cm, msg, ts⟩) →
      serializeCommit ⟨some th, ps, some a, some cm, msg, now⟩ =
        serializeCommit ⟨some th, ps, some a, some cm, msg, ts⟩) :
    commitFromContent (serializeCommit ⟨some th, ps, some a, some cm, msg, ts⟩) now =
      ⟨some th, ps, some a, some cm, msg, now⟩ ∧
    serializeCommit ⟨some th, ps, some a, some cm, msg, now⟩ ≠
      serializeCommit ⟨some th, ps, some a, some cm, msg, ts⟩ ∧
    gitHashHex (strBytes "commit")
        (serializeCommit ⟨some th, ps, some a, some cm, msg, now⟩) ≠
      gitHashHex (strBytes "commit")
        (serializeCommit ⟨some th, ps, some a, some cm, msg, ts⟩) := by
  have hser : serializeCommit ⟨some th, ps, some a, some cm, msg, now⟩ ≠
      serializeCommit ⟨some th, ps, some a, some cm, msg, ts⟩ := by
    intro heq
    have hl1 := serializeCommit_lines ps th a cm msg now h1 h2 h3 h4
    have hl2 := serializeCommit_lines ps th a cm msg ts h1 h2 h3 h4
    rw [heq] at hl1
    have hl := hl1.symm.trans hl2
    have hl3 := List.append_cancel_right hl
    have hl4 := (List.cons.inj hl3).2
    have hl5 := List.append_cancel_left hl4
    have hl6 := (List.cons.inj hl5).1
    have hl7 := List.append_cancel_right hl6
    have hl8 := List.append_cancel_left hl7
    have hl9 := (List.cons.inj hl8).2
    exact hts (natToDec_inj hl9).symm
  refine ⟨commitFromContent_serializeCommit ps th a cm msg ts now h1 h2 h3 h4, hser, ?_⟩
  intro hdig
  exact hser (hcol hdig)

set_option maxRecDepth 100000 in
theorem ne_of_list_beq_false {a b : Bytes} (h : (a == b) = false) : a ≠ b := by
  intro he
  subst he
  simp at h

set_option maxRecDepth 100000 in
/-- C9 witness: a concrete commit with timestamp 7 parsed at clock 5. -/
theorem commit_timestamp_witness :
    commitFromContent
        (serializeCommit ⟨some (strBytes "t1"), [strBytes "p1"],
          some (strBytes "Au"), some (strBytes "Au"), strBytes "hi", 7⟩) 5 =
      ⟨some (strBytes "t1"), [strBytes "p1"], some (strBytes "Au"),
        some (strBytes "Au"), strBytes "hi", 5⟩ ∧
    serializeCommit ⟨some (strBytes "t1"), [strBytes "p1"], some (strBytes "Au"),
        some (strBytes "Au"), strBytes "hi", 5⟩ ≠
      serializeCommit ⟨some (strBytes "t1"), [strBytes "p1"], some (strBytes "Au"),
        some (strBytes "Au"), strBytes "hi", 7⟩ := by
  have hne : (gitHashHex (strBytes "commit")
        (serializeCommit ⟨some (strBytes "t1"), [strBytes "p1"], some (strBytes "Au"),
          some (strBytes "Au"), strBytes "hi", 5⟩) ==
      gitHashHex (strBytes "commit")
        (serializeCommit ⟨some (strBytes "t1"), [strBytes "p1"], some (strBytes "Au"),
          some (strBytes "Au"), strBytes "hi", 7⟩)) = false := by rfl
  have h := commit_timestamp_not_roundtripped [strBytes "p1"] (strBytes "t1")
    (strBytes "Au") (strBytes "Au") (strBytes "hi") 7 5
    (by decide) (by decide) (by decide) (by decide) (by decide)
    (fun hp => absurd hp (ne_of_list_beq_false hne))
  exact ⟨h.1, h.2.1⟩

/-! ### Commit no-op behaviour -/

theorem mem_dictSet {α : Type} {d : List (Bytes × α)} {k : Bytes} {v : α}
    {kv : Bytes × α} (h : kv ∈ dictSet d k v) : kv ∈ d ∨ kv = (k, v) := by
  induction d with
  | nil => simpa [dictSet] using h
  | cons kv1 rest ih =>
      obtain ⟨k1, v1⟩ := kv1
      by_cases hk : k1 = k
      · subst hk
        rw [show dictSet ((k1, v1) :: rest) k1 v = (k1, v) :: rest by
          simp [dictSet]] at h
        rcases List.mem_cons.mp h with rfl | h
        · exact Or.inr rfl
        · exact Or.inl (List.mem_cons_of_mem _ h)
      · rw [show dictSet ((k1, v1) :: rest) k v = (k1, v1) :: dictSet rest k v by
          simp [dictSet, hk]] at h
        rcases List.mem_cons.mp h with rfl | h
        · exact Or.inl (List.mem_cons_self _ _)
        · rcases ih h with h | h
          · exact Or.inl (List.mem_cons_of_mem _ h)
          · exact Or.inr h

theorem buildEntries_types (d : PyDict) : ∀ (σ : Store),
    ∀ e ∈ (buildEntries σ d).2.2, e.etype = strBytes "tree" := by
  induction d with
  | nil => intro σ e he; simp [buildEntries] at he
  | strE k h rest ih =>
      intro σ e he
      rcases hb : buildEntries σ rest with ⟨σ1, es, tr⟩
      rw [show buildEntries σ (.strE k h rest) = (σ1, ⟨strBytes "100644", k, h⟩ :: es, tr) by
        simp [buildEntries, hb]] at he
      have hh := ih σ
      rw [hb] at hh
      exact hh e he
  | dictE k m rest ihm ihr =>
      intro σ e he
      rcases hbm : buildEntries σ m with ⟨σ1, subEs, tr1⟩
      rcases hbr : buildEntries
          (dictSet σ1 (gitHashHex (strBytes "tree") (serializeEntries subEs))
            (gitSerialize (strBytes "tree") (serializeEntries subEs))) rest with
        ⟨σ3, es, tr2⟩
      rw [show buildEntries σ (.dictE k m rest) =
          (σ3, ⟨strBytes "40000", k,
            gitHashHex (strBytes "tree") (serializeEntries subEs)⟩ :: es,
            (tr1 ++ [⟨strBytes "tree", subEs, serializeEntries subEs,
              gitHashHex (strBytes "tree") (serializeEntries subEs)⟩]) ++ tr2) by
        simp [buildEntries, hbm, storeObject, hbr]] at he
      rcases List.mem_append.mp he with he | he
      · rcases List.mem_append.mp he with he | he
        · have hh := ihm σ
          rw [hbm] at hh
          exact hh e he
        · rcases List.mem_cons.mp he with rfl | he
          · rfl
          · simp at he
      · have hh := ihr (dictSet σ1 (gitHashHex (strBytes "tree") (serializeEntries subEs))
            (gitSerialize (strBytes "tree") (serializeEntries subEs)))
        rw [hbr] at hh
        exact hh e he

theorem buildTree_types {σ σ1 : Store} {m : PyDict} {h : Bytes} {tr : List Event}
    (hb : buildTree σ m = (σ1, h, tr)) :
    ∀ e ∈ tr, e.etype = strBytes "tree" := by
  rcases hbe : buildEntries σ m with ⟨σ2, es, tr1⟩
  rw [show buildTree σ m =
      (dictSet σ2 (gitHashHex (strBytes "tree") (serializeEntries es))
        (gitSerialize (strBytes "tree") (serializeEntries es)),
      gitHashHex (strBytes "tree") (serializeEntries es),
      tr1 ++ [⟨strBytes "tree", es, serializeEntries es,
        gitHashHex (strBytes "tree") (serializeEntries es)⟩]) by
    simp [buildTree, hbe, storeObject]] at hb
  have h3 : tr1 ++ [(⟨strBytes "tree", es, serializeEntries es,
      gitHashHex (strBytes "tree") (serializeEntries es)⟩ : Event)] = tr :=
    congrArg (fun x => x.2.2) hb
  subst h3
  intro e he
  rcases List.mem_append.mp he with he | he
  · have hh := buildEntries_types m σ
    rw [hbe] at hh
    exact hh e he
  · rcases List.mem_cons.mp he with rfl | he
    · rfl
    · simp at he

theorem createTree_types {σ σ1 : Store} {idx : List (Bytes × Bytes)} {th : Bytes}
    {tr : List Event} (hok : createTreeFromIndex σ idx = .ok (σ1, th, tr)) :
    ∀ e ∈ tr, e.etype = strBytes "tree" := by
  unfold createTreeFromIndex at hok
  split at hok
  · simp only [storeObject, Except.ok.injEq] at hok
    have h3 : [(⟨strBytes "tree", [], serializeEntries [],
        gitHashHex (strBytes "tree") (serializeEntries [])⟩ : Event)] = tr :=
      congrArg (fun x => x.2.2) hok
    subst h3
    intro e he
    rcases List.mem_singleton.mp he with rfl
    rfl
  · split at hok
    · cases hok
    · rename_i files dirs heq
      rcases hbt : buildTree σ (pdMerge files dirs) with ⟨σ2, h2, tr2⟩
      rw [hbt] at hok
      cases hok
      exact buildTree_types hbt

set_option maxRecDepth 1000000 in
/-- C1 counterexample: the claim says a skipped commit writes no object
to the store, but `commit` calls `create_tree_from_index` *before* the
no-op checks (src/main.py line 294): committing on a fresh repository
with an empty staging index reports the no-op yet writes the empty tree
object into the store (one tree write in the trace, store changed). -/
theorem commit_noop_writes_counterexample :
    (commitOp exampleRepoEmpty [] [] 0).2.1 = .noop ∧
    (commitOp exampleRepoEmpty [] [] 0).1.store ≠ exampleRepoEmpty.store ∧
    (commitOp exampleRepoEmpty [] [] 0).2.2 ≠ [] := by
  refine ⟨rfl, by decide, by decide⟩

/-- C1 amended: when the staging index is empty, or a parent exists
whose tree digest equals the newly built one, the commit is skipped —
the outcome is the no-op report (distinct from success), no branch ref
moves, HEAD, index and working directory are untouched, and every
object written during the call is a tree object from the tree-build
step (the build itself does write trees, including the empty tree). -/
theorem commit_noop_amended (r : Repo) (m a : Bytes) (now : Nat) :
    ((commitOp r m a now).2.1 = .noop ↔ noopCond r now = true) ∧
    (noopCond r now = true →
      (commitOp r m a now).1.refs = r.refs ∧
      (commitOp r m a now).1.head = r.head ∧
      (commitOp r m a now).1.index = r.index ∧
      (commitOp r m a now).1.workdir = r.workdir ∧
      ∀ e ∈ (commitOp r m a now).2.2, e.etype = strBytes "tree") := by
  rcases hbuild : createTreeFromIndex r.store r.index with e | ⟨σ1, th, tr⟩
  · constructor
    · simp only [commitOp, noopCond, hbuild]
      simp
    · intro hc
      rw [noopCond, hbuild] at hc
      cases hc
  · have htypes := createTree_types hbuild
    by_cases hidx : r.index = []
    · have hred : commitOp r m a now = ({ r with store := σ1 }, .noop, tr) := by
        simp only [commitOp, hbuild]
        simp [hidx]
      constructor
      · rw [hred]
        rw [noopCond, hbuild]
        simp [hidx]
      · intro _
        rw [hred]
        exact ⟨rfl, rfl, rfl, rfl, htypes⟩
    · rcases hpar : truthy (getBranchCommit r.refs (getCurrentBranch r.head)) with
        _ | p
      · constructor
        · simp only [commitOp, noopCond, hbuild]
          simp [hidx, hpar, storeObject]
        · intro hc
          rw [noopCond, hbuild] at hc
          simp [hidx, hpar] at hc
      · rcases hload : loadObject σ1 p with e2 | ⟨t2, c2⟩
        · constructor
          · simp only [commitOp, noopCond, hbuild]
            simp [hidx, hpar, hload]
          · intro hc
            rw [noopCond, hbuild] at hc
            simp [hidx, hpar, hload] at hc
        · by_cases htree : (commitFromContent c2 now).treeHash = some th
          · have hred : commitOp r m a now = ({ r with store := σ1 }, .noop, tr) := by
              simp only [commitOp, hbuild]
              simp [hidx, hpar, hload, htree]
            constructor
            · rw [hred]
              rw [noopCond, hbuild]
              simp [hidx, hpar, hload, htree]
            · intro _
              rw [hred]
              exact ⟨rfl, rfl, rfl, rfl, htypes⟩
          · constructor
            · simp only [commitOp, noopCond, hbuild]
              simp [hidx, hpar, hload, htree, storeObject]
            · intro hc
              rw [noopCond, hbuild] at hc
              simp [hidx, hpar, hload, htree] at hc

set_option maxRecDepth 1000000 in
/-- C1 amended witness: the amended theorem applied to the fresh empty
repository, where the empty index makes the no-op condition hold. -/
theorem commit_noop_amended_witness :
    noopCond exampleRepoEmpty 0 = true ∧
    (commitOp exampleRepoEmpty [] [] 0).2.1 = .noop ∧
    (commitOp exampleRepoEmpty [] [] 0).1.refs = exampleRepoEmpty.refs := by
  have hc : noopCond exampleRepoEmpty 0 = true := by decide
  have h := commit_noop_amended exampleRepoEmpty [] [] 0
  exact ⟨hc, h.1.mpr hc, (h.2 hc).1⟩

/-! ### The staged-blobs-are-stored invariant -/

theorem storeObject_key_mono {σ : Store} {t c : Bytes} {es : List TreeEntry}
    {q : Bytes} (h : q ∈ dictKeys σ) : q ∈ dictKeys (storeObject σ t c es).1 :=
  (dictKeys_set _ _ _ _).mpr (Or.inl h)

theorem storeObject_key_self (σ : Store) (t c : Bytes) (es : List TreeEntry) :
    (storeObject σ t c es).2.1 ∈ dictKeys (storeObject σ t c es).1 :=
  (dictKeys_set _ _ _ _).mpr (Or.inr rfl)

theorem buildEntries_store_mono (d : PyDict) : ∀ (σ : Store) (q : Bytes),
    q ∈ dictKeys σ → q ∈ dictKeys (buildEntries σ d).1 := by
  induction d with
  | nil => intro σ q h; simpa [buildEntries] using h
  | strE k h rest ih =>
      intro σ q hq
      rcases hb : buildEntries σ rest with ⟨σ1, es, tr⟩
      have hh := ih σ q hq
      rw [hb] at hh
      rw [show buildEntries σ (.strE k h rest) =
          (σ1, ⟨strBytes "100644", k, h⟩ :: es, tr) by simp [buildEntries, hb]]
      exact hh
  | dictE k m rest ihm ihr =>
      intro σ q hq
      rcases hbm : buildEntries σ m with ⟨σ1, subEs, tr1⟩
      have h1 := ihm σ q hq
      rw [hbm] at h1
      have h2 : q ∈ dictKeys (dictSet σ1
          (gitHashHex (strBytes "tree") (serializeEntries subEs))
          (gitSerialize (strBytes "tree") (serializeEntries subEs))) :=
        (dictKeys_set _ _ _ _).mpr (Or.inl h1)
      rcases hbr : buildEntries (dictSet σ1
          (gitHashHex (strBytes "tree") (serializeEntries subEs))
          (gitSerialize (strBytes "tree") (serializeEntries subEs))) rest with
        ⟨σ3, es, tr2⟩
      have h3 := ihr _ q h2
      rw [hbr] at h3
      rw [show buildEntries σ (.dictE k m rest) =
          (σ3, ⟨strBytes "40000", k,
            gitHashHex (strBytes "tree") (serializeEntries subEs)⟩ :: es,
            (tr1 ++ [⟨strBytes "tree", subEs, serializeEntries subEs,
              gitHashHex (strBytes "tree") (serializeEntries subEs)⟩]) ++ tr2) by
        simp [buildEntries, hbm, storeObject, hbr]]
      exact h3

theorem createTree_store_mono {σ σ1 : Store} {idx : List (Bytes × Bytes)}
    {th : Bytes} {tr : List Event}
    (hok : createTreeFromIndex σ idx = .ok (σ1, th, tr)) :
    ∀ q ∈ dictKeys σ, q ∈ dictKeys σ1 := by
  intro q hq
  unfold createTreeFromIndex at hok
  split at hok
  · simp only [storeObject, Except.ok.injEq] at hok
    have h1 : dictSet σ (gitHashHex (strBytes "tree") (serializeEntries []))
        (gitSerialize (strBytes "tree") (serializeEntries [])) = σ1 :=
      congrArg Prod.fst hok
    rw [← h1]
    exact (dictKeys_set _ _ _ _).mpr (Or.inl hq)
  · split at hok
    · cases hok
    · rename_i files dirs heq
      rcases hbe : buildEntries σ (pdMerge files dirs) with ⟨σ2, es, tr1⟩
      rw [show buildTree σ (pdMerge files dirs) =
          (dictSet σ2 (gitHashHex (strBytes "tree") (serializeEntries es))
            (gitSerialize (strBytes "tree") (serializeEntries es)),
          gitHashHex (strBytes "tree") (serializeEntries es),
          tr1 ++ [⟨strBytes "tree", es, serializeEntries es,
            gitHashHex (strBytes "tree") (serializeEntries es)⟩]) by
        simp [buildTree, hbe, storeObject]] at hok
      cases hok
      have h1 := buildEntries_store_mono (pdMerge files dirs) σ q hq
      rw [hbe] at h1
      exact (dictKeys_set _ _ _ _).mpr (Or.inl h1)

theorem restoreWD_frame (r : Repo) (b : Bytes) (tc : List Bytes) (fuel now : Nat) :
    (restoreWD r b tc fuel now).1.store = r.store ∧
    (restoreWD r b tc fuel now).1.head = r.head ∧
    (restoreWD r b tc fuel now).1.refs = r.refs ∧
    ((restoreWD r b tc fuel now).1.index = r.index ∨
      (restoreWD r b tc fuel now).1.index = []) ∧
    ((restoreWD r b tc fuel now).2 = .switched →
      (restoreWD r b tc fuel now).1.index = []) := by
  unfold restoreWD
  rcases htr : truthy (getBranchCommit r.refs b) with _ | target
  · simp [htr]
  · rcases hld : loadObject r.store target with e | ⟨t, c⟩
    · simp [htr, hld]
    · rcases hth : truthy (commitFromContent c now).treeHash with _ | th
      · simp [htr, hld, hth]
      · simp [htr, hld, hth]

theorem checkoutOp_c10 (r : Repo) (b : Bytes) (c : Bool) (fuel now : Nat) :
    (checkoutOp r b c fuel now).1.store = r.store ∧
    ((checkoutOp r b c fuel now).1.index = r.index ∨
      (checkoutOp r b c fuel now).1.index = []) ∧
    ((checkoutOp r b c fuel now).2 = .switched →
      (checkoutOp r b c fuel now).1.index = []) := by
  have key : ∀ (r' : Repo) (tc : List Bytes), r'.store = r.store →
      r'.index = r.index →
      (restoreWD r' b tc fuel now).1.store = r.store ∧
      ((restoreWD r' b tc fuel now).1.index = r.index ∨
        (restoreWD r' b tc fuel now).1.index = []) ∧
      ((restoreWD r' b tc fuel now).2 = .switched →
        (restoreWD r' b tc fuel now).1.index = []) := by
    intro r' tc hs hi
    obtain ⟨h1, -, -, h4, h5⟩ := restoreWD_frame r' b tc fuel now
    refine ⟨by rw [h1, hs], ?_, h5⟩
    rw [← hi]
    exact h4
  unfold checkoutOp
  by_cases hb : (dictGet? r.refs b).isSome
  · simp only [hb, if_true]
    exact key _ _ rfl rfl
  · simp only [hb, Bool.false_eq_true, if_false]
    by_cases hc : c
    · simp only [hc, if_true]
      rcases hpar : truthy (getBranchCommit r.refs (getCurrentBranch r.head)) with
        _ | p
      · simp [hpar]
      · simp only [hpar]
        exact key _ _ rfl rfl
    · simp [hc]

theorem addDirStep_inv (p : Bytes) (acc : Store × List (Bytes × Bytes))
    (kv : Bytes × Bytes)
    (hinv : ∀ e ∈ acc.2, e.2 ∈ dictKeys acc.1) :
    (∀ e ∈ (addDirStep p acc kv).2, e.2 ∈ dictKeys (addDirStep p acc kv).1) ∧
    (∀ q ∈ dictKeys acc.1, q ∈ dictKeys (addDirStep p acc kv).1) := by
  unfold addDirStep
  split
  · constructor
    · intro e he
      rcases mem_dictSet he with he | rfl
      · exact (dictKeys_set _ _ _ _).mpr (Or.inl (hinv e he))
      · exact (dictKeys_set _ _ _ _).mpr (Or.inr rfl)
    · intro q hq
      exact (dictKeys_set _ _ _ _).mpr (Or.inl hq)
  · exact ⟨hinv, fun _ hq => hq⟩

theorem addDir_fold_inv (p : Bytes) (wd : List (Bytes × Bytes)) :
    ∀ (acc : Store × List (Bytes × Bytes)),
      (∀ e ∈ acc.2, e.2 ∈ dictKeys acc.1) →
      (∀ e ∈ (wd.foldl (addDirStep p) acc).2,
        e.2 ∈ dictKeys (wd.foldl (addDirStep p) acc).1) ∧
      (∀ q ∈ dictKeys acc.1, q ∈ dictKeys (wd.foldl (addDirStep p) acc).1) := by
  induction wd with
  | nil => intro acc hinv; exact ⟨hinv, fun _ hq => hq⟩
  | cons kv rest ih =>
      intro acc hinv
      have hstep := addDirStep_inv p acc kv hinv
      have hrec := ih (addDirStep p acc kv) hstep.1
      exact ⟨hrec.1, fun q hq => hrec.2 q (hstep.2 q hq)⟩

/-- C10: the invariant that every blob digest recorded in the staging
index refers to an object present in the store is preserved by every
operation, and the store only grows (no operation removes a key):
`add_file`/`add_directory` store each blob before recording it, a
successful commit clears the index (a no-op or failed commit leaves it
unchanged, with the store only grown by tree writes), and checkout
never touches the store and either clears or leaves the index. -/
theorem index_blobs_invariant (r : Repo) (h : indexStored r) :
    (∀ p, indexStored (addFile r p).1 ∧
      ∀ q ∈ dictKeys r.store, q ∈ dictKeys (addFile r p).1.store) ∧
    (∀ p, indexStored (addDirectory r p).1 ∧
      ∀ q ∈ dictKeys r.store, q ∈ dictKeys (addDirectory r p).1.store) ∧
    (∀ m a now, indexStored (commitOp r m a now).1 ∧
      (∀ q ∈ dictKeys r.store, q ∈ dictKeys (commitOp r m a now).1.store) ∧
      (∀ ch, (commitOp r m a now).2.1 = .committed ch →
        (commitOp r m a now).1.index = [])) ∧
    (∀ b c fuel now, indexStored (checkoutOp r b c fuel now).1 ∧
      (checkoutOp r b c fuel now).1.store = r.store ∧
      ((checkoutOp r b c fuel now).2 = .switched →
        (checkoutOp r b c fuel now).1.index = [])) := by
  refine ⟨?_, ?_, ?_, ?_⟩
  · intro p
    unfold addFile
    rcases hw : dictGet? r.workdir p with _ | content
    · exact ⟨h, fun _ hq => hq⟩
    · constructor
      · intro kv hkv
        rcases mem_dictSet hkv with hkv | rfl
        · exact (dictKeys_set _ _ _ _).mpr (Or.inl (h kv hkv))
        · exact (dictKeys_set _ _ _ _).mpr (Or.inr rfl)
      · intro q hq
        exact (dictKeys_set _ _ _ _).mpr (Or.inl hq)
  · intro p
    unfold addDirectory
    split
    · exact ⟨h, fun _ hq => hq⟩
    · split
      · have hfold := addDir_fold_inv p r.workdir (r.store, r.index) h
        exact ⟨hfold.1, hfold.2⟩
      · exact ⟨h, fun _ hq => hq⟩
  · intro m a now
    rcases hbuild : createTreeFromIndex r.store r.index with e | ⟨σ1, th, tr⟩
    · have hred : commitOp r m a now = (r, .err, []) := by
        simp [commitOp, hbuild]
      rw [hred]
      exact ⟨h, fun _ hq => hq, by intro ch hch; cases hch⟩
    · have hmono := createTree_store_mono hbuild
      by_cases hidx : r.index = []
      · have hred : commitOp r m a now = ({ r with store := σ1 }, .noop, tr) := by
          simp only [commitOp, hbuild]
          simp [hidx]
        rw [hred]
        exact ⟨fun kv hkv => hmono _ (h kv hkv), hmono, by intro ch hch; cases hch⟩
      · rcases hpar : truthy (getBranchCommit r.refs (getCurrentBranch r.head)) with
          _ | p
        · rcases hso : storeObject σ1 (strBytes "commit")
              (serializeCommit ⟨some th, [], some a, some a, m, now⟩) [] with ⟨σ2, ch, ev⟩
          have hred : commitOp r m a now =
              ({ r with
                  store := σ2
                  refs := dictSet r.refs (getCurrentBranch r.head) (ch ++ [10])
                  index := [] }, .committed ch, tr ++ [ev]) := by
            simp only [commitOp, hbuild]
            simp [hidx, hpar, hso]
          rw [hred]
          refine ⟨?_, ?_, fun _ _ => rfl⟩
          · intro kv hkv
            cases hkv
          · intro q hq
            have hkm := @storeObject_key_mono σ1 (strBytes "commit")
              (serializeCommit ⟨some th, [], some a, some a, m, now⟩) [] q
              (hmono q hq)
            rw [hso] at hkm
            exact hkm
        · rcases hload : loadObject σ1 p with e2 | ⟨t2, c2⟩
          · have hred : commitOp r m a now = ({ r with store := σ1 }, .err, tr) := by
              simp only [commitOp, hbuild]
              simp [hidx, hpar, hload]
            rw [hred]
            exact ⟨fun kv hkv => hmono _ (h kv hkv), hmono, by intro ch hch; cases hch⟩
          · by_cases htree : (commitFromContent c2 now).treeHash = some th
            · have hred : commitOp r m a now = ({ r with store := σ1 }, .noop, tr) := by
                simp only [commitOp, hbuild]
                simp [hidx, hpar, hload, htree]
              rw [hred]
              exact ⟨fun kv hkv => hmono _ (h kv hkv), hmono, by intro ch hch; cases hch⟩
            · rcases hso : storeObject σ1 (strBytes "commit")
                  (serializeCommit ⟨some th, [p], some a, some a, m, now⟩) [] with
                ⟨σ2, ch, ev⟩
              have hred : commitOp r m a now =
                  ({ r with
                      store := σ2
                      refs := dictSet r.refs (getCurrentBranch r.head) (ch ++ [10])
                      index := [] }, .committed ch, tr ++ [ev]) := by
                simp only [commitOp, hbuild]
                simp [hidx, hpar, hload, htree, hso]
              rw [hred]
              refine ⟨?_, ?_, fun _ _ => rfl⟩
              · intro kv hkv
                cases hkv
              · intro q hq
                have hkm := @storeObject_key_mono σ1 (strBytes "commit")
                  (serializeCommit ⟨some th, [p], some a, some a, m, now⟩) [] q
                  (hmono q hq)
                rw [hso] at hkm
                exact hkm
  · intro b c fuel now
    have hco := checkoutOp_c10 r b c fuel now
    refine ⟨?_, hco.1, hco.2.2⟩
    intro kv hkv
    rcases hco.2.1 with hi | hi
    · rw [hco.1]
      rw [hi] at hkv
      exact h kv hkv
    · rw [hi] at hkv
      cases hkv

set_option maxRecDepth 1000000 in
/-- C10 witness: the invariant theorem applied to a one-file repository
whose index records the stored blob; staging another path preserves the
invariant, and checkout leaves the store untouched. -/
theorem index_blobs_invariant_witness :
    indexStored ⟨exampleStoreWithBlob, [(strBytes "f", gitHashHex (strBytes "blob") [])],
      none, [], [(strBytes "g", [104, 105])]⟩ ∧
    indexStored (addFile ⟨exampleStoreWithBlob,
      [(strBytes "f", gitHashHex (strBytes "blob") [])], none, [],
      [(strBytes "g", [104, 105])]⟩ (strBytes "g")).1 := by
  have hinv : indexStored ⟨exampleStoreWithBlob,
      [(strBytes "f", gitHashHex (strBytes "blob") [])], none, [],
      [(strBytes "g", [104, 105])]⟩ := by
    intro kv hkv
    rcases List.mem_singleton.mp hkv with rfl
    simp [exampleStoreWithBlob, dictKeys]
  exact ⟨hinv, ((index_blobs_invariant _ hinv).1 (strBytes "g")).1⟩

/-! ### Tree entry serialization round trip -/

theorem isHexLower_cases {c : Nat} (h : isHexLower c = true) :
    (48 ≤ c ∧ c ≤ 57) ∨ (97 ≤ c ∧ c ≤ 102) := by
  unfold isHexLower at h
  simp only [Bool.or_eq_true, Bool.and_eq_true, decide_eq_true_eq] at h
  omega

theorem hexVal_digit {c : Nat} (h1 : 48 ≤ c) (h2 : c ≤ 57) : hexVal c = c - 48 := by
  unfold hexVal
  rw [if_pos ⟨h1, h2⟩]

theorem hexVal_alpha {c : Nat} (h1 : 97 ≤ c) (h2 : c ≤ 102) : hexVal c = c - 87 := by
  unfold hexVal
  rw [if_neg (by omega), if_pos ⟨h1, h2⟩]

theorem hexDigitChar_hexVal {c : Nat} (h : isHexLower c = true) :
    hexDigitChar (hexVal c) = c := by
  rcases isHexLower_cases h with ⟨h1, h2⟩ | ⟨h1, h2⟩
  · rw [hexVal_digit h1 h2]
    unfold hexDigitChar
    rw [if_pos (by omega)]
    omega
  · rw [hexVal_alpha h1 h2]
    unfold hexDigitChar
    rw [if_neg (by omega)]
    omega

theorem hexVal_lt {c : Nat} (h : isHexLower c = true) : hexVal c < 16 := by
  rcases isHexLower_cases h with ⟨h1, h2⟩ | ⟨h1, h2⟩
  · rw [hexVal_digit h1 h2]
    omega
  · rw [hexVal_alpha h1 h2]
    omega

theorem byteToHex_pair {c1 c2 : Nat} (h1 : isHexLower c1 = true)
    (h2 : isHexLower c2 = true) :
    byteToHex (hexVal c1 * 16 + hexVal c2) = [c1, c2] := by
  have hv1 := hexVal_lt h1
  have hv2 := hexVal_lt h2
  unfold byteToHex
  have e1 : (hexVal c1 * 16 + hexVal c2) / 16 = hexVal c1 := by omega
  have e2 : (hexVal c1 * 16 + hexVal c2) % 16 = hexVal c2 := by omega
  rw [e1, e2, hexDigitChar_hexVal h1, hexDigitChar_hexVal h2]

theorem bytesToHex_fromHex : ∀ (s : Bytes), s.all isHexLower = true →
    s.length % 2 = 0 →
    bytesToHex (bytesFromHex s) = s ∧ (bytesFromHex s).length * 2 = s.length
  | [], _, _ => ⟨rfl, rfl⟩
  | [c], _, hlen => by simp at hlen
  | c1 :: c2 :: rest, hall, hlen => by
      simp only [List.all_cons, Bool.and_eq_true] at hall
      have hlen2 : rest.length % 2 = 0 := by
        simp only [List.length_cons] at hlen
        omega
      have ih := bytesToHex_fromHex rest hall.2.2 hlen2
      constructor
      · show bytesToHex ((hexVal c1 * 16 + hexVal c2) :: bytesFromHex rest) =
          c1 :: c2 :: rest
        show byteToHex (hexVal c1 * 16 + hexVal c2) ++ bytesToHex (bytesFromHex rest) =
          c1 :: c2 :: rest
        rw [byteToHex_pair hall.1 hall.2.1, ih.1]
        rfl
      · show ((hexVal c1 * 16 + hexVal c2) :: bytesFromHex rest).length * 2 =
          (c1 :: c2 :: rest).length
        simp only [List.length_cons]
        omega

theorem bytesFromHex_length40 {h : Bytes} (hx : isHex40 h = true) :
    (bytesFromHex h).length = 20 ∧ bytesToHex (bytesFromHex h) = h := by
  unfold isHex40 at hx
  simp only [Bool.and_eq_true, decide_eq_true_eq] at hx
  have := bytesToHex_fromHex h hx.2 (by omega)
  exact ⟨by omega, this.1⟩

theorem serializeEntries_cons (e : TreeEntry) (es : List TreeEntry) :
    serializeEntries (e :: es) =
      ((e.mode ++ 32 :: e.name) ++ 0 :: bytesFromHex e.hashHex) ++
        serializeEntries es := by
  simp [serializeEntries, List.append_assoc]

theorem serializeEntries_length_ge (es : List TreeEntry) :
    es.length ≤ (serializeEntries es).length := by
  induction es with
  | nil => simp [serializeEntries]
  | cons e rest ih =>
      rw [serializeEntries_cons]
      simp only [List.length_append, List.length_cons, List.length_cons]
      omega

theorem treeFromContentAux_roundtrip : ∀ (es : List TreeEntry) (fuel : Nat),
    es.length < fuel → (∀ e ∈ es, wfEntry e) →
    treeFromContentAux fuel (serializeEntries es) = .ok es := by
  intro es
  induction es with
  | nil =>
      intro fuel hf _
      cases fuel with
      | zero => omega
      | succ f => rfl
  | cons e rest ih =>
      intro fuel hf hwf
      cases fuel with
      | zero => omega
      | succ f =>
        have hwfe := hwf e (List.mem_cons_self _ _)
        obtain ⟨hm0, hm32, hn0, hhex⟩ := hwfe
        obtain ⟨hlen20, hback⟩ := bytesFromHex_length40 hhex
        have hform : serializeEntries (e :: rest) =
            (e.mode ++ 32 :: e.name) ++ 0 ::
              (bytesFromHex e.hashHex ++ serializeEntries rest) := by
          rw [serializeEntries_cons]
          simp [List.append_assoc]
        have hno0 : (0 : Nat) ∉ e.mode ++ 32 :: e.name := by
          intro hc
          rcases List.mem_append.mp hc with hc | hc
          · exact hm0 hc
          · rcases List.mem_cons.mp hc with hc | hc
            · omega
            · exact hn0 hc
        have hfind : findByte (serializeEntries (e :: rest)) 0 =
            some (e.mode ++ 32 :: e.name).length := by
          rw [hform]
          exact findByte_append _ _ hno0
        have htake : (serializeEntries (e :: rest)).take (e.mode ++ 32 :: e.name).length =
            e.mode ++ 32 :: e.name := by
          rw [hform]
          exact List.take_left _ _
        have hsplit : splitFirst 32 (e.mode ++ 32 :: e.name) = some (e.mode, e.name) :=
          splitFirst_append _ _ hm32
        have hdrop1 : (serializeEntries (e :: rest)).drop
            ((e.mode ++ 32 :: e.name).length + 1) =
            bytesFromHex e.hashHex ++ serializeEntries rest := by
          rw [hform]
          rw [show (e.mode ++ 32 :: e.name) ++ 0 ::
              (bytesFromHex e.hashHex ++ serializeEntries rest) =
            ((e.mode ++ 32 :: e.name) ++ [0]) ++
              (bytesFromHex e.hashHex ++ serializeEntries rest) by simp]
          rw [show (e.mode ++ 32 :: e.name).length + 1 =
            ((e.mode ++ 32 :: e.name) ++ [0]).length by simp <;> omega]
          exact List.drop_left _ _
        have htake20 : (bytesFromHex e.hashHex ++ serializeEntries rest).take 20 =
            bytesFromHex e.hashHex := by
          rw [← hlen20]
          exact List.take_left _ _
        have hdrop21 : (serializeEntries (e :: rest)).drop
            ((e.mode ++ 32 :: e.name).length + 21) = serializeEntries rest := by
          rw [hform]
          rw [show (e.mode ++ 32 :: e.name) ++ 0 ::
              (bytesFromHex e.hashHex ++ serializeEntries rest) =
            ((e.mode ++ 32 :: e.name) ++ 0 :: bytesFromHex e.hashHex) ++
              serializeEntries rest by simp]
          rw [show (e.mode ++ 32 :: e.name).length + 21 =
            ((e.mode ++ 32 :: e.name) ++ 0 :: bytesFromHex e.hashHex).length by
            simp [hlen20] <;> omega]
          exact List.drop_left _ _
        have hrec : treeFromContentAux f (serializeEntries rest) = .ok rest := by
          apply ih f (by simpa using Nat.lt_of_succ_lt_succ hf)
          intro e2 he2
          exact hwf e2 (List.mem_cons_of_mem _ he2)
        show treeFromContentAux (f + 1) (serializeEntries (e :: rest)) = .ok (e :: rest)
        rw [treeFromContentAux, hfind]
        simp only [htake, hsplit, hdrop1, htake20, hdrop21, hrec, hback]

theorem treeFromContent_serializeEntries (es : List TreeEntry)
    (h : ∀ e ∈ es, wfEntry e) :
    treeFromContent (serializeEntries es) = .ok es := by
  apply treeFromContentAux_roundtrip es _ _ h
  have := serializeEntries_length_ge es
  omega

theorem serializeEntries_inj {es1 es2 : List TreeEntry}
    (h1 : ∀ e ∈ es1, wfEntry e) (h2 : ∀ e ∈ es2, wfEntry e)
    (heq : serializeEntries es1 = serializeEntries es2) : es1 = es2 := by
  have ha := treeFromContent_serializeEntries es1 h1
  rw [heq, treeFromContent_serializeEntries es2 h2] at ha
  exact (Except.ok.inj ha).symm

/-! ### Flat-index tree building and entry order -/

theorem segsOf_single {k : Bytes} (h : (47 : Nat) ∉ k) : segsOf k = [k] :=
  splitAll_not_mem h

theorem buildDicts_flat_aux : ∀ (idx : List (Bytes × Bytes)) (acc : PyDict),
    (∀ kv ∈ idx, (47 : Nat) ∉ kv.1) →
    List.foldlM buildDictsStep (acc, PyDict.nil) idx =
      .ok (idx.foldl (fun a kv => pdSet a kv.1 (.str kv.2)) acc, PyDict.nil) := by
  intro idx
  induction idx with
  | nil => intro acc _; rfl
  | cons kv rest ih =>
      intro acc hflat
      have hstep : buildDictsStep (acc, PyDict.nil) kv =
          .ok (pdSet acc kv.1 (.str kv.2), PyDict.nil) := by
        unfold buildDictsStep
        rw [segsOf_single (hflat kv (List.mem_cons_self _ _))]
      have hrest : ∀ kv2 ∈ rest, (47 : Nat) ∉ kv2.1 :=
        fun kv2 h2 => hflat kv2 (List.mem_cons_of_mem _ h2)
      simp only [List.foldlM, hstep, Except.bind]
      exact ih (pdSet acc kv.1 (.str kv.2)) hrest

theorem pdKeys_pdOfFlat (idx : List (Bytes × Bytes)) :
    pdKeys (pdOfFlat idx) = dictKeys idx := by
  induction idx with
  | nil => rfl
  | cons kv rest ih =>
      obtain ⟨k, h⟩ := kv
      show k :: pdKeys (pdOfFlat rest) = k :: dictKeys rest
      rw [ih]

theorem pdSet_fresh_flat (done : List (Bytes × Bytes)) (k h : Bytes)
    (hk : k ∉ dictKeys done) :
    pdSet (pdOfFlat done) k (.str h) = pdOfFlat (done ++ [(k, h)]) := by
  induction done with
  | nil => rfl
  | cons kv rest ih =>
      obtain ⟨k1, h1⟩ := kv
      have hne : k1 ≠ k := by
        intro hc
        subst hc
        exact hk (List.mem_cons_self _ _)
      have hk2 : k ∉ dictKeys rest := fun hc => hk (List.mem_cons_of_mem _ hc)
      show pdSet (.strE k1 h1 (pdOfFlat rest)) k (.str h) = _
      unfold pdSet
      rw [if_neg hne]
      rw [ih hk2]
      rfl

theorem foldl_pdSet_flat : ∀ (idx done : List (Bytes × Bytes)),
    (dictKeys (done ++ idx)).Nodup →
    idx.foldl (fun a kv => pdSet a kv.1 (.str kv.2)) (pdOfFlat done) =
      pdOfFlat (done ++ idx) := by
  intro idx
  induction idx with
  | nil => intro done _; simp
  | cons kv rest ih =>
      intro done hnd
      obtain ⟨k, h⟩ := kv
      have hkeys : dictKeys (done ++ (k, h) :: rest) =
          dictKeys done ++ k :: dictKeys rest := by
        simp [dictKeys]
      rw [hkeys] at hnd
      have hdisj := (List.nodup_append.mp hnd).2.2
      have hkfresh : k ∉ dictKeys done := by
        intro hc
        exact hdisj hc (List.mem_cons_self _ _)
      have hstep : pdSet (pdOfFlat done) k (.str h) = pdOfFlat (done ++ [(k, h)]) :=
        pdSet_fresh_flat done k h hkfresh
      show List.foldl _ (pdSet (pdOfFlat done) k (.str h)) rest = _
      rw [hstep]
      have hnd2 : (dictKeys ((done ++ [(k, h)]) ++ rest)).Nodup := by
        have : (done ++ [(k, h)]) ++ rest = done ++ (k, h) :: rest := by simp
        rw [this, hkeys]
        exact hnd
      have := ih (done ++ [(k, h)]) hnd2
      rw [this]
      simp

theorem buildEntries_flat (σ : Store) : ∀ (idx : List (Bytes × Bytes)),
    buildEntries σ (pdOfFlat idx) =
      (σ, idx.map (fun kv => ⟨strBytes "100644", kv.1, kv.2⟩), []) := by
  intro idx
  induction idx with
  | nil => rfl
  | cons kv rest ih =>
      obtain ⟨k, h⟩ := kv
      show buildEntries σ (.strE k h (pdOfFlat rest)) = _
      rw [show buildEntries σ (.strE k h (pdOfFlat rest)) =
          ((buildEntries σ (pdOfFlat rest)).1,
            ⟨strBytes "100644", k, h⟩ :: (buildEntries σ (pdOfFlat rest)).2.1,
            (buildEntries σ (pdOfFlat rest)).2.2) from rfl]
      rw [ih]
      rfl

theorem createTree_flat (σ : Store) (idx : List (Bytes × Bytes))
    (hflat : ∀ kv ∈ idx, (47 : Nat) ∉ kv.1) (hnd : (dictKeys idx).Nodup)
    (hne : idx ≠ []) :
    ∃ σ1 tr, createTreeFromIndex σ idx =
      .ok (σ1, gitHashHex (strBytes "tree") (rootContentFlat idx), tr) := by
  have hbd : buildDicts idx = .ok (pdOfFlat idx, PyDict.nil) := by
    unfold buildDicts
    rw [buildDicts_flat_aux idx PyDict.nil hflat]
    rw [show (PyDict.nil : PyDict) = pdOfFlat [] from rfl]
    rw [foldl_pdSet_flat idx [] (by simpa using hnd)]
    simp
  have hbt : buildTree σ (pdOfFlat idx) =
      ((storeObject σ (strBytes "tree") (rootContentFlat idx)
        (idx.map (fun kv => ⟨strBytes "100644", kv.1, kv.2⟩))).1,
      gitHashHex (strBytes "tree") (rootContentFlat idx),
      [⟨strBytes "tree", idx.map (fun kv => ⟨strBytes "100644", kv.1, kv.2⟩),
        rootContentFlat idx, gitHashHex (strBytes "tree") (rootContentFlat idx)⟩]) := by
    unfold buildTree
    rw [buildEntries_flat σ idx]
    rfl
  refine ⟨(buildTree σ (pdOfFlat idx)).1, (buildTree σ (pdOfFlat idx)).2.2, ?_⟩
  unfold createTreeFromIndex
  rw [if_neg hne, hbd]
  show Except.ok (buildTree σ (pdMerge (pdOfFlat idx) PyDict.nil)) = _
  rw [show pdMerge (pdOfFlat idx) PyDict.nil = pdOfFlat idx from rfl, hbt]

/-- C8: tree entries are serialized in insertion order, not a canonical
sorted order (src/main.py lines 57-61, 245-273): two staging indexes
holding the same path-to-digest set in different orders build root trees
with different payloads, hence (absent a digest collision on those two
payloads) different digests, for semantically identical content. -/
theorem tree_entry_order_sensitivity (σ : Store) (i1 i2 : List (Bytes × Bytes))
    (hwf1 : ∀ kv ∈ i1, (47 : Nat) ∉ kv.1 ∧ (0 : Nat) ∉ kv.1 ∧ isHex40 kv.2 = true)
    (hwf2 : ∀ kv ∈ i2, (47 : Nat) ∉ kv.1 ∧ (0 : Nat) ∉ kv.1 ∧ isHex40 kv.2 = true)
    (hnd1 : (dictKeys i1).Nodup) (hnd2 : (dictKeys i2).Nodup)
    (hperm : i1.Perm i2) (hne : i1 ≠ i2)
    (hcol : gitHashHex (strBytes "tree") (rootContentFlat i1) =
        gitHashHex (strBytes "tree") (rootContentFlat i2) →
      rootContentFlat i1 = rootContentFlat i2) :
    rootContentFlat i1 ≠ rootContentFlat i2 ∧
    ∀ σ1 σ2 r1 r2 t1 t2,
      createTreeFromIndex σ i1 = .ok (σ1, r1, t1) →
      createTreeFromIndex σ i2 = .ok (σ2, r2, t2) → r1 ≠ r2 := by
  have hwfe : ∀ (i : List (Bytes × Bytes)),
      (∀ kv ∈ i, (47 : Nat) ∉ kv.1 ∧ (0 : Nat) ∉ kv.1 ∧ isHex40 kv.2 = true) →
      ∀ e ∈ i.map (fun kv => (⟨strBytes "100644", kv.1, kv.2⟩ : TreeEntry)),
        wfEntry e := by
    intro i hwf e he
    obtain ⟨kv, hkv, rfl⟩ := List.mem_map.mp he
    obtain ⟨-, hn0, hhex⟩ := hwf kv hkv
    refine ⟨?_, ?_, hn0, hhex⟩
    · show (0 : Nat) ∉ strBytes "100644"
      decide
    · show (32 : Nat) ∉ strBytes "100644"
      decide
  have hcontent : rootContentFlat i1 ≠ rootContentFlat i2 := by
    intro heq
    have hinj := serializeEntries_inj (hwfe i1 hwf1) (hwfe i2 hwf2) heq
    have : i1 = i2 := by
      have hmapinj : Function.Injective
          (fun kv : Bytes × Bytes => (⟨strBytes "100644", kv.1, kv.2⟩ : TreeEntry)) := by
        intro a b hab
        simp only [TreeEntry.mk.injEq, true_and] at hab
        exact Prod.ext hab.1 hab.2
      exact List.map_injective_iff.mpr hmapinj hinj
    exact hne this
  refine ⟨hcontent, ?_⟩
  intro σ1 σ2 r1 r2 t1 t2 h1 h2 hr
  have hne1 : i1 ≠ [] := by
    intro hc
    subst hc
    have : i2 = [] := hperm.symm.eq_nil
    exact hne this.symm
  have hne2 : i2 ≠ [] := by
    intro hc
    rw [hc] at hperm
    exact hne1 hperm.eq_nil
  obtain ⟨s1, tr1', hflat1⟩ := createTree_flat σ i1
    (fun kv hkv => (hwf1 kv hkv).1) hnd1 hne1
  obtain ⟨s2, tr2', hflat2⟩ := createTree_flat σ i2
    (fun kv hkv => (hwf2 kv hkv).1) hnd2 hne2
  rw [h1] at hflat1
  rw [h2] at hflat2
  have hr1 : r1 = gitHashHex (strBytes "tree") (rootContentFlat i1) := by
    have := Except.ok.inj hflat1
    exact congrArg (fun x => x.2.1) this
  have hr2 : r2 = gitHashHex (strBytes "tree") (rootContentFlat i2) := by
    have := Except.ok.inj hflat2
    exact congrArg (fun x => x.2.1) this
  rw [hr1, hr2] at hr
  exact hcontent (hcol hr)

set_option maxRecDepth 1000000 in
/-- C8 witness: the two-entry index staged in both orders; the root
payloads differ and the concrete root digests differ. -/
theorem tree_entry_order_witness :
    flatIdxA.Perm flatIdxB ∧ flatIdxA ≠ flatIdxB ∧
    rootContentFlat flatIdxA ≠ rootContentFlat flatIdxB := by
  have hperm : flatIdxA.Perm flatIdxB :=
    List.Perm.swap (strBytes "b", exDigest2) (strBytes "a", exDigest1) []
  have hne : flatIdxA ≠ flatIdxB := by decide
  have hbeq : (gitHashHex (strBytes "tree") (rootContentFlat flatIdxA) ==
      gitHashHex (strBytes "tree") (rootContentFlat flatIdxB)) = false := by rfl
  have h := tree_entry_order_sensitivity [] flatIdxA flatIdxB
    (by decide) (by decide) (by decide) (by decide) hperm hne
    (fun hp => absurd hp (ne_of_list_beq_false hbeq))
  exact ⟨hperm, hne, h.1⟩


/-! ### Post-order tree building -/

theorem pdStrs_pdCons (k : Bytes) (v : PyVal) (rest : PyDict) :
    pdStrs (pdCons k v rest) = pdValStrs v ++ pdStrs rest := by
  cases v <;> rfl

theorem pdStrs_pdSet : ∀ (m : PyDict) (k : Bytes) (v : PyVal) (s : Bytes),
    s ∈ pdStrs (pdSet m k v) → s ∈ pdStrs m ∨ s ∈ pdValStrs v := by
  intro m
  induction m with
  | nil =>
      intro k v s hs
      rw [show pdSet .nil k v = pdCons k v .nil from rfl, pdStrs_pdCons] at hs
      rcases List.mem_append.mp hs with hs | hs
      · exact Or.inr hs
      · simp [pdStrs] at hs
  | strE k1 h1 rest ih =>
      intro k v s hs
      by_cases hk : k1 = k
      · rw [show pdSet (.strE k1 h1 rest) k v = pdCons k1 v rest by
          simp [pdSet, hk], pdStrs_pdCons] at hs
        rcases List.mem_append.mp hs with hs | hs
        · exact Or.inr hs
        · exact Or.inl (List.mem_cons_of_mem _ hs)
      · rw [show pdSet (.strE k1 h1 rest) k v = .strE k1 h1 (pdSet rest k v) by
          simp [pdSet, hk]] at hs
        rw [show pdStrs (.strE k1 h1 (pdSet rest k v)) =
          h1 :: pdStrs (pdSet rest k v) from rfl] at hs
        rcases List.mem_cons.mp hs with rfl | hs
        · exact Or.inl (List.mem_cons_self _ _)
        · rcases ih k v s hs with h | h
          · exact Or.inl (List.mem_cons_of_mem _ h)
          · exact Or.inr h
  | dictE k1 m1 rest _ ihr =>
      intro k v s hs
      by_cases hk : k1 = k
      · rw [show pdSet (.dictE k1 m1 rest) k v = pdCons k1 v rest by
          simp [pdSet, hk], pdStrs_pdCons] at hs
        rcases List.mem_append.mp hs with hs | hs
        · exact Or.inr hs
        · refine Or.inl ?_
          show s ∈ pdStrs m1 ++ pdStrs rest
          exact List.mem_append.mpr (Or.inr hs)
      · rw [show pdSet (.dictE k1 m1 rest) k v = .dictE k1 m1 (pdSet rest k v) by
          simp [pdSet, hk]] at hs
        rw [show pdStrs (.dictE k1 m1 (pdSet rest k v)) =
          pdStrs m1 ++ pdStrs (pdSet rest k v) from rfl] at hs
        rcases List.mem_append.mp hs with hs | hs
        · refine Or.inl ?_
          show s ∈ pdStrs m1 ++ pdStrs rest
          exact List.mem_append.mpr (Or.inl hs)
        · rcases ihr k v s hs with h | h
          · refine Or.inl ?_
            show s ∈ pdStrs m1 ++ pdStrs rest
            exact List.mem_append.mpr (Or.inr h)
          · exact Or.inr h

theorem pdGet?_strs : ∀ (m : PyDict) (p : Bytes) (v : PyVal),
    pdGet? m p = some v → ∀ s ∈ pdValStrs v, s ∈ pdStrs m := by
  intro m
  induction m with
  | nil => intro p v h; cases h
  | strE k1 h1 rest ih =>
      intro p v h s hs
      by_cases hk : k1 = p
      · rw [show pdGet? (.strE k1 h1 rest) p = some (.str h1) by
          simp [pdGet?, hk]] at h
        cases h
        rw [show pdValStrs (PyVal.str h1) = [h1] from rfl] at hs
        rcases List.mem_singleton.mp hs with rfl
        exact List.mem_cons_self _ _
      · rw [show pdGet? (.strE k1 h1 rest) p = pdGet? rest p by
          simp [pdGet?, hk]] at h
        exact List.mem_cons_of_mem _ (ih p v h s hs)
  | dictE k1 m1 rest _ ihr =>
      intro p v h s hs
      by_cases hk : k1 = p
      · rw [show pdGet? (.dictE k1 m1 rest) p = some (.dict m1) by
          simp [pdGet?, hk]] at h
        cases h
        rw [show pdValStrs (PyVal.dict m1) = pdStrs m1 from rfl] at hs
        show s ∈ pdStrs m1 ++ pdStrs rest
        exact List.mem_append.mpr (Or.inl hs)
      · rw [show pdGet? (.dictE k1 m1 rest) p = pdGet? rest p by
          simp [pdGet?, hk]] at h
        show s ∈ pdStrs m1 ++ pdStrs rest
        exact List.mem_append.mpr (Or.inr (ihr p v h s hs))

theorem insertPath_strs : ∀ (mid : List Bytes) (m : PyDict) (lastSeg hd : Bytes)
    (m' : PyDict), insertPath m mid lastSeg hd = .ok m' →
    ∀ s ∈ pdStrs m', s ∈ pdStrs m ∨ s = hd := by
  intro mid
  induction mid with
  | nil =>
      intro m l hd m' hok s hs
      rw [show insertPath m [] l hd = .ok (pdSet m l (.str hd)) from rfl] at hok
      cases hok
      rcases pdStrs_pdSet m l (.str hd) s hs with h1 | h1
      · exact Or.inl h1
      · rw [show pdValStrs (PyVal.str hd) = [hd] from rfl] at h1
        exact Or.inr (List.mem_singleton.mp h1)
  | cons p ps ih =>
      intro m l hd m' hok s hs
      rcases hg : pdGet? m p with _ | v
      · rcases hins : insertPath .nil ps l hd with e | sub'
        · simp [insertPath, hg, hins] at hok
        · simp only [insertPath, hg, hins, Except.ok.injEq] at hok
          subst hok
          rcases pdStrs_pdSet m p (.dict sub') s hs with h1 | h1
          · exact Or.inl h1
          · rw [show pdValStrs (PyVal.dict sub') = pdStrs sub' from rfl] at h1
            rcases ih PyDict.nil l hd sub' hins s h1 with h2 | h2
            · simp [pdStrs] at h2
            · exact Or.inr h2
      · cases v with
        | str h1 => simp [insertPath, hg] at hok
        | dict sub =>
            rcases hins : insertPath sub ps l hd with e | sub'
            · simp [insertPath, hg, hins] at hok
            · simp only [insertPath, hg, hins, Except.ok.injEq] at hok
              subst hok
              rcases pdStrs_pdSet m p (.dict sub') s hs with h1 | h1
              · exact Or.inl h1
              · rw [show pdValStrs (PyVal.dict sub') = pdStrs sub' from rfl] at h1
                rcases ih sub l hd sub' hins s h1 with h2 | h2
                · refine Or.inl (pdGet?_strs m p (.dict sub) hg s ?_)
                  rw [show pdValStrs (PyVal.dict sub) = pdStrs sub from rfl]
                  exact h2
                · exact Or.inr h2

theorem buildDictsStep_strs (fd fd' : PyDict × PyDict) (kv : Bytes × Bytes)
    (hok : buildDictsStep fd kv = .ok fd') :
    ∀ s, (s ∈ pdStrs fd'.1 ∨ s ∈ pdStrs fd'.2) →
      (s ∈ pdStrs fd.1 ∨ s ∈ pdStrs fd.2) ∨ s = kv.2 := by
  intro s hs
  rcases hseg : segsOf kv.1 with _ | ⟨n, _ | ⟨q, qs⟩⟩
  · simp only [buildDictsStep, hseg, Except.ok.injEq] at hok
    subst hok
    exact Or.inl hs
  · simp only [buildDictsStep, hseg, Except.ok.injEq] at hok
    subst hok
    rcases hs with hs | hs
    · rcases pdStrs_pdSet fd.1 n (.str kv.2) s hs with h1 | h1
      · exact Or.inl (Or.inl h1)
      · rw [show pdValStrs (PyVal.str kv.2) = [kv.2] from rfl] at h1
        exact Or.inr (List.mem_singleton.mp h1)
    · exact Or.inl (Or.inr hs)
  · simp only [buildDictsStep, hseg] at hok
    split at hok
    · cases hok
    · rename_i dirs' hins
      cases hok
      rcases hs with hs | hs
      · exact Or.inl (Or.inl hs)
      · rcases insertPath_strs (n :: (q :: qs).dropLast) fd.2
            ((q :: qs).getLast (List.cons_ne_nil q qs)) kv.2 dirs' hins s hs with h1 | h1
        · exact Or.inl (Or.inr h1)
        · exact Or.inr h1

theorem buildDicts_aux_strs : ∀ (idx : List (Bytes × Bytes)) (fd0 fdr : PyDict × PyDict),
    List.foldlM buildDictsStep fd0 idx = .ok fdr →
    ∀ s, (s ∈ pdStrs fdr.1 ∨ s ∈ pdStrs fdr.2) →
      (s ∈ pdStrs fd0.1 ∨ s ∈ pdStrs fd0.2) ∨ ∃ kv ∈ idx, s = kv.2 := by
  intro idx
  induction idx with
  | nil =>
      intro fd0 fdr hok s hs
      have h1 : fd0 = fdr := Except.ok.inj hok
      subst h1
      exact Or.inl hs
  | cons kv rest ih =>
      intro fd0 fdr hok s hs
      rcases hstep : buildDictsStep fd0 kv with e | fd1
      · simp only [List.foldlM, hstep, Except.bind] at hok
        cases hok
      · simp only [List.foldlM, hstep, Except.bind] at hok
        rcases ih fd1 fdr hok s hs with h1 | h1
        · rcases buildDictsStep_strs fd0 fd1 kv hstep s h1 with h2 | h2
          · exact Or.inl h2
          · exact Or.inr ⟨kv, List.mem_cons_self _ _, h2⟩
        · obtain ⟨kv2, hkv2, h2⟩ := h1
          exact Or.inr ⟨kv2, List.mem_cons_of_mem _ hkv2, h2⟩

theorem pdMerge_strs : ∀ (dirs files : PyDict) (s : Bytes),
    s ∈ pdStrs (pdMerge files dirs) → s ∈ pdStrs files ∨ s ∈ pdStrs dirs := by
  intro dirs
  induction dirs with
  | nil => intro files s hs; exact Or.inl hs
  | strE k hd rest ih =>
      intro files s hs
      rw [show pdMerge files (.strE k hd rest) =
        pdMerge (pdSet files k (.str hd)) rest from rfl] at hs
      rcases ih (pdSet files k (.str hd)) s hs with h1 | h1
      · rcases pdStrs_pdSet files k (.str hd) s h1 with h2 | h2
        · exact Or.inl h2
        · rw [show pdValStrs (PyVal.str hd) = [hd] from rfl] at h2
          rcases List.mem_singleton.mp h2 with rfl
          exact Or.inr (List.mem_cons_self _ _)
      · exact Or.inr (List.mem_cons_of_mem _ h1)
  | dictE k m rest _ ihr =>
      intro files s hs
      rw [show pdMerge files (.dictE k m rest) =
        pdMerge (pdSet files k (.dict m)) rest from rfl] at hs
      rcases ihr (pdSet files k (.dict m)) s hs with h1 | h1
      · rcases pdStrs_pdSet files k (.dict m) s h1 with h2 | h2
        · exact Or.inl h2
        · rw [show pdValStrs (PyVal.dict m) = pdStrs m from rfl] at h2
          refine Or.inr ?_
          show s ∈ pdStrs m ++ pdStrs rest
          exact List.mem_append.mpr (Or.inl h2)
      · refine Or.inr ?_
        show s ∈ pdStrs m ++ pdStrs rest
        exact List.mem_append.mpr (Or.inr h1)

theorem applyTrace_append (σ : Store) (t1 t2 : List Event) :
    applyTrace σ (t1 ++ t2) = applyTrace (applyTrace σ t1) t2 := by
  simp [applyTrace]

theorem traceOk_append : ∀ (t1 : List Event) (σ : Store) (t2 : List Event),
    traceOk σ (t1 ++ t2) = (traceOk σ t1 && traceOk (applyTrace σ t1) t2) := by
  intro t1
  induction t1 with
  | nil => intro σ t2; simp [traceOk, applyTrace]
  | cons e rest ih =>
      intro σ t2
      show (e.entries.all _ && traceOk (applyEvent σ e) (rest ++ t2)) = _
      rw [ih (applyEvent σ e) t2]
      rw [show traceOk σ (e :: rest) =
        ((e.entries.all fun ent => decide (ent.hashHex ∈ dictKeys σ)) &&
          traceOk (applyEvent σ e) rest) from rfl]
      rw [show applyTrace σ (e :: rest) = applyTrace (applyEvent σ e) rest from rfl]
      rw [Bool.and_assoc]

theorem buildEntries_applyTrace (d : PyDict) : ∀ (σ : Store),
    applyTrace σ (buildEntries σ d).2.2 = (buildEntries σ d).1 := by
  induction d with
  | nil => intro σ; rfl
  | strE k hd rest ih =>
      intro σ
      rcases hb : buildEntries σ rest with ⟨σ1, es, tr⟩
      rw [show buildEntries σ (.strE k hd rest) =
          (σ1, ⟨strBytes "100644", k, hd⟩ :: es, tr) by simp [buildEntries, hb]]
      have hh := ih σ
      rw [hb] at hh
      exact hh
  | dictE k m rest ihm ihr =>
      intro σ
      rcases hbm : buildEntries σ m with ⟨σ1, subEs, tr1⟩
      rcases hbr : buildEntries (dictSet σ1
          (gitHashHex (strBytes "tree") (serializeEntries subEs))
          (gitSerialize (strBytes "tree") (serializeEntries subEs))) rest with
        ⟨σ3, es, tr2⟩
      rw [show buildEntries σ (.dictE k m rest) =
          (σ3, ⟨strBytes "40000", k,
            gitHashHex (strBytes "tree") (serializeEntries subEs)⟩ :: es,
            (tr1 ++ [⟨strBytes "tree", subEs, serializeEntries subEs,
              gitHashHex (strBytes "tree") (serializeEntries subEs)⟩]) ++ tr2) by
        simp [buildEntries, hbm, storeObject, hbr]]
      rw [applyTrace_append, applyTrace_append]
      have h1 := ihm σ
      rw [hbm] at h1
      rw [h1]
      rw [show applyTrace σ1 [⟨strBytes "tree", subEs, serializeEntries subEs,
          gitHashHex (strBytes "tree") (serializeEntries subEs)⟩] =
        dictSet σ1 (gitHashHex (strBytes "tree") (serializeEntries subEs))
          (gitSerialize (strBytes "tree") (serializeEntries subEs)) from rfl]
      have h2 := ihr (dictSet σ1
          (gitHashHex (strBytes "tree") (serializeEntries subEs))
          (gitSerialize (strBytes "tree") (serializeEntries subEs)))
      rw [hbr] at h2
      exact h2

theorem buildEntries_traceOk (d : PyDict) : ∀ (σ : Store),
    (∀ s ∈ pdStrs d, s ∈ dictKeys σ) →
    traceOk σ (buildEntries σ d).2.2 = true ∧
    ∀ e ∈ (buildEntries σ d).2.1, e.hashHex ∈ dictKeys (buildEntries σ d).1 := by
  induction d with
  | nil =>
      intro σ _
      constructor
      · rfl
      · intro e he
        simp [buildEntries] at he
  | strE k hd rest ih =>
      intro σ hs
      rcases hb : buildEntries σ rest with ⟨σ1, es, tr⟩
      have hrest : ∀ s ∈ pdStrs rest, s ∈ dictKeys σ := fun s h =>
        hs s (List.mem_cons_of_mem _ h)
      have hih := ih σ hrest
      rw [hb] at hih
      rw [show buildEntries σ (.strE k hd rest) =
          (σ1, ⟨strBytes "100644", k, hd⟩ :: es, tr) by simp [buildEntries, hb]]
      refine ⟨hih.1, ?_⟩
      intro e he
      rcases List.mem_cons.mp he with rfl | he
      · have h0 : hd ∈ dictKeys σ := hs hd (List.mem_cons_self _ _)
        have h1 := buildEntries_store_mono rest σ hd h0
        rw [hb] at h1
        exact h1
      · exact hih.2 e he
  | dictE k m rest ihm ihr =>
      intro σ hs
      rcases hbm : buildEntries σ m with ⟨σ1, subEs, tr1⟩
      have hm : ∀ s ∈ pdStrs m, s ∈ dictKeys σ := fun s h =>
        hs s (List.mem_append.mpr (Or.inl h))
      have hihm := ihm σ hm
      rw [hbm] at hihm
      rcases hbr : buildEntries (dictSet σ1
          (gitHashHex (strBytes "tree") (serializeEntries subEs))
          (gitSerialize (strBytes "tree") (serializeEntries subEs))) rest with
        ⟨σ3, es, tr2⟩
      have hrest : ∀ s ∈ pdStrs rest, s ∈ dictKeys (dictSet σ1
          (gitHashHex (strBytes "tree") (serializeEntries subEs))
          (gitSerialize (strBytes "tree") (serializeEntries subEs))) := by
        intro s h
        have h0 : s ∈ dictKeys σ := hs s (List.mem_append.mpr (Or.inr h))
        have h1 := buildEntries_store_mono m σ s h0
        rw [hbm] at h1
        exact (dictKeys_set _ _ _ _).mpr (Or.inl h1)
      have hihr := ihr _ hrest
      rw [hbr] at hihr
      rw [show buildEntries σ (.dictE k m rest) =
          (σ3, ⟨strBytes "40000", k,
            gitHashHex (strBytes "tree") (serializeEntries subEs)⟩ :: es,
            (tr1 ++ [⟨strBytes "tree", subEs, serializeEntries subEs,
              gitHashHex (strBytes "tree") (serializeEntries subEs)⟩]) ++ tr2) by
        simp [buildEntries, hbm, storeObject, hbr]]
      constructor
      · rw [traceOk_append, traceOk_append]
        have hat1 := buildEntries_applyTrace m σ
        rw [hbm] at hat1
        rw [applyTrace_append, hat1, hihm.1]
        have hev : traceOk σ1 [⟨strBytes "tree", subEs, serializeEntries subEs,
            gitHashHex (strBytes "tree") (serializeEntries subEs)⟩] = true := by
          show (subEs.all (fun ent => decide (ent.hashHex ∈ dictKeys σ1)) && true) = true
          rw [Bool.and_true, List.all_eq_true]
          intro ent hent
          exact decide_eq_true (hihm.2 ent hent)
        rw [hev]
        rw [show applyTrace σ1 [⟨strBytes "tree", subEs, serializeEntries subEs,
            gitHashHex (strBytes "tree") (serializeEntries subEs)⟩] =
          dictSet σ1 (gitHashHex (strBytes "tree") (serializeEntries subEs))
            (gitSerialize (strBytes "tree") (serializeEntries subEs)) from rfl]
        rw [hihr.1]
        rfl
      · intro e he
        rcases List.mem_cons.mp he with rfl | he
        · have h1 : gitHashHex (strBytes "tree") (serializeEntries subEs) ∈
              dictKeys (dictSet σ1
                (gitHashHex (strBytes "tree") (serializeEntries subEs))
                (gitSerialize (strBytes "tree") (serializeEntries subEs))) :=
            (dictKeys_set _ _ _ _).mpr (Or.inr rfl)
          have h2 := buildEntries_store_mono rest _ _ h1
          rw [hbr] at h2
          exact h2
        · exact hihr.2 e he

theorem buildTree_traceOk (σ : Store) (m : PyDict)
    (hs : ∀ s ∈ pdStrs m, s ∈ dictKeys σ) :
    traceOk σ (buildTree σ m).2.2 = true := by
  rcases hbe : buildEntries σ m with ⟨σ1, es, tr⟩
  have hok := buildEntries_traceOk m σ hs
  have hat := buildEntries_applyTrace m σ
  rw [hbe] at hok hat
  rw [show buildTree σ m =
      (dictSet σ1 (gitHashHex (strBytes "tree") (serializeEntries es))
        (gitSerialize (strBytes "tree") (serializeEntries es)),
      gitHashHex (strBytes "tree") (serializeEntries es),
      tr ++ [⟨strBytes "tree", es, serializeEntries es,
        gitHashHex (strBytes "tree") (serializeEntries es)⟩]) by
    simp [buildTree, hbe, storeObject]]
  rw [traceOk_append, hok.1, hat]
  show (true && (es.all (fun ent => decide (ent.hashHex ∈ dictKeys σ1)) && true)) = true
  rw [Bool.true_and, Bool.and_true, List.all_eq_true]
  intro ent hent
  exact decide_eq_true (hok.2 ent hent)

/-- C5: tree building is post-order (src/main.py lines 236-273): in the
write trace of `create_tree_from_index`, at the moment each tree object
is stored every digest referenced by its entry list — staged blob
digests (assumed present in the store, as `add` guarantees) and subtree
digests — is already a key of the object store; and building from an
empty index stores and returns the canonical empty-tree digest. -/
theorem tree_build_post_order (σ σ1 : Store) (idx : List (Bytes × Bytes))
    (root : Bytes) (tr : List Event)
    (hok : createTreeFromIndex σ idx = .ok (σ1, root, tr))
    (hblobs : ∀ kv ∈ idx, kv.2 ∈ dictKeys σ) :
    traceOk σ tr = true ∧
    ∀ σ0 : Store, ∃ s t, createTreeFromIndex σ0 [] = .ok (s, emptyTreeDigest, t) := by
  constructor
  · unfold createTreeFromIndex at hok
    split at hok
    · simp only [storeObject, Except.ok.injEq] at hok
      have h3 : [(⟨strBytes "tree", [], serializeEntries [],
          gitHashHex (strBytes "tree") (serializeEntries [])⟩ : Event)] = tr :=
        congrArg (fun x => x.2.2) hok
      subst h3
      rfl
    · split at hok
      · cases hok
      · rename_i files dirs heq
        rcases hbt : buildTree σ (pdMerge files dirs) with ⟨σ2, h2, tr2⟩
        rw [hbt] at hok
        cases hok
        have hmerge : ∀ s ∈ pdStrs (pdMerge files dirs), s ∈ dictKeys σ := by
          intro s hsm
          rcases pdMerge_strs dirs files s hsm with h1 | h1
          · rcases buildDicts_aux_strs idx (PyDict.nil, PyDict.nil) (files, dirs)
                heq s (Or.inl h1) with h2 | h2
            · rcases h2 with h2 | h2 <;> simp [pdStrs] at h2
            · obtain ⟨kv, hkv, rfl⟩ := h2
              exact hblobs kv hkv
          · rcases buildDicts_aux_strs idx (PyDict.nil, PyDict.nil) (files, dirs)
                heq s (Or.inr h1) with h2 | h2
            · rcases h2 with h2 | h2 <;> simp [pdStrs] at h2
            · obtain ⟨kv, hkv, rfl⟩ := h2
              exact hblobs kv hkv
        have hto := buildTree_traceOk σ (pdMerge files dirs) hmerge
        rw [hbt] at hto
        exact hto
  · intro σ0
    exact ⟨_, _, rfl⟩

/-- C5 witness: the theorem applied to the empty store and empty index;
the single write is the empty tree at the canonical empty-tree digest
and the trace is post-order. -/
theorem tree_build_post_order_witness :
    createTreeFromIndex ([] : Store) [] =
      .ok ([(emptyTreeDigest, gitSerialize (strBytes "tree") [])], emptyTreeDigest,
        [⟨strBytes "tree", [], [], emptyTreeDigest⟩]) ∧
    traceOk [] [(⟨strBytes "tree", [], [], emptyTreeDigest⟩ : Event)] = true := by
  constructor
  · rfl
  · exact (tree_build_post_order [] [(emptyTreeDigest, gitSerialize (strBytes "tree") [])]
      [] emptyTreeDigest [⟨strBytes "tree", [], [], emptyTreeDigest⟩] rfl
      (fun kv hkv => absurd hkv (List.not_mem_nil kv))).1


/-! ### Path splitting and joining -/

theorem joinWith_cons (sep : Nat) (x : Bytes) : ∀ (xs : List Bytes), xs ≠ [] →
    joinWith sep (x :: xs) = x ++ sep :: joinWith sep xs
  | [], h => absurd rfl h
  | _ :: _, _ => rfl

theorem isPreOf_refl {α : Type} [DecidableEq α] (l : List α) : isPreOf l l = true := by
  induction l with
  | nil => rfl
  | cons a as ih => simp [isPreOf, ih]

theorem isPreOf_cons_same {α : Type} [DecidableEq α] (a : α) (q r : List α) :
    isPreOf (a :: q) (a :: r) = isPreOf q r := by
  simp [isPreOf]

theorem noPrefixPair_split {a b : Bytes} (h : noPrefixPair a b = true) :
    isPreOf (segsOf a) (segsOf b) = false ∧ isPreOf (segsOf b) (segsOf a) = false := by
  simp [noPrefixPair] at h
  exact h

theorem pairwise_noPrefix_of_mem {l : List Bytes}
    (h : l.Pairwise (fun a b => noPrefixPair a b = true))
    {a b : Bytes} (ha : a ∈ l) (hb : b ∈ l) (hne : a ≠ b) :
    isPreOf (segsOf a) (segsOf b) = false := by
  induction l with
  | nil => cases ha
  | cons x t ih =>
      obtain ⟨hx, ht⟩ := List.pairwise_cons.mp h
      rcases List.mem_cons.mp ha with rfl | ha2
      · rcases List.mem_cons.mp hb with rfl | hb2
        · exact absurd rfl hne
        · exact (noPrefixPair_split (hx b hb2)).1
      · rcases List.mem_cons.mp hb with rfl | hb2
        · exact (noPrefixPair_split (hx a ha2)).2
        · exact ih ht ha2 hb2

theorem le_foldr_max : ∀ (l : List Nat) (x : Nat), x ∈ l → x ≤ l.foldr max 0 := by
  intro l
  induction l with
  | nil => intro x h; cases h
  | cons a t ih =>
      intro x h
      rcases List.mem_cons.mp h with rfl | h
      · exact Nat.le_max_left _ _
      · exact Nat.le_trans (ih x h) (Nat.le_max_right _ _)

theorem mem_setInsert (l : List Bytes) (y x : Bytes) :
    x ∈ setInsert l y ↔ x ∈ l ∨ x = y := by
  rw [setInsert]
  by_cases hy : y ∈ l
  · rw [if_pos hy]
    constructor
    · exact Or.inl
    · rintro (h | rfl)
      · exact h
      · exact hy
  · rw [if_neg hy]
    simp

theorem mem_setUnion : ∀ (m l : List Bytes) (x : Bytes),
    x ∈ setUnion l m ↔ x ∈ l ∨ x ∈ m := by
  intro m
  induction m with
  | nil => intro l x; simp [setUnion]
  | cons y t ih =>
      intro l x
      show x ∈ List.foldl setInsert (setInsert l y) t ↔ _
      rw [show List.foldl setInsert (setInsert l y) t = setUnion (setInsert l y) t from rfl]
      rw [ih (setInsert l y) x, mem_setInsert]
      rw [List.mem_cons]
      tauto


/-! ### Structural lemmas about the nested staging dicts -/

theorem pdSegs_pdCons (k : Bytes) (v : PyVal) (rest : PyDict) :
    pdSegs (pdCons k v rest) = pdValSegs k v ++ pdSegs rest := by
  cases v <;> rfl

theorem pdKeys_pdCons (k : Bytes) (v : PyVal) (rest : PyDict) :
    pdKeys (pdCons k v rest) = k :: pdKeys rest := by
  cases v <;> rfl

theorem pdGet?_none_iff : ∀ (m : PyDict) (k : Bytes),
    pdGet? m k = none ↔ k ∉ pdKeys m := by
  intro m
  induction m with
  | nil => intro k; simp [pdGet?, pdKeys]
  | strE k1 h1 rest ih =>
      intro k
      by_cases hk : k1 = k
      · subst hk
        simp [pdGet?, pdKeys]
      · rw [show pdGet? (.strE k1 h1 rest) k = pdGet? rest k by simp [pdGet?, hk]]
        rw [show pdKeys (.strE k1 h1 rest) = k1 :: pdKeys rest from rfl]
        rw [ih k]
        constructor
        · intro h hc
          rcases List.mem_cons.mp hc with rfl | hc
          · exact hk rfl
          · exact h hc
        · intro h hc
          exact h (List.mem_cons_of_mem _ hc)
  | dictE k1 m1 rest _ ih =>
      intro k
      by_cases hk : k1 = k
      · subst hk
        simp [pdGet?, pdKeys]
      · rw [show pdGet? (.dictE k1 m1 rest) k = pdGet? rest k by simp [pdGet?, hk]]
        rw [show pdKeys (.dictE k1 m1 rest) = k1 :: pdKeys rest from rfl]
        rw [ih k]
        constructor
        · intro h hc
          rcases List.mem_cons.mp hc with rfl | hc
          · exact hk rfl
          · exact h hc
        · intro h hc
          exact h (List.mem_cons_of_mem _ hc)

theorem pdSegs_pdSet_none : ∀ (m : PyDict) (k : Bytes) (v : PyVal),
    pdGet? m k = none → pdSegs (pdSet m k v) = pdSegs m ++ pdValSegs k v := by
  intro m
  induction m with
  | nil =>
      intro k v _
      rw [show pdSet .nil k v = pdCons k v .nil from rfl, pdSegs_pdCons]
      simp [pdSegs]
  | strE k1 h1 rest ih =>
      intro k v hn
      have hk : k1 ≠ k := by
        intro hc
        rw [show pdGet? (.strE k1 h1 rest) k = some (.str h1) by simp [pdGet?, hc]] at hn
        cases hn
      have hn2 : pdGet? rest k = none := by
        rw [show pdGet? (.strE k1 h1 rest) k = pdGet? rest k by simp [pdGet?, hk]] at hn
        exact hn
      rw [show pdSet (.strE k1 h1 rest) k v = .strE k1 h1 (pdSet rest k v) by
        simp [pdSet, hk]]
      show [k1] :: pdSegs (pdSet rest k v) = ([k1] :: pdSegs rest) ++ pdValSegs k v
      rw [ih k v hn2, List.cons_append]
  | dictE k1 m1 rest _ ih =>
      intro k v hn
      have hk : k1 ≠ k := by
        intro hc
        rw [show pdGet? (.dictE k1 m1 rest) k = some (.dict m1) by simp [pdGet?, hc]] at hn
        cases hn
      have hn2 : pdGet? rest k = none := by
        rw [show pdGet? (.dictE k1 m1 rest) k = pdGet? rest k by simp [pdGet?, hk]] at hn
        exact hn
      rw [show pdSet (.dictE k1 m1 rest) k v = .dictE k1 m1 (pdSet rest k v) by
        simp [pdSet, hk]]
      show (pdSegs m1).map (k1 :: ·) ++ pdSegs (pdSet rest k v) =
        ((pdSegs m1).map (k1 :: ·) ++ pdSegs rest) ++ pdValSegs k v
      rw [ih k v hn2, List.append_assoc]

theorem pdKeys_pdSet_none : ∀ (m : PyDict) (k : Bytes) (v : PyVal),
    pdGet? m k = none → pdKeys (pdSet m k v) = pdKeys m ++ [k] := by
  intro m
  induction m with
  | nil =>
      intro k v _
      rw [show pdSet .nil k v = pdCons k v .nil from rfl, pdKeys_pdCons]
      rfl
  | strE k1 h1 rest ih =>
      intro k v hn
      have hk : k1 ≠ k := by
        intro hc
        rw [show pdGet? (.strE k1 h1 rest) k = some (.str h1) by simp [pdGet?, hc]] at hn
        cases hn
      have hn2 : pdGet? rest k = none := by
        rw [show pdGet? (.strE k1 h1 rest) k = pdGet? rest k by simp [pdGet?, hk]] at hn
        exact hn
      rw [show pdSet (.strE k1 h1 rest) k v = .strE k1 h1 (pdSet rest k v) by
        simp [pdSet, hk]]
      show k1 :: pdKeys (pdSet rest k v) = (k1 :: pdKeys rest) ++ [k]
      rw [ih k v hn2]
      rfl
  | dictE k1 m1 rest _ ih =>
      intro k v hn
      have hk : k1 ≠ k := by
        intro hc
        rw [show pdGet? (.dictE k1 m1 rest) k = some (.dict m1) by simp [pdGet?, hc]] at hn
        cases hn
      have hn2 : pdGet? rest k = none := by
        rw [show pdGet? (.dictE k1 m1 rest) k = pdGet? rest k by simp [pdGet?, hk]] at hn
        exact hn
      rw [show pdSet (.dictE k1 m1 rest) k v = .dictE k1 m1 (pdSet rest k v) by
        simp [pdSet, hk]]
      show k1 :: pdKeys (pdSet rest k v) = (k1 :: pdKeys rest) ++ [k]
      rw [ih k v hn2]
      rfl

theorem pdKeys_pdSet_mem : ∀ (m : PyDict) (k : Bytes) (v : PyVal) (q : Bytes),
    q ∈ pdKeys (pdSet m k v) → q ∈ pdKeys m ∨ q = k := by
  intro m
  induction m with
  | nil =>
      intro k v q hq
      rw [show pdSet .nil k v = pdCons k v .nil from rfl, pdKeys_pdCons] at hq
      rcases List.mem_cons.mp hq with rfl | hq
      · exact Or.inr rfl
      · simp [pdKeys] at hq
  | strE k1 h1 rest ih =>
      intro k v q hq
      by_cases hk : k1 = k
      · rw [show pdSet (.strE k1 h1 rest) k v = pdCons k1 v rest by simp [pdSet, hk],
          pdKeys_pdCons] at hq
        rcases List.mem_cons.mp hq with rfl | hq
        · exact Or.inl (List.mem_cons_self _ _)
        · exact Or.inl (List.mem_cons_of_mem _ hq)
      · rw [show pdSet (.strE k1 h1 rest) k v = .strE k1 h1 (pdSet rest k v) by
          simp [pdSet, hk]] at hq
        rcases List.mem_cons.mp hq with rfl | hq
        · exact Or.inl (List.mem_cons_self _ _)
        · rcases ih k v q hq with h | h
          · exact Or.inl (List.mem_cons_of_mem _ h)
          · exact Or.inr h
  | dictE k1 m1 rest _ ih =>
      intro k v q hq
      by_cases hk : k1 = k
      · rw [show pdSet (.dictE k1 m1 rest) k v = pdCons k1 v rest by simp [pdSet, hk],
          pdKeys_pdCons] at hq
        rcases List.mem_cons.mp hq with rfl | hq
        · exact Or.inl (List.mem_cons_self _ _)
        · exact Or.inl (List.mem_cons_of_mem _ hq)
      · rw [show pdSet (.dictE k1 m1 rest) k v = .dictE k1 m1 (pdSet rest k v) by
          simp [pdSet, hk]] at hq
        rcases List.mem_cons.mp hq with rfl | hq
        · exact Or.inl (List.mem_cons_self _ _)
        · rcases ih k v q hq with h | h
          · exact Or.inl (List.mem_cons_of_mem _ h)
          · exact Or.inr h

theorem pdWf_pdSet : ∀ (m : PyDict) (k : Bytes) (v : PyVal),
    pdWf m → (0 : Nat) ∉ k → pdValWf v → pdWf (pdSet m k v) := by
  intro m
  induction m with
  | nil =>
      intro k v _ h0 hv
      rw [show pdSet .nil k v = pdCons k v .nil from rfl]
      cases v with
      | str h =>
          show (0 : Nat) ∉ k ∧ isHex40 h = true ∧ k ∉ pdKeys .nil ∧ pdWf .nil
          exact ⟨h0, hv, by simp [pdKeys], trivial⟩
      | dict sub =>
          show (0 : Nat) ∉ k ∧ pdWf sub ∧ sub ≠ .nil ∧ k ∉ pdKeys .nil ∧ pdWf .nil
          exact ⟨h0, hv.1, hv.2, by simp [pdKeys], trivial⟩
  | strE k1 h1 rest ih =>
      intro k v hwf h0 hv
      obtain ⟨h01, hhex1, hk1, hwr⟩ := hwf
      by_cases hk : k1 = k
      · subst hk
        rw [show pdSet (.strE k1 h1 rest) k1 v = pdCons k1 v rest by simp [pdSet]]
        cases v with
        | str h =>
            show (0 : Nat) ∉ k1 ∧ isHex40 h = true ∧ k1 ∉ pdKeys rest ∧ pdWf rest
            exact ⟨h01, hv, hk1, hwr⟩
        | dict sub =>
            show (0 : Nat) ∉ k1 ∧ pdWf sub ∧ sub ≠ .nil ∧ k1 ∉ pdKeys rest ∧ pdWf rest
            exact ⟨h01, hv.1, hv.2, hk1, hwr⟩
      · rw [show pdSet (.strE k1 h1 rest) k v = .strE k1 h1 (pdSet rest k v) by
          simp [pdSet, hk]]
        refine ⟨h01, hhex1, ?_, ih k v hwr h0 hv⟩
        intro hc
        rcases pdKeys_pdSet_mem rest k v k1 hc with hc | hc
        · exact hk1 hc
        · exact hk hc
  | dictE k1 m1 rest _ ih =>
      intro k v hwf h0 hv
      obtain ⟨h01, hwm1, hm1ne, hk1, hwr⟩ := hwf
      by_cases hk : k1 = k
      · subst hk
        rw [show pdSet (.dictE k1 m1 rest) k1 v = pdCons k1 v rest by simp [pdSet]]
        cases v with
        | str h =>
            show (0 : Nat) ∉ k1 ∧ isHex40 h = true ∧ k1 ∉ pdKeys rest ∧ pdWf rest
            exact ⟨h01, hv, hk1, hwr⟩
        | dict sub =>
            show (0 : Nat) ∉ k1 ∧ pdWf sub ∧ sub ≠ .nil ∧ k1 ∉ pdKeys rest ∧ pdWf rest
            exact ⟨h01, hv.1, hv.2, hk1, hwr⟩
      · rw [show pdSet (.dictE k1 m1 rest) k v = .dictE k1 m1 (pdSet rest k v) by
          simp [pdSet, hk]]
        refine ⟨h01, hwm1, hm1ne, ?_, ih k v hwr h0 hv⟩
        intro hc
        rcases pdKeys_pdSet_mem rest k v k1 hc with hc | hc
        · exact hk1 hc
        · exact hk hc

theorem pdSet_ne_nil : ∀ (m : PyDict) (k : Bytes) (v : PyVal), pdSet m k v ≠ .nil := by
  intro m k v
  cases m with
  | nil =>
      rw [show pdSet .nil k v = pdCons k v .nil from rfl]
      cases v <;> simp [pdCons]
  | strE k1 h1 rest =>
      by_cases hk : k1 = k
      · rw [show pdSet (.strE k1 h1 rest) k v = pdCons k1 v rest by simp [pdSet, hk]]
        cases v <;> simp [pdCons]
      · rw [show pdSet (.strE k1 h1 rest) k v = .strE k1 h1 (pdSet rest k v) by
          simp [pdSet, hk]]
        simp
  | dictE k1 m1 rest =>
      by_cases hk : k1 = k
      · rw [show pdSet (.dictE k1 m1 rest) k v = pdCons k1 v rest by simp [pdSet, hk]]
        cases v <;> simp [pdCons]
      · rw [show pdSet (.dictE k1 m1 rest) k v = .dictE k1 m1 (pdSet rest k v) by
          simp [pdSet, hk]]
        simp

theorem pdSegs_nonempty : ∀ (d : PyDict), pdWf d → d ≠ .nil →
    ∃ segs, segs ∈ pdSegs d := by
  intro d
  induction d with
  | nil => intro _ h; exact absurd rfl h
  | strE k h rest _ => intro _ _; exact ⟨[k], List.mem_cons_self _ _⟩
  | dictE k sub rest ihs _ =>
      intro hwf _
      obtain ⟨_, hws, hsne, _, _⟩ := hwf
      obtain ⟨q, hq⟩ := ihs hws hsne
      refine ⟨k :: q, ?_⟩
      show k :: q ∈ (pdSegs sub).map (k :: ·) ++ pdSegs rest
      exact List.mem_append.mpr (Or.inl (List.mem_map.mpr ⟨q, hq, rfl⟩))

theorem pdSegs_elem_ne_nil : ∀ (d : PyDict), ∀ segs ∈ pdSegs d, segs ≠ [] := by
  intro d
  induction d with
  | nil => intro segs h; simp [pdSegs] at h
  | strE k hd rest ih =>
      intro segs h
      rcases List.mem_cons.mp h with rfl | h
      · simp
      · exact ih segs h
  | dictE k sub rest _ ihr =>
      intro segs h
      rcases List.mem_append.mp h with h | h
      · obtain ⟨q, _, rfl⟩ := List.mem_map.mp h
        simp
      · exact ihr segs h

theorem pdKeys_head_segs : ∀ (m : PyDict), pdWf m → ∀ k ∈ pdKeys m,
    ∃ q, k :: q ∈ pdSegs m := by
  intro m
  induction m with
  | nil => intro _ k hk; simp [pdKeys] at hk
  | strE k1 h1 rest ih =>
      intro hwf k hk
      obtain ⟨_, _, _, hwr⟩ := hwf
      rcases List.mem_cons.mp hk with rfl | hk
      · exact ⟨[], List.mem_cons_self _ _⟩
      · obtain ⟨q, hq⟩ := ih hwr k hk
        exact ⟨q, List.mem_cons_of_mem _ hq⟩
  | dictE k1 sub rest ihs ihr =>
      intro hwf k hk
      obtain ⟨_, hws, hsne, _, hwr⟩ := hwf
      rcases List.mem_cons.mp hk with rfl | hk
      · obtain ⟨q, hq⟩ := pdSegs_nonempty sub hws hsne
        refine ⟨q, ?_⟩
        show k :: q ∈ (pdSegs sub).map (k :: ·) ++ pdSegs rest
        exact List.mem_append.mpr (Or.inl (List.mem_map.mpr ⟨q, hq, rfl⟩))
      · obtain ⟨q, hq⟩ := ihr hwr k hk
        refine ⟨q, ?_⟩
        show k :: q ∈ (pdSegs sub).map (k1 :: ·) ++ pdSegs rest
        exact List.mem_append.mpr (Or.inr hq)

theorem pdGet?_dict_wf : ∀ (m : PyDict), pdWf m → ∀ (p : Bytes) (sub : PyDict),
    pdGet? m p = some (.dict sub) → pdWf sub ∧ sub ≠ .nil := by
  intro m
  induction m with
  | nil => intro _ p sub h; cases h
  | strE k1 h1 rest ih =>
      intro hwf p sub h
      obtain ⟨_, _, _, hwr⟩ := hwf
      by_cases hk : k1 = p
      · rw [show pdGet? (.strE k1 h1 rest) p = some (.str h1) by simp [pdGet?, hk]] at h
        cases h
      · rw [show pdGet? (.strE k1 h1 rest) p = pdGet? rest p by simp [pdGet?, hk]] at h
        exact ih hwr p sub h
  | dictE k1 m1 rest _ ihr =>
      intro hwf p sub h
      obtain ⟨_, hwm, hmne, _, hwr⟩ := hwf
      by_cases hk : k1 = p
      · rw [show pdGet? (.dictE k1 m1 rest) p = some (.dict m1) by simp [pdGet?, hk]] at h
        cases h
        exact ⟨hwm, hmne⟩
      · rw [show pdGet? (.dictE k1 m1 rest) p = pdGet? rest p by simp [pdGet?, hk]] at h
        exact ihr hwr p sub h

theorem pdGet?_dict_segs : ∀ (m : PyDict) (p : Bytes) (sub : PyDict),
    pdGet? m p = some (.dict sub) → ∀ q ∈ pdSegs sub, p :: q ∈ pdSegs m := by
  intro m
  induction m with
  | nil => intro p sub h; cases h
  | strE k1 h1 rest ih =>
      intro p sub h q hq
      by_cases hk : k1 = p
      · rw [show pdGet? (.strE k1 h1 rest) p = some (.str h1) by simp [pdGet?, hk]] at h
        cases h
      · rw [show pdGet? (.strE k1 h1 rest) p = pdGet? rest p by simp [pdGet?, hk]] at h
        exact List.mem_cons_of_mem _ (ih p sub h q hq)
  | dictE k1 m1 rest _ ihr =>
      intro p sub h q hq
      by_cases hk : k1 = p
      · subst hk
        rw [show pdGet? (.dictE k1 m1 rest) k1 = some (.dict m1) by simp [pdGet?]] at h
        cases h
        show k1 :: q ∈ (pdSegs m1).map (k1 :: ·) ++ pdSegs rest
        exact List.mem_append.mpr (Or.inl (List.mem_map.mpr ⟨q, hq, rfl⟩))
      · rw [show pdGet? (.dictE k1 m1 rest) p = pdGet? rest p by simp [pdGet?, hk]] at h
        show p :: q ∈ (pdSegs m1).map (k1 :: ·) ++ pdSegs rest
        exact List.mem_append.mpr (Or.inr (ihr p sub h q hq))

theorem pdSegs_pdSet_dict : ∀ (m : PyDict) (p : Bytes) (sub sub' : PyDict)
    (tail : List Bytes),
    pdGet? m p = some (.dict sub) →
    (∀ q, q ∈ pdSegs sub' ↔ q ∈ pdSegs sub ∨ q = tail) →
    ∀ segs, segs ∈ pdSegs (pdSet m p (.dict sub')) ↔
      segs ∈ pdSegs m ∨ segs = p :: tail := by
  intro m
  induction m with
  | nil => intro p sub sub' tail h; cases h
  | strE k1 h1 rest ih =>
      intro p sub sub' tail h hiff segs
      by_cases hk : k1 = p
      · rw [show pdGet? (.strE k1 h1 rest) p = some (.str h1) by simp [pdGet?, hk]] at h
        cases h
      · rw [show pdGet? (.strE k1 h1 rest) p = pdGet? rest p by simp [pdGet?, hk]] at h
        rw [show pdSet (.strE k1 h1 rest) p (.dict sub') =
          .strE k1 h1 (pdSet rest p (.dict sub')) by simp [pdSet, hk]]
        show segs ∈ [k1] :: pdSegs (pdSet rest p (.dict sub')) ↔ _
        rw [List.mem_cons, ih p sub sub' tail h hiff segs]
        show _ ↔ segs ∈ [k1] :: pdSegs rest ∨ _
        rw [List.mem_cons]
        tauto
  | dictE k1 m1 rest _ ihr =>
      intro p sub sub' tail h hiff segs
      by_cases hk : k1 = p
      · subst hk
        rw [show pdGet? (.dictE k1 m1 rest) k1 = some (.dict m1) by simp [pdGet?]] at h
        cases h
        rw [show pdSet (.dictE k1 m1 rest) k1 (.dict sub') = .dictE k1 sub' rest by
          simp [pdSet, pdCons]]
        show segs ∈ (pdSegs sub').map (k1 :: ·) ++ pdSegs rest ↔
          segs ∈ (pdSegs m1).map (k1 :: ·) ++ pdSegs rest ∨ segs = k1 :: tail
        rw [List.mem_append, List.mem_append]
        constructor
        · rintro (hmm | hr)
          · obtain ⟨q, hq, rfl⟩ := List.mem_map.mp hmm
            rcases (hiff q).mp hq with h2 | rfl
            · exact Or.inl (Or.inl (List.mem_map.mpr ⟨q, h2, rfl⟩))
            · exact Or.inr rfl
          · exact Or.inl (Or.inr hr)
        · rintro ((hmm | hr) | rfl)
          · obtain ⟨q, hq, rfl⟩ := List.mem_map.mp hmm
            exact Or.inl (List.mem_map.mpr ⟨q, (hiff q).mpr (Or.inl hq), rfl⟩)
          · exact Or.inr hr
          · exact Or.inl (List.mem_map.mpr ⟨tail, (hiff tail).mpr (Or.inr rfl), rfl⟩)
      · rw [show pdGet? (.dictE k1 m1 rest) p = pdGet? rest p by simp [pdGet?, hk]] at h
        rw [show pdSet (.dictE k1 m1 rest) p (.dict sub') =
          .dictE k1 m1 (pdSet rest p (.dict sub')) by simp [pdSet, hk]]
        show segs ∈ (pdSegs m1).map (k1 :: ·) ++ pdSegs (pdSet rest p (.dict sub')) ↔ _
        rw [List.mem_append, ihr p sub sub' tail h hiff segs]
        show _ ↔ segs ∈ (pdSegs m1).map (k1 :: ·) ++ pdSegs rest ∨ _
        rw [List.mem_append]
        tauto


/-! ### The nested-path insertion of the index partition loop -/

theorem insertPath_spec : ∀ (mid : List Bytes) (m : PyDict) (last hx : Bytes)
    (m' : PyDict),
    insertPath m mid last hx = .ok m' →
    pdWf m →
    (∀ sg ∈ mid, (0 : Nat) ∉ sg) → (0 : Nat) ∉ last → isHex40 hx = true →
    (∀ segs ∈ pdSegs m, isPreOf segs (mid ++ [last]) = false ∧
      isPreOf (mid ++ [last]) segs = false) →
    pdWf m' ∧ m' ≠ .nil ∧
    (∀ segs, segs ∈ pdSegs m' ↔ segs ∈ pdSegs m ∨ segs = mid ++ [last]) := by
  intro mid
  induction mid with
  | nil =>
      intro m last hx m' hok hwf _ h0 hhex hfree
      rw [show insertPath m [] last hx = .ok (pdSet m last (.str hx)) from rfl] at hok
      cases hok
      have hnone : pdGet? m last = none := by
        rw [pdGet?_none_iff]
        intro hc
        obtain ⟨q, hq⟩ := pdKeys_head_segs m hwf last hc
        have hf := (hfree (last :: q) hq).2
        rw [show (([] : List Bytes) ++ [last]) = [last] from rfl] at hf
        rw [show isPreOf [last] (last :: q) =
          (decide (last = last) && isPreOf ([] : List Bytes) q) from rfl] at hf
        rw [show isPreOf ([] : List Bytes) q = true from rfl] at hf
        simp at hf
      refine ⟨pdWf_pdSet m last (.str hx) hwf h0 hhex, pdSet_ne_nil m last _, ?_⟩
      intro segs
      rw [pdSegs_pdSet_none m last (.str hx) hnone]
      rw [List.mem_append]
      rw [show pdValSegs last (PyVal.str hx) = [[last]] from rfl]
      simp
  | cons p ps ih =>
      intro m last hx m' hok hwf hsg0 h0 hhex hfree
      have hp0 : (0 : Nat) ∉ p := hsg0 p (List.mem_cons_self _ _)
      have hps0 : ∀ sg ∈ ps, (0 : Nat) ∉ sg := fun sg h => hsg0 sg (List.mem_cons_of_mem _ h)
      rcases hg : pdGet? m p with _ | v
      · rcases hins : insertPath .nil ps last hx with e | sub'
        · simp [insertPath, hg, hins] at hok
        · simp only [insertPath, hg, hins, Except.ok.injEq] at hok
          subst hok
          obtain ⟨hw', hne', hiff⟩ := ih PyDict.nil last hx sub' hins trivial hps0 h0 hhex
            (by intro segs hsegs; simp [pdSegs] at hsegs)
          refine ⟨pdWf_pdSet m p (.dict sub') hwf hp0 ⟨hw', hne'⟩, pdSet_ne_nil m p _, ?_⟩
          intro segs
          rw [pdSegs_pdSet_none m p (.dict sub') hg, List.mem_append]
          rw [show pdValSegs p (PyVal.dict sub') = (pdSegs sub').map (p :: ·) from rfl]
          constructor
          · rintro (hs | hs)
            · exact Or.inl hs
            · obtain ⟨q, hq, rfl⟩ := List.mem_map.mp hs
              rcases (hiff q).mp hq with h2 | rfl
              · simp [pdSegs] at h2
              · exact Or.inr rfl
          · rintro (hs | rfl)
            · exact Or.inl hs
            · exact Or.inr (List.mem_map.mpr ⟨ps ++ [last], (hiff _).mpr (Or.inr rfl), rfl⟩)
      · cases v with
        | str h1 => simp [insertPath, hg] at hok
        | dict sub =>
            rcases hins : insertPath sub ps last hx with e | sub'
            · simp [insertPath, hg, hins] at hok
            · simp only [insertPath, hg, hins, Except.ok.injEq] at hok
              subst hok
              obtain ⟨hws, hsne⟩ := pdGet?_dict_wf m hwf p sub hg
              have hfreesub : ∀ segs ∈ pdSegs sub, isPreOf segs (ps ++ [last]) = false ∧
                  isPreOf (ps ++ [last]) segs = false := by
                intro q hq
                have hmem := pdGet?_dict_segs m p sub hg q hq
                have h2 := hfree (p :: q) hmem
                constructor
                · have h3 := h2.1
                  rw [show ((p :: ps) ++ [last] : List Bytes) = p :: (ps ++ [last]) from rfl]
                    at h3
                  rw [isPreOf_cons_same] at h3
                  exact h3
                · have h3 := h2.2
                  rw [show ((p :: ps) ++ [last] : List Bytes) = p :: (ps ++ [last]) from rfl]
                    at h3
                  rw [isPreOf_cons_same] at h3
                  exact h3
              obtain ⟨hw', hne', hiff⟩ := ih sub last hx sub' hins hws hps0 h0 hhex hfreesub
              refine ⟨pdWf_pdSet m p (.dict sub') hwf hp0 ⟨hw', hne'⟩, pdSet_ne_nil m p _, ?_⟩
              intro segs
              rw [pdSegs_pdSet_dict m p sub sub' (ps ++ [last]) hg hiff segs]
              exact Iff.rfl


/-! ### The partition loop invariant -/

theorem buildDicts_spec : ∀ (idx : List (Bytes × Bytes)) (files dirs files' dirs' : PyDict),
    List.foldlM buildDictsStep (files, dirs) idx = .ok (files', dirs') →
    wfIndex idx = true →
    (dictKeys idx).Pairwise (fun a b => noPrefixPair a b = true) →
    pdWf files → pdWf dirs →
    (∀ segs ∈ pdSegs files, ∃ k, segs = [k]) →
    (∀ segs ∈ pdSegs dirs, 2 ≤ segs.length) →
    (∀ kv ∈ idx, ∀ segs, segs ∈ pdSegs files ∨ segs ∈ pdSegs dirs →
      isPreOf segs (segsOf kv.1) = false ∧ isPreOf (segsOf kv.1) segs = false) →
    pdWf files' ∧ pdWf dirs' ∧
    (∀ segs ∈ pdSegs files', ∃ k, segs = [k]) ∧
    (∀ segs ∈ pdSegs dirs', 2 ≤ segs.length) ∧
    (∀ segs, (segs ∈ pdSegs files' ∨ segs ∈ pdSegs dirs') ↔
      (segs ∈ pdSegs files ∨ segs ∈ pdSegs dirs) ∨ ∃ kv ∈ idx, segs = segsOf kv.1) := by
  intro idx
  induction idx with
  | nil =>
      intro files dirs files' dirs' hok _ _ hwf hwd hflat hlen _
      have h1 : (files, dirs) = (files', dirs') := Except.ok.inj hok
      have h2 : files = files' := congrArg Prod.fst h1
      have h3 : dirs = dirs' := congrArg Prod.snd h1
      subst h2
      subst h3
      refine ⟨hwf, hwd, hflat, hlen, ?_⟩
      intro segs
      simp
  | cons kv rest ih =>
      intro files dirs files' dirs' hok hwfi hpw hwf hwd hflat hlen hfree
      have hwfkv : ((segsOf kv.1).all (fun sg => decide ((0 : Nat) ∉ sg)) &&
          isHex40 kv.2) = true :=
        List.all_eq_true.mp hwfi kv (List.mem_cons_self _ _)
      have hwfkv2 : (segsOf kv.1).all (fun sg => decide ((0 : Nat) ∉ sg)) = true ∧
          isHex40 kv.2 = true := by
        rw [Bool.and_eq_true] at hwfkv
        exact hwfkv
      have hseg0 : ∀ sg ∈ segsOf kv.1, (0 : Nat) ∉ sg := by
        intro sg hsg
        exact of_decide_eq_true (List.all_eq_true.mp hwfkv2.1 sg hsg)
      have hhex : isHex40 kv.2 = true := hwfkv2.2
      have hwfr : wfIndex rest = true := by
        rw [wfIndex, List.all_eq_true]
        intro x hx
        exact List.all_eq_true.mp hwfi x (List.mem_cons_of_mem _ hx)
      have hpwh : ∀ b ∈ dictKeys rest, noPrefixPair kv.1 b = true :=
        (List.pairwise_cons.mp hpw).1
      have hpwt : (dictKeys rest).Pairwise (fun a b => noPrefixPair a b = true) :=
        (List.pairwise_cons.mp hpw).2
      rcases hstep : buildDictsStep (files, dirs) kv with e | fd1
      · simp only [List.foldlM, hstep, Except.bind] at hok
        cases hok
      · simp only [List.foldlM, hstep, Except.bind] at hok
        rcases hsegv : segsOf kv.1 with _ | ⟨n, _ | ⟨q, qs⟩⟩
        · exact absurd hsegv (splitAll_ne_nil 47 kv.1)
        · -- single-segment path goes to `files`
          simp only [buildDictsStep, hsegv, Except.ok.injEq] at hstep
          subst hstep
          have hn0 : (0 : Nat) ∉ n := hseg0 n (by rw [hsegv]; exact List.mem_cons_self _ _)
          have hnone : pdGet? files n = none := by
            rw [pdGet?_none_iff]
            intro hc
            obtain ⟨q2, hq2⟩ := pdKeys_head_segs files hwf n hc
            obtain ⟨k2, hk2⟩ := hflat (n :: q2) hq2
            obtain ⟨hk2a, hq2b⟩ := List.cons.inj hk2
            subst hq2b
            have hf := (hfree kv (List.mem_cons_self _ _) [n] (Or.inl hq2)).1
            rw [hsegv, isPreOf_refl] at hf
            cases hf
          have hwf1 : pdWf (pdSet files n (.str kv.2)) :=
            pdWf_pdSet files n (.str kv.2) hwf hn0 hhex
          have hsegs1 : pdSegs (pdSet files n (.str kv.2)) = pdSegs files ++ [[n]] := by
            rw [pdSegs_pdSet_none files n (.str kv.2) hnone]
            rfl
          have hih := ih (pdSet files n (.str kv.2)) dirs files' dirs' hok hwfr hpwt
            hwf1 hwd
            (by intro segs hs
                rw [hsegs1] at hs
                rcases List.mem_append.mp hs with hs | hs
                · exact hflat segs hs
                · exact ⟨n, List.mem_singleton.mp hs⟩)
            hlen
            (by intro kv2 hkv2 segs hs
                rcases hs with hs | hs
                · rw [hsegs1] at hs
                  rcases List.mem_append.mp hs with hs | hs
                  · exact hfree kv2 (List.mem_cons_of_mem _ hkv2) segs (Or.inl hs)
                  · rcases List.mem_singleton.mp hs with rfl
                    have hboth := noPrefixPair_split
                      (hpwh kv2.1 (List.mem_map.mpr ⟨kv2, hkv2, rfl⟩))
                    rw [hsegv] at hboth
                    exact ⟨hboth.1, hboth.2⟩
                · exact hfree kv2 (List.mem_cons_of_mem _ hkv2) segs (Or.inr hs))
          obtain ⟨hwf', hwd', hflat', hlen', hiff'⟩ := hih
          refine ⟨hwf', hwd', hflat', hlen', ?_⟩
          intro segs
          rw [hiff' segs, hsegs1]
          constructor
          · rintro ((hs | hs) | hs)
            · rcases List.mem_append.mp hs with hs | hs
              · exact Or.inl (Or.inl hs)
              · rcases List.mem_singleton.mp hs with rfl
                exact Or.inr ⟨kv, List.mem_cons_self _ _, hsegv.symm⟩
            · exact Or.inl (Or.inr hs)
            · obtain ⟨kv2, hkv2, h2⟩ := hs
              exact Or.inr ⟨kv2, List.mem_cons_of_mem _ hkv2, h2⟩
          · rintro ((hs | hs) | hs)
            · exact Or.inl (Or.inl (List.mem_append.mpr (Or.inl hs)))
            · exact Or.inl (Or.inr hs)
            · obtain ⟨kv2, hkv2, h2⟩ := hs
              rcases List.mem_cons.mp hkv2 with rfl | hkv2
              · subst h2
                refine Or.inl (Or.inl (List.mem_append.mpr (Or.inr ?_)))
                rw [hsegv]
                exact List.mem_singleton.mpr rfl
              · exact Or.inr ⟨kv2, hkv2, h2⟩
        · -- multi-segment path goes to `dirs`
          simp only [buildDictsStep, hsegv] at hstep
          split at hstep
          · cases hstep
          · rename_i dirs1 hins
            cases hstep
            have hpath : (n :: (q :: qs).dropLast) ++
                [(q :: qs).getLast (List.cons_ne_nil q qs)] = n :: q :: qs := by
              show n :: ((q :: qs).dropLast ++ [(q :: qs).getLast (List.cons_ne_nil q qs)]) =
                n :: q :: qs
              rw [List.dropLast_append_getLast]
            have hmid0 : ∀ sg ∈ n :: (q :: qs).dropLast, (0 : Nat) ∉ sg := by
              intro sg hsg
              apply hseg0
              rw [hsegv]
              rcases List.mem_cons.mp hsg with rfl | hsg
              · exact List.mem_cons_self _ _
              · exact List.mem_cons_of_mem _ (List.dropLast_subset _ hsg)
            have hlast0 : (0 : Nat) ∉ (q :: qs).getLast (List.cons_ne_nil q qs) := by
              apply hseg0
              rw [hsegv]
              exact List.mem_cons_of_mem _ (List.getLast_mem _)
            have hfreed : ∀ segs ∈ pdSegs dirs,
                isPreOf segs ((n :: (q :: qs).dropLast) ++
                  [(q :: qs).getLast (List.cons_ne_nil q qs)]) = false ∧
                isPreOf ((n :: (q :: qs).dropLast) ++
                  [(q :: qs).getLast (List.cons_ne_nil q qs)]) segs = false := by
              intro segs hs
              rw [hpath, ← hsegv]
              exact hfree kv (List.mem_cons_self _ _) segs (Or.inr hs)
            obtain ⟨hwd1, _, hiffd⟩ := insertPath_spec (n :: (q :: qs).dropLast) dirs
              ((q :: qs).getLast (List.cons_ne_nil q qs)) kv.2 dirs1 hins hwd
              hmid0 hlast0 hhex hfreed
            rw [hpath] at hiffd
            have hih := ih files dirs1 files' dirs' hok hwfr hpwt hwf hwd1 hflat
              (by intro segs hs
                  rcases (hiffd segs).mp hs with hs | hs
                  · exact hlen segs hs
                  · subst hs
                    rw [List.length_cons, List.length_cons]
                    omega)
              (by intro kv2 hkv2 segs hs
                  rcases hs with hs | hs
                  · exact hfree kv2 (List.mem_cons_of_mem _ hkv2) segs (Or.inl hs)
                  · rcases (hiffd segs).mp hs with hs | hs
                    · exact hfree kv2 (List.mem_cons_of_mem _ hkv2) segs (Or.inr hs)
                    · subst hs
                      have hboth := noPrefixPair_split
                        (hpwh kv2.1 (List.mem_map.mpr ⟨kv2, hkv2, rfl⟩))
                      rw [hsegv] at hboth
                      exact ⟨hboth.1, hboth.2⟩)
            obtain ⟨hwf', hwd', hflat', hlen', hiff'⟩ := hih
            refine ⟨hwf', hwd', hflat', hlen', ?_⟩
            intro segs
            rw [hiff' segs]
            constructor
            · rintro ((hs | hs) | hs)
              · exact Or.inl (Or.inl hs)
              · rcases (hiffd segs).mp hs with hs | hs
                · exact Or.inl (Or.inr hs)
                · exact Or.inr ⟨kv, List.mem_cons_self _ _, by rw [hsegv]; exact hs⟩
              · obtain ⟨kv2, hkv2, h2⟩ := hs
                exact Or.inr ⟨kv2, List.mem_cons_of_mem _ hkv2, h2⟩
            · rintro ((hs | hs) | hs)
              · exact Or.inl (Or.inl hs)
              · exact Or.inl (Or.inr ((hiffd segs).mpr (Or.inl hs)))
              · obtain ⟨kv2, hkv2, h2⟩ := hs
                rcases List.mem_cons.mp hkv2 with rfl | hkv2
                · refine Or.inl (Or.inr ((hiffd segs).mpr (Or.inr ?_)))
                  rw [h2, hsegv]
                · exact Or.inr ⟨kv2, hkv2, h2⟩


/-! ### Merging files and dirs into the root entry dict -/

theorem pdMerge_spec : ∀ (d f : PyDict),
    pdWf f → pdWf d →
    (∀ k ∈ pdKeys d, k ∉ pdKeys f) →
    pdWf (pdMerge f d) ∧
    (∀ segs, segs ∈ pdSegs (pdMerge f d) ↔ segs ∈ pdSegs f ∨ segs ∈ pdSegs d) := by
  intro d
  induction d with
  | nil =>
      intro f hwf _ _
      refine ⟨hwf, ?_⟩
      intro segs
      simp [pdMerge, pdSegs]
  | strE k hd rest ih =>
      intro f hwf hwd hdisj
      obtain ⟨h0, hhex, hknr, hwr⟩ := hwd
      have hkf : k ∉ pdKeys f := hdisj k (List.mem_cons_self _ _)
      have hnone : pdGet? f k = none := (pdGet?_none_iff f k).mpr hkf
      have hwf1 : pdWf (pdSet f k (.str hd)) := pdWf_pdSet f k (.str hd) hwf h0 hhex
      have hkeys1 := pdKeys_pdSet_none f k (.str hd) hnone
      have hsegs1 := pdSegs_pdSet_none f k (.str hd) hnone
      have hdisj1 : ∀ k2 ∈ pdKeys rest, k2 ∉ pdKeys (pdSet f k (.str hd)) := by
        intro k2 hk2 hc
        rw [hkeys1] at hc
        rcases List.mem_append.mp hc with hc | hc
        · exact hdisj k2 (List.mem_cons_of_mem _ hk2) hc
        · rcases List.mem_singleton.mp hc with rfl
          exact hknr hk2
      obtain ⟨hwm, hiffm⟩ := ih (pdSet f k (.str hd)) hwf1 hwr hdisj1
      refine ⟨hwm, ?_⟩
      intro segs
      rw [show pdMerge f (.strE k hd rest) = pdMerge (pdSet f k (.str hd)) rest from rfl]
      rw [hiffm segs, hsegs1]
      rw [show pdValSegs k (PyVal.str hd) = [[k]] from rfl]
      rw [List.mem_append]
      show _ ↔ segs ∈ pdSegs f ∨ segs ∈ [k] :: pdSegs rest
      simp only [List.mem_cons, List.mem_singleton, List.not_mem_nil, or_false]
      tauto
  | dictE k sub rest _ ihr =>
      intro f hwf hwd hdisj
      obtain ⟨h0, hws, hsne, hknr, hwr⟩ := hwd
      have hkf : k ∉ pdKeys f := hdisj k (List.mem_cons_self _ _)
      have hnone : pdGet? f k = none := (pdGet?_none_iff f k).mpr hkf
      have hwf1 : pdWf (pdSet f k (.dict sub)) := pdWf_pdSet f k (.dict sub) hwf h0 ⟨hws, hsne⟩
      have hkeys1 := pdKeys_pdSet_none f k (.dict sub) hnone
      have hsegs1 := pdSegs_pdSet_none f k (.dict sub) hnone
      have hdisj1 : ∀ k2 ∈ pdKeys rest, k2 ∉ pdKeys (pdSet f k (.dict sub)) := by
        intro k2 hk2 hc
        rw [hkeys1] at hc
        rcases List.mem_append.mp hc with hc | hc
        · exact hdisj k2 (List.mem_cons_of_mem _ hk2) hc
        · rcases List.mem_singleton.mp hc with rfl
          exact hknr hk2
      obtain ⟨hwm, hiffm⟩ := ihr (pdSet f k (.dict sub)) hwf1 hwr hdisj1
      refine ⟨hwm, ?_⟩
      intro segs
      rw [show pdMerge f (.dictE k sub rest) = pdMerge (pdSet f k (.dict sub)) rest from rfl]
      rw [hiffm segs, hsegs1]
      rw [show pdValSegs k (PyVal.dict sub) = (pdSegs sub).map (k :: ·) from rfl]
      rw [List.mem_append]
      show _ ↔ segs ∈ pdSegs f ∨ segs ∈ (pdSegs sub).map (k :: ·) ++ pdSegs rest
      rw [List.mem_append]
      tauto

/-! ### The builder's entry lists and write traces, compositionally -/

theorem buildEntries_entries (d : PyDict) : ∀ (σ : Store),
    (buildEntries σ d).2.1 = pdEntries d := by
  induction d with
  | nil => intro σ; rfl
  | strE k hd rest ih =>
      intro σ
      rcases hb : buildEntries σ rest with ⟨σ1, es, tr⟩
      rw [show buildEntries σ (.strE k hd rest) =
          (σ1, ⟨strBytes "100644", k, hd⟩ :: es, tr) by simp [buildEntries, hb]]
      have hh := ih σ
      rw [hb] at hh
      show ⟨strBytes "100644", k, hd⟩ :: es = pdEntries (.strE k hd rest)
      rw [show pdEntries (.strE k hd rest) =
        ⟨strBytes "100644", k, hd⟩ :: pdEntries rest from rfl]
      rw [show es = pdEntries rest from hh]
  | dictE k sub rest ihs ihr =>
      intro σ
      rcases hbm : buildEntries σ sub with ⟨σ1, subEs, tr1⟩
      rcases hbr : buildEntries (dictSet σ1
          (gitHashHex (strBytes "tree") (serializeEntries subEs))
          (gitSerialize (strBytes "tree") (serializeEntries subEs))) rest with
        ⟨σ3, es, tr2⟩
      rw [show buildEntries σ (.dictE k sub rest) =
          (σ3, ⟨strBytes "40000", k,
            gitHashHex (strBytes "tree") (serializeEntries subEs)⟩ :: es,
            (tr1 ++ [⟨strBytes "tree", subEs, serializeEntries subEs,
              gitHashHex (strBytes "tree") (serializeEntries subEs)⟩]) ++ tr2) by
        simp [buildEntries, hbm, storeObject, hbr]]
      have h1 := ihs σ
      rw [hbm] at h1
      have h2 := ihr (dictSet σ1
          (gitHashHex (strBytes "tree") (serializeEntries subEs))
          (gitSerialize (strBytes "tree") (serializeEntries subEs)))
      rw [hbr] at h2
      show ⟨strBytes "40000", k, gitHashHex (strBytes "tree") (serializeEntries subEs)⟩ ::
        es = pdEntries (.dictE k sub rest)
      rw [show es = pdEntries rest from h2]
      rw [show subEs = pdEntries sub from h1]
      rfl

theorem buildEntries_trace (d : PyDict) : ∀ (σ : Store),
    (buildEntries σ d).2.2 = pdTrace d := by
  induction d with
  | nil => intro σ; rfl
  | strE k hd rest ih =>
      intro σ
      rcases hb : buildEntries σ rest with ⟨σ1, es, tr⟩
      rw [show buildEntries σ (.strE k hd rest) =
          (σ1, ⟨strBytes "100644", k, hd⟩ :: es, tr) by simp [buildEntries, hb]]
      have hh := ih σ
      rw [hb] at hh
      exact hh
  | dictE k sub rest ihs ihr =>
      intro σ
      rcases hbm : buildEntries σ sub with ⟨σ1, subEs, tr1⟩
      rcases hbr : buildEntries (dictSet σ1
          (gitHashHex (strBytes "tree") (serializeEntries subEs))
          (gitSerialize (strBytes "tree") (serializeEntries subEs))) rest with
        ⟨σ3, es, tr2⟩
      rw [show buildEntries σ (.dictE k sub rest) =
          (σ3, ⟨strBytes "40000", k,
            gitHashHex (strBytes "tree") (serializeEntries subEs)⟩ :: es,
            (tr1 ++ [⟨strBytes "tree", subEs, serializeEntries subEs,
              gitHashHex (strBytes "tree") (serializeEntries subEs)⟩]) ++ tr2) by
        simp [buildEntries, hbm, storeObject, hbr]]
      have h1 := ihs σ
      rw [hbm] at h1
      have h2 := ihr (dictSet σ1
          (gitHashHex (strBytes "tree") (serializeEntries subEs))
          (gitSerialize (strBytes "tree") (serializeEntries subEs)))
      rw [hbr] at h2
      have hsub := buildEntries_entries sub σ
      rw [hbm] at hsub
      show (tr1 ++ [⟨strBytes "tree", subEs, serializeEntries subEs,
        gitHashHex (strBytes "tree") (serializeEntries subEs)⟩]) ++ tr2 =
        pdTrace (.dictE k sub rest)
      rw [show tr1 = pdTrace sub from h1, show tr2 = pdTrace rest from h2,
        show subEs = pdEntries sub from hsub]
      rfl

/-! ### Final-store lookups of traced writes -/

theorem dictGet?_dictSet {α : Type} : ∀ (d : List (Bytes × α)) (k : Bytes) (v : α)
    (q : Bytes), dictGet? (dictSet d k v) q = if k = q then some v else dictGet? d q := by
  intro d
  induction d with
  | nil =>
      intro k v q
      show dictGet? [(k, v)] q = _
      by_cases hq : k = q <;> simp [dictGet?, hq]
  | cons kv1 rest ih =>
      obtain ⟨k1, v1⟩ := kv1
      intro k v q
      by_cases hk : k1 = k
      · subst hk
        rw [show dictSet ((k1, v1) :: rest) k1 v = (k1, v) :: rest by simp [dictSet]]
        by_cases hq : k1 = q
        · subst hq
          simp [dictGet?]
        · simp [dictGet?, hq]
      · rw [show dictSet ((k1, v1) :: rest) k v = (k1, v1) :: dictSet rest k v by
          simp [dictSet, hk]]
        by_cases hq : k1 = q
        · subst hq
          have hkq : ¬k = k1 := fun hc => hk hc.symm
          simp [dictGet?, hkq]
        · simp [dictGet?, hq, ih k v q]

theorem trace_lookup_aux : ∀ (tr : List Event) (σ : Store) (d : Bytes) (v : Bytes),
    dictGet? σ d = some v →
    (∀ e ∈ tr, e.digest = d → gitSerialize e.etype e.content = v) →
    dictGet? (applyTrace σ tr) d = some v := by
  intro tr
  induction tr with
  | nil => intro σ d v h _; exact h
  | cons e rest ih =>
      intro σ d v h hall
      show dictGet? (applyTrace (applyEvent σ e) rest) d = some v
      apply ih
      · rw [show applyEvent σ e =
          dictSet σ e.digest (gitSerialize e.etype e.content) from rfl]
        rw [dictGet?_dictSet]
        by_cases hd : e.digest = d
        · rw [if_pos hd]
          rw [hall e (List.mem_cons_self _ _) hd]
        · rw [if_neg hd]
          exact h
      · intro e2 he2 hd2
        exact hall e2 (List.mem_cons_of_mem _ he2) hd2

theorem trace_lookup : ∀ (tr : List Event) (σ : Store) (e : Event), e ∈ tr →
    (∀ e1 ∈ tr, ∀ e2 ∈ tr, e1.digest = e2.digest → e1.content = e2.content) →
    (∀ e2 ∈ tr, e2.etype = strBytes "tree") →
    dictGet? (applyTrace σ tr) e.digest =
      some (gitSerialize (strBytes "tree") e.content) := by
  intro tr
  induction tr with
  | nil => intro σ e he; cases he
  | cons e1 rest ih =>
      intro σ e he hcol htypes
      rcases List.mem_cons.mp he with rfl | he2
      · show dictGet? (applyTrace (applyEvent σ e) rest) e.digest = _
        apply trace_lookup_aux
        · rw [show applyEvent σ e =
            dictSet σ e.digest (gitSerialize e.etype e.content) from rfl]
          rw [dictGet?_dictSet, if_pos rfl]
          rw [htypes e (List.mem_cons_self _ _)]
        · intro e2 he2 hd2
          rw [htypes e2 (List.mem_cons_of_mem _ he2)]
          rw [hcol e2 (List.mem_cons_of_mem _ he2) e (List.mem_cons_self _ _) hd2]
      · show dictGet? (applyTrace (applyEvent σ e1) rest) e.digest = _
        apply ih (applyEvent σ e1) e he2
        · intro a ha b hb hab
          exact hcol a (List.mem_cons_of_mem _ ha) b (List.mem_cons_of_mem _ hb) hab
        · intro a ha
          exact htypes a (List.mem_cons_of_mem _ ha)

/-! ### Digests are wellformed hex and built entries are wellformed -/

theorem isHexLower_hexDigitChar {m : Nat} (h : m < 16) :
    isHexLower (hexDigitChar m) = true := by
  rw [hexDigitChar]
  by_cases hm : m < 10
  · rw [if_pos hm]
    simp [isHexLower]
    omega
  · rw [if_neg hm]
    simp [isHexLower]
    omega

theorem isHex40_natToHex40 (n : Nat) : isHex40 (natToHex40 n) = true := by
  rw [isHex40, Bool.and_eq_true]
  constructor
  · simp [natToHex40]
  · rw [List.all_eq_true]
    intro c hc
    rw [natToHex40] at hc
    obtain ⟨i, _, rfl⟩ := List.mem_map.mp hc
    exact isHexLower_hexDigitChar (Nat.mod_lt _ (by omega))

theorem isHex40_gitHashHex (t c : Bytes) : isHex40 (gitHashHex t c) = true :=
  isHex40_natToHex40 _

theorem pdEntries_wf : ∀ (m : PyDict), pdWf m → ∀ e ∈ pdEntries m, wfEntry e := by
  intro m
  induction m with
  | nil => intro _ e he; simp [pdEntries] at he
  | strE k h rest ih =>
      intro hwf e he
      obtain ⟨h0, hhex, _, hwr⟩ := hwf
      rcases List.mem_cons.mp he with rfl | he
      · refine ⟨?_, ?_, h0, hhex⟩
        · show (0 : Nat) ∉ strBytes "100644"
          decide
        · show (32 : Nat) ∉ strBytes "100644"
          decide
      · exact ih hwr e he
  | dictE k sub rest _ ihr =>
      intro hwf e he
      obtain ⟨h0, _, _, _, hwr⟩ := hwf
      rcases List.mem_cons.mp he with rfl | he
      · refine ⟨?_, ?_, h0, ?_⟩
        · show (0 : Nat) ∉ strBytes "40000"
          decide
        · show (32 : Nat) ∉ strBytes "40000"
          decide
        · exact isHex40_gitHashHex _ _
      · exact ihr hwr e he


/-! ### Flattening the built tree -/

theorem pdDepth_le : ∀ (d : PyDict), pdWf d → ∀ (N : Nat),
    (∀ segs ∈ pdSegs d, segs.length ≤ N) → pdDepth d ≤ N := by
  intro d
  induction d with
  | nil => intro _ N _; exact Nat.zero_le N
  | strE k hd rest ih =>
      intro hwf N hb
      obtain ⟨_, _, _, hwr⟩ := hwf
      show pdDepth rest ≤ N
      exact ih hwr N (fun segs hs => hb segs (List.mem_cons_of_mem _ hs))
  | dictE k sub rest ihs ihr =>
      intro hwf N hb
      obtain ⟨_, hws, hsne, _, hwr⟩ := hwf
      show max (pdDepth sub + 1) (pdDepth rest) ≤ N
      have h1 : pdDepth rest ≤ N := by
        apply ihr hwr
        intro segs hs
        apply hb segs
        show segs ∈ (pdSegs sub).map (k :: ·) ++ pdSegs rest
        exact List.mem_append.mpr (Or.inr hs)
      have h2 : pdDepth sub ≤ N - 1 := by
        apply ihs hws
        intro q hq
        have hbq := hb (k :: q) (by
          show k :: q ∈ (pdSegs sub).map (k :: ·) ++ pdSegs rest
          exact List.mem_append.mpr (Or.inl (List.mem_map.mpr ⟨q, hq, rfl⟩)))
        rw [List.length_cons] at hbq
        omega
      have h3 : 1 ≤ N := by
        obtain ⟨q, hq⟩ := pdSegs_nonempty sub hws hsne
        have hbq := hb (k :: q) (by
          show k :: q ∈ (pdSegs sub).map (k :: ·) ++ pdSegs rest
          exact List.mem_append.mpr (Or.inl (List.mem_map.mpr ⟨q, hq, rfl⟩)))
        rw [List.length_cons] at hbq
        omega
      omega

theorem gfStep_str (fuel : Nat) (σ : Store) (pre : Bytes) (acc : List Bytes)
    (k hd : Bytes) :
    gfStep fuel σ pre acc ⟨strBytes "100644", k, hd⟩ = setInsert acc (pre ++ k) := rfl

theorem gfStep_dict (fuel : Nat) (σ : Store) (pre : Bytes) (acc : List Bytes)
    (k dh : Bytes) :
    gfStep fuel σ pre acc ⟨strBytes "40000", k, dh⟩ =
      setUnion acc (getFiles fuel σ dh (pre ++ k ++ [47])) := rfl

theorem getFiles_spec : ∀ (fuel : Nat) (m : PyDict) (σf : Store) (pre : Bytes),
    pdWf m → pdDepth m < fuel →
    (∀ e ∈ pdTrace m ++ [pdRootEvent m], dictGet? σf e.digest =
      some (gitSerialize (strBytes "tree") e.content)) →
    ∀ p, p ∈ getFiles fuel σf (pdRootDigest m) pre ↔
      ∃ segs ∈ pdSegs m, p = pre ++ joinWith 47 segs := by
  intro fuel
  induction fuel with
  | zero => intro m σf pre _ hd; exact absurd hd (Nat.not_lt_zero _)
  | succ fuel ih =>
      intro m σf pre hwf hd hsc p
      have hroot := hsc (pdRootEvent m)
        (List.mem_append.mpr (Or.inr (List.mem_singleton.mpr rfl)))
      have hload : loadObject σf (pdRootDigest m) =
          .ok (strBytes "tree", serializeEntries (pdEntries m)) := by
        rw [show (pdRootEvent m).digest = pdRootDigest m from rfl] at hroot
        rw [show (pdRootEvent m).content = serializeEntries (pdEntries m) from rfl] at hroot
        simp only [loadObject, hroot]
        exact gitDeserialize_gitSerialize _ _ (by decide) (by decide)
      have htf : treeFromContent (serializeEntries (pdEntries m)) = .ok (pdEntries m) :=
        treeFromContent_serializeEntries _ (pdEntries_wf m hwf)
      have hunfold : getFiles (fuel + 1) σf (pdRootDigest m) pre =
          (pdEntries m).foldl (gfStep fuel σf pre) [] := by
        simp only [getFiles, hload, htf]
        rfl
      rw [hunfold]
      have key : ∀ (d : PyDict), pdWf d → pdDepth d ≤ fuel →
          (∀ e ∈ pdTrace d, dictGet? σf e.digest =
            some (gitSerialize (strBytes "tree") e.content)) →
          ∀ (acc : List Bytes) (x : Bytes),
          x ∈ (pdEntries d).foldl (gfStep fuel σf pre) acc ↔
            x ∈ acc ∨ ∃ segs ∈ pdSegs d, x = pre ++ joinWith 47 segs := by
        intro d
        induction d with
        | nil =>
            intro _ _ _ acc x
            simp [pdEntries, pdSegs]
        | strE k hd2 rest ihrest =>
            intro hwfd hdep hscd acc x
            obtain ⟨_, _, _, hwr⟩ := hwfd
            rw [show pdEntries (.strE k hd2 rest) =
              ⟨strBytes "100644", k, hd2⟩ :: pdEntries rest from rfl]
            rw [List.foldl_cons, gfStep_str]
            rw [ihrest hwr hdep hscd (setInsert acc (pre ++ k)) x]
            rw [mem_setInsert]
            rw [show pdSegs (.strE k hd2 rest) = [k] :: pdSegs rest from rfl]
            constructor
            · rintro ((hx | hx) | ⟨segs, hs, rfl⟩)
              · exact Or.inl hx
              · refine Or.inr ⟨[k], List.mem_cons_self _ _, ?_⟩
                rw [hx]
                rfl
              · exact Or.inr ⟨segs, List.mem_cons_of_mem _ hs, rfl⟩
            · rintro (hx | ⟨segs, hs, rfl⟩)
              · exact Or.inl (Or.inl hx)
              · rcases List.mem_cons.mp hs with rfl | hs
                · exact Or.inl (Or.inr rfl)
                · exact Or.inr ⟨segs, hs, rfl⟩
        | dictE k sub rest ihsub ihrest =>
            intro hwfd hdep hscd acc x
            obtain ⟨h0, hws, hsne, hknr, hwr⟩ := hwfd
            rw [show pdEntries (.dictE k sub rest) =
              ⟨strBytes "40000", k, pdRootDigest sub⟩ :: pdEntries rest from rfl]
            rw [List.foldl_cons, gfStep_dict]
            rw [show pdDepth (.dictE k sub rest) =
              max (pdDepth sub + 1) (pdDepth rest) from rfl] at hdep
            have hdeprest : pdDepth rest ≤ fuel := by omega
            have hdepsub : pdDepth sub < fuel := by omega
            have hscsub : ∀ e ∈ pdTrace sub ++ [pdRootEvent sub],
                dictGet? σf e.digest =
                  some (gitSerialize (strBytes "tree") e.content) := by
              intro e he
              apply hscd
              show e ∈ (pdTrace sub ++ [pdRootEvent sub]) ++ pdTrace rest
              exact List.mem_append.mpr (Or.inl he)
            have hscrest : ∀ e ∈ pdTrace rest, dictGet? σf e.digest =
                some (gitSerialize (strBytes "tree") e.content) := by
              intro e he
              apply hscd
              show e ∈ (pdTrace sub ++ [pdRootEvent sub]) ++ pdTrace rest
              exact List.mem_append.mpr (Or.inr he)
            rw [ihrest hwr hdeprest hscrest
              (setUnion acc (getFiles fuel σf (pdRootDigest sub) (pre ++ k ++ [47]))) x]
            rw [mem_setUnion]
            rw [ih sub σf (pre ++ k ++ [47]) hws hdepsub hscsub x]
            rw [show pdSegs (.dictE k sub rest) =
              (pdSegs sub).map (k :: ·) ++ pdSegs rest from rfl]
            constructor
            · rintro ((hx | ⟨segs, hsg, rfl⟩) | ⟨segs, hsg, rfl⟩)
              · exact Or.inl hx
              · refine Or.inr ⟨k :: segs,
                  List.mem_append.mpr (Or.inl (List.mem_map.mpr ⟨segs, hsg, rfl⟩)), ?_⟩
                rw [joinWith_cons 47 k segs (pdSegs_elem_ne_nil sub segs hsg)]
                simp [List.append_assoc]
              · exact Or.inr ⟨segs, List.mem_append.mpr (Or.inr hsg), rfl⟩
            · rintro (hx | ⟨segs, hsg, rfl⟩)
              · exact Or.inl (Or.inl hx)
              · rcases List.mem_append.mp hsg with hsg | hsg
                · obtain ⟨q, hq, rfl⟩ := List.mem_map.mp hsg
                  refine Or.inl (Or.inr ⟨q, hq, ?_⟩)
                  rw [joinWith_cons 47 k q (pdSegs_elem_ne_nil sub q hq)]
                  simp [List.append_assoc]
                · exact Or.inr ⟨segs, hsg, rfl⟩
      rw [key m hwf (by omega) (fun e he => hsc e (List.mem_append.mpr (Or.inl he))) [] p]
      simp


/-! ### The flatten/build round trip (claim C4) -/

set_option maxRecDepth 1000000 in
/-- C4 counterexample: the claim says flattening the built tree yields
exactly the staged paths for every staging index, but with the
prefix-conflicting index `{"a": h1, "a/b": h2}` the root-dict update
`root_entries[dir] = content` (src/main.py line 272) silently replaces
the staged file `"a"` with the directory `"a"`: the flatten of the
built tree yields only `"a/b"`, and the staged path `"a"` is lost. -/
theorem tree_flatten_counterexample :
    strBytes "a" ∈ dictKeys cexIdx ∧
    cexFlat = [strBytes "a/b"] ∧
    strBytes "a" ∉ cexFlat := by
  have hc : cexFlat = [strBytes "a/b"] := by rfl
  refine ⟨by decide, hc, ?_⟩
  rw [hc]
  decide

/-- C4 amended: for a wellformed staging index (null-free path
segments, 40-character lowercase hex digests) whose paths are pairwise
segment-prefix-free, and absent digest collisions among the tree
objects written by the build, flattening the root tree built by
`create_tree_from_index` yields exactly the staged relative paths
(src/main.py lines 236-273 and 323-340). -/
theorem tree_flatten_amended (σ σ1 : Store) (idx : List (Bytes × Bytes))
    (root : Bytes) (tr : List Event)
    (hwfi : wfIndex idx = true)
    (hpw : (dictKeys idx).Pairwise (fun a b => noPrefixPair a b = true))
    (hok : createTreeFromIndex σ idx = .ok (σ1, root, tr))
    (hcol : ∀ e1 ∈ tr, ∀ e2 ∈ tr, e1.digest = e2.digest → e1.content = e2.content) :
    ∀ p, p ∈ getFiles (fuelBound idx) σ1 root [] ↔ p ∈ dictKeys idx := by
  intro p
  have htypes := createTree_types hok
  by_cases hnil : idx = []
  · subst hnil
    unfold createTreeFromIndex at hok
    rw [if_pos rfl] at hok
    simp only [storeObject, Except.ok.injEq] at hok
    have hσ : dictSet σ (gitHashHex (strBytes "tree") (serializeEntries []))
        (gitSerialize (strBytes "tree") (serializeEntries [])) = σ1 :=
      congrArg Prod.fst hok
    have hr : gitHashHex (strBytes "tree") (serializeEntries []) = root :=
      congrArg (fun x => x.2.1) hok
    show p ∈ getFiles 1 σ1 root [] ↔ p ∈ dictKeys ([] : List (Bytes × Bytes))
    have hload : loadObject σ1 root = .ok (strBytes "tree", serializeEntries []) := by
      simp only [loadObject]
      rw [← hσ, ← hr, dictGet?_dictSet, if_pos rfl]
      exact gitDeserialize_gitSerialize _ _ (by decide) (by decide)
    have hunf : getFiles 1 σ1 root [] = [] := by
      simp only [getFiles, hload]
      rw [show treeFromContent (serializeEntries []) = .ok ([] : List TreeEntry) from rfl]
      rfl
    rw [hunf]
    simp [dictKeys]
  · unfold createTreeFromIndex at hok
    rw [if_neg hnil] at hok
    split at hok
    · cases hok
    · rename_i files dirs heq
      rcases hbt : buildTree σ (pdMerge files dirs) with ⟨σ2, rt, tr2⟩
      rw [hbt] at hok
      cases hok
      have hinv := buildDicts_spec idx PyDict.nil PyDict.nil files dirs heq hwfi hpw
        trivial trivial
        (by intro segs hs; simp [pdSegs] at hs)
        (by intro segs hs; simp [pdSegs] at hs)
        (by intro kv _ segs hs; rcases hs with hs | hs <;> simp [pdSegs] at hs)
      obtain ⟨hwff, hwfd, hflatf, hlend, hiffU0⟩ := hinv
      have hiffU : ∀ segs, (segs ∈ pdSegs files ∨ segs ∈ pdSegs dirs) ↔
          ∃ kv ∈ idx, segs = segsOf kv.1 := by
        intro segs
        rw [hiffU0 segs]
        simp [pdSegs]
      have hdisj : ∀ k ∈ pdKeys dirs, k ∉ pdKeys files := by
        intro k hkd hkf
        obtain ⟨qf, hqf⟩ := pdKeys_head_segs files hwff k hkf
        obtain ⟨kf, hkf2⟩ := hflatf (k :: qf) hqf
        obtain ⟨hkeq, hqfe⟩ := List.cons.inj hkf2
        subst hqfe
        obtain ⟨qd, hqd⟩ := pdKeys_head_segs dirs hwfd k hkd
        have hlqd := hlend (k :: qd) hqd
        have hqdne : qd ≠ [] := by
          intro hc
          subst hc
          simp [List.length_cons] at hlqd
        obtain ⟨kv1, hkv1, hs1⟩ := (hiffU [k]).mp (Or.inl hqf)
        obtain ⟨kv2, hkv2, hs2⟩ := (hiffU (k :: qd)).mp (Or.inr hqd)
        have hnekeys : kv1.1 ≠ kv2.1 := by
          intro hc
          rw [hc] at hs1
          rw [← hs2] at hs1
          obtain ⟨_, h2⟩ := List.cons.inj hs1
          exact hqdne h2.symm
        have hpre := pairwise_noPrefix_of_mem hpw
          (List.mem_map.mpr ⟨kv1, hkv1, rfl⟩) (List.mem_map.mpr ⟨kv2, hkv2, rfl⟩) hnekeys
        rw [← hs1, ← hs2] at hpre
        rw [show isPreOf [k] (k :: qd) =
          (decide (k = k) && isPreOf ([] : List Bytes) qd) from rfl] at hpre
        rw [show isPreOf ([] : List Bytes) qd = true from rfl] at hpre
        simp at hpre
      obtain ⟨hwfM, hiffM⟩ := pdMerge_spec dirs files hwff hwfd hdisj
      have hents := buildEntries_entries (pdMerge files dirs) σ
      have htrace := buildEntries_trace (pdMerge files dirs) σ
      have hat0 := buildEntries_applyTrace (pdMerge files dirs) σ
      rcases hbe : buildEntries σ (pdMerge files dirs) with ⟨σe, es, tre⟩
      rw [hbe] at hents htrace hat0
      have hes : es = pdEntries (pdMerge files dirs) := hents
      have htre : tre = pdTrace (pdMerge files dirs) := htrace
      have hatp : applyTrace σ tre = σe := hat0
      rw [show buildTree σ (pdMerge files dirs) =
          (dictSet σe (gitHashHex (strBytes "tree") (serializeEntries es))
            (gitSerialize (strBytes "tree") (serializeEntries es)),
          gitHashHex (strBytes "tree") (serializeEntries es),
          tre ++ [⟨strBytes "tree", es, serializeEntries es,
            gitHashHex (strBytes "tree") (serializeEntries es)⟩]) by
        simp [buildTree, hbe, storeObject]] at hbt
      have hσ1 : σ1 = dictSet σe (gitHashHex (strBytes "tree") (serializeEntries es))
          (gitSerialize (strBytes "tree") (serializeEntries es)) :=
        (congrArg Prod.fst hbt).symm
      have hroot : root = gitHashHex (strBytes "tree") (serializeEntries es) :=
        (congrArg (fun x => x.2.1) hbt).symm
      have htr : tr = tre ++ [⟨strBytes "tree", es, serializeEntries es,
          gitHashHex (strBytes "tree") (serializeEntries es)⟩] :=
        (congrArg (fun x => x.2.2) hbt).symm
      have happ : applyTrace σ tr = σ1 := by
        rw [htr, applyTrace_append, hatp, hσ1]
        rfl
      have hsc : ∀ e ∈ pdTrace (pdMerge files dirs) ++ [pdRootEvent (pdMerge files dirs)],
          dictGet? σ1 e.digest = some (gitSerialize (strBytes "tree") e.content) := by
        intro e he
        rw [← happ]
        refine trace_lookup tr σ e ?_ hcol htypes
        rw [htr, htre, hes]
        exact he
      have hdepth : pdDepth (pdMerge files dirs) < fuelBound idx := by
        have hb : ∀ segs ∈ pdSegs (pdMerge files dirs),
            segs.length ≤ fuelBound idx - 1 := by
          intro segs hs
          rcases (hiffU segs).mp ((hiffM segs).mp hs) with ⟨kv, hkv, rfl⟩
          have hmm : (segsOf kv.1).length ∈ idx.map (fun kv => (segsOf kv.1).length) :=
            List.mem_map.mpr ⟨kv, hkv, rfl⟩
          have hle := le_foldr_max _ _ hmm
          have hfb : fuelBound idx =
            1 + (idx.map (fun kv => (segsOf kv.1).length)).foldr max 0 := rfl
          omega
        have hdl := pdDepth_le (pdMerge files dirs) hwfM (fuelBound idx - 1) hb
        have hfb : fuelBound idx =
          1 + (idx.map (fun kv => (segsOf kv.1).length)).foldr max 0 := rfl
        omega
      have hroot' : root = pdRootDigest (pdMerge files dirs) := by
        rw [hroot, hes]
        rfl
      rw [hroot']
      rw [getFiles_spec (fuelBound idx) (pdMerge files dirs) σ1 [] hwfM hdepth hsc p]
      constructor
      · rintro ⟨segs, hs, rfl⟩
        obtain ⟨kv, hkv, rfl⟩ := (hiffU segs).mp ((hiffM segs).mp hs)
        show ([] : Bytes) ++ joinWith 47 (segsOf kv.1) ∈ dictKeys idx
        rw [List.nil_append]
        rw [show segsOf kv.1 = splitAll 47 kv.1 from rfl, joinWith_splitAll]
        exact List.mem_map.mpr ⟨kv, hkv, rfl⟩
      · intro hp
        obtain ⟨kv, hkv, rfl⟩ := List.mem_map.mp hp
        refine ⟨segsOf kv.1, (hiffM _).mpr ((hiffU _).mpr ⟨kv, hkv, rfl⟩), ?_⟩
        rw [List.nil_append]
        rw [show segsOf kv.1 = splitAll 47 kv.1 from rfl, joinWith_splitAll]

set_option maxRecDepth 1000000 in
/-- C4 amended witness: the amended theorem applied to the spec's
example index `{"a": h1, "dir/b": h2, "dir/sub/c": h3}` built from the
empty store; the flatten recovers the nested path `"dir/sub/c"`. -/
theorem tree_flatten_amended_witness :
    wfIndex amIdx = true ∧
    ((strBytes "dir/sub/c" ∈ getFiles (fuelBound amIdx) amStore amRoot []) ↔
      strBytes "dir/sub/c" ∈ dictKeys amIdx) := by
  refine ⟨by decide, ?_⟩
  exact tree_flatten_amended [] amStore amIdx amRoot amTr (by decide) (by decide)
    rfl (by decide) (strBytes "dir/sub/c")

end MiniGit
